import Mathlib

/-!
# Red-black `custom::set<int>` of `main.cpp`

A shallow embedding of the pointer program.  The node graph lives in a store
(`set.store`): slot `0` is the member `m_nil_node`, every further slot is one
allocation of the node allocator, in allocation order; a slot that was handed
back to the allocator is `none`.  A `node_pointer` is `none` for `nullptr`
and `some i` for the address of slot `i`.  Dereferencing `nullptr` or a
released slot is a `Fault`; loops take a fuel argument and report
`Fault.out_of_fuel` when it is used up.
-/

namespace custom

/-- The `enum class Color` of `SetNode`. -/
inductive Color where
  | Red
  | Black
deriving DecidableEq, Repr

/-- A `SetNode*`: `none` is `nullptr`, `some i` the address of store slot `i`. -/
abbrev node_pointer := Option Nat

/-- The class `details::SetNode<int>` with its six data members. -/
structure SetNode where
  m_color : Color
  m_parent : node_pointer
  m_left_child : node_pointer
  m_right_child : node_pointer
  m_value : Int
  m_is_nil_node : Bool
deriving DecidableEq, Repr

/-- The data members of `custom::set<int>` that the operations touch; `store`
holds `m_nil_node` (slot `0`) and the allocated nodes. -/
structure set where
  store : List (Option SetNode)
  m_root : node_pointer
  m_size : Nat
deriving DecidableEq, Repr

/-- What goes wrong when the program leaves defined behaviour or the model
runs out of fuel. -/
inductive Fault where
  | null_deref
  | dangling
  | out_of_fuel
deriving DecidableEq, Repr

/-- The address `&m_nil_node` returned by `nil_node()`. -/
def nil_node : node_pointer := some 0

/-- The protected constructor `SetNode(true, Color::Black)`: links default to
`nullptr`. -/
def nil_SetNode : SetNode := ⟨Color.Black, none, none, none, 0, true⟩

/-- The public constructor `SetNode(value)` followed by the three `set_...`
calls of `_btree_insert`: colour defaults to Red, links point at the sentinel. -/
def new_SetNode (value : Int) : SetNode :=
  ⟨Color.Red, nil_node, nil_node, nil_node, value, false⟩

/-- The constructor `set()`: the sentinel is built and `m_root = nil_node()`. -/
def set.init : set := ⟨[some nil_SetNode], nil_node, 0⟩

/-- Reading `*p`. -/
def load (s : set) : node_pointer → Except Fault SetNode
  | none => Except.error Fault.null_deref
  | some i =>
    match s.store[i]? with
    | some (some n) => Except.ok n
    | _ => Except.error Fault.dangling

/-- Writing `*p` through one of the setters. -/
def modify (s : set) (p : node_pointer) (f : SetNode → SetNode) : Except Fault set :=
  match p with
  | none => Except.error Fault.null_deref
  | some i =>
    match s.store[i]? with
    | some (some n) => Except.ok { s with store := s.store.set i (some (f n)) }
    | _ => Except.error Fault.dangling

def parent (s : set) (p : node_pointer) : Except Fault node_pointer :=
  (load s p).map SetNode.m_parent

def left_child (s : set) (p : node_pointer) : Except Fault node_pointer :=
  (load s p).map SetNode.m_left_child

def right_child (s : set) (p : node_pointer) : Except Fault node_pointer :=
  (load s p).map SetNode.m_right_child

def color (s : set) (p : node_pointer) : Except Fault Color :=
  (load s p).map SetNode.m_color

def value (s : set) (p : node_pointer) : Except Fault Int :=
  (load s p).map SetNode.m_value

def is_nil_node (s : set) (p : node_pointer) : Except Fault Bool :=
  (load s p).map SetNode.m_is_nil_node

def is_red (s : set) (p : node_pointer) : Except Fault Bool :=
  (load s p).map (fun n => decide (n.m_color = Color.Red))

def is_black (s : set) (p : node_pointer) : Except Fault Bool :=
  (load s p).map (fun n => decide (n.m_color = Color.Black))

def set_parent (s : set) (p pc : node_pointer) : Except Fault set :=
  modify s p (fun n => { n with m_parent := pc })

def set_left_child (s : set) (p lc : node_pointer) : Except Fault set :=
  modify s p (fun n => { n with m_left_child := lc })

def set_right_child (s : set) (p rc : node_pointer) : Except Fault set :=
  modify s p (fun n => { n with m_right_child := rc })

def set_color (s : set) (p : node_pointer) (cl : Color) : Except Fault set :=
  modify s p (fun n => { n with m_color := cl })

def set_value (s : set) (p : node_pointer) (val : Int) : Except Fault set :=
  modify s p (fun n => { n with m_value := val })

/-- The member `size()`. -/
def size (s : set) : Nat := s.m_size

/-- The member `empty()`. -/
def empty (s : set) : Bool := decide (size s = 0)

def is_root (s : set) (node : node_pointer) : Bool := decide (node = s.m_root)

def is_left_child (s : set) (of_node : node_pointer) : Except Fault Bool := do
  let p ← parent s of_node
  if p = none then
    pure false
  else
    let l ← left_child s p
    pure (decide (l = of_node))

def is_right_child (s : set) (of_node : node_pointer) : Except Fault Bool := do
  let p ← parent s of_node
  if p = none then
    pure false
  else
    let r ← right_child s p
    pure (decide (r = of_node))

def uncle (s : set) (of_node : node_pointer) : Except Fault node_pointer := do
  let p ← parent s of_node
  let g ← parent s p
  let gl ← left_child s g
  if gl = p then
    right_child s g
  else
    left_child s g

def has_uncle (s : set) (of_node : node_pointer) : Except Fault Bool := do
  let u ← uncle s of_node
  pure (decide (u ≠ none))

/-- The member template `rotate<RotateType::Left>`. -/
def rotate_left (s : set) (node : node_pointer) : Except Fault set := do
  let r ← right_child s node
  let rnil ← is_nil_node s r
  if rnil then
    pure s
  else
    let node_p := node
    let _node_a ← left_child s node
    let node_b ← right_child s node
    let node_c ← left_child s node_b
    let s ← set_left_child s node_b node_p
    let pp ← parent s node_p
    let s ← set_parent s node_b pp
    let pp ← parent s node_p
    let s ←
      if pp ≠ none then do
        let il ← is_left_child s node_p
        let pp ← parent s node_p
        if il then set_left_child s pp node_b else set_right_child s pp node_b
      else
        pure s
    let s ← set_parent s node_p node_b
    let s ← set_right_child s node_p node_c
    let s ← set_parent s node_c node_p
    if is_root s node_p then
      pure { s with m_root := node_b }
    else
      pure s

/-- The member template `rotate<RotateType::Right>`. -/
def rotate_right (s : set) (node : node_pointer) : Except Fault set := do
  let l ← left_child s node
  let lnil ← is_nil_node s l
  if lnil then
    pure s
  else
    let node_p := node
    let node_a ← left_child s node
    let _node_c ← left_child s node_a
    let node_d ← right_child s node_a
    let s ← set_right_child s node_a node_p
    let pp ← parent s node_p
    let s ← set_parent s node_a pp
    let pp ← parent s node_p
    let s ←
      if pp ≠ none then do
        let il ← is_left_child s node_p
        let pp ← parent s node_p
        if il then set_left_child s pp node_a else set_right_child s pp node_a
      else
        pure s
    let s ← set_parent s node_p node_a
    let s ← set_left_child s node node_d
    let s ← set_parent s node_d node_p
    if is_root s node_p then
      pure { s with m_root := node_a }
    else
      pure s

/-- One pass through the body of the `while` loop of `balance_after_insert`;
returns the store and the new value of the local `new_node`. -/
def balance_after_insert_body (s : set) (new_node : node_pointer) :
    Except Fault (set × node_pointer) := do
  let hu ← has_uncle s new_node
  let ured ← if hu then do
      let u ← uncle s new_node
      is_red s u
    else pure false
  if ured then
    let p ← parent s new_node
    let s ← set_color s p Color.Black
    let p ← parent s new_node
    let g ← parent s p
    let s ← set_color s g Color.Red
    let u ← uncle s new_node
    let s ← set_color s u Color.Black
    let p ← parent s new_node
    let g ← parent s p
    pure (s, g)
  else
    let p ← parent s new_node
    let pl ← is_left_child s p
    if pl then
      let ir ← is_right_child s new_node
      let (s, new_node) ←
        if ir then do
          let p ← parent s new_node
          let s ← rotate_left s p
          pure (s, p)
        else pure (s, new_node)
      let p ← parent s new_node
      let s ← set_color s p Color.Black
      let p ← parent s new_node
      let g ← parent s p
      let s ← set_color s g Color.Red
      let p ← parent s new_node
      let g ← parent s p
      let s ← rotate_right s g
      pure (s, new_node)
    else
      let il ← is_left_child s new_node
      let (s, new_node) ←
        if il then do
          let p ← parent s new_node
          let s ← rotate_right s p
          pure (s, p)
        else pure (s, new_node)
      let p ← parent s new_node
      let s ← set_color s p Color.Black
      let p ← parent s new_node
      let g ← parent s p
      let s ← set_color s g Color.Red
      let p ← parent s new_node
      let g ← parent s p
      let s ← rotate_left s g
      pure (s, new_node)

/-- The `while` loop of `balance_after_insert`. -/
def balance_after_insert_loop : Nat → set → node_pointer → Except Fault set
  | 0, _, _ => Except.error Fault.out_of_fuel
  | fuel + 1, s, new_node =>
    if is_root s new_node then
      pure s
    else do
      let p ← parent s new_node
      let pred ← is_red s p
      if pred then
        let (s, new_node) ← balance_after_insert_body s new_node
        balance_after_insert_loop fuel s new_node
      else
        pure s

/-- The member `balance_after_insert`. -/
def balance_after_insert (fuel : Nat) (s : set) (new_node : node_pointer) :
    Except Fault set := do
  let s ← balance_after_insert_loop fuel s new_node
  set_color s s.m_root Color.Black

/-- The branch `is_left_child(node)` of the loop body of `balance_after_delete`. -/
def balance_after_delete_left (s : set) (node : node_pointer) :
    Except Fault (set × node_pointer) := do
  let p ← parent s node
  let brother ← right_child s p
  let bred ← (if brother ≠ none then is_red s brother else pure false)
  let (s, brother) ←
    (if bred then do
      let s ← set_color s brother Color.Black
      let p ← parent s node
      let s ← set_color s p Color.Red
      let p ← parent s node
      let s ← rotate_left s p
      let p ← parent s node
      let brother ← right_child s p
      pure (s, brother)
    else pure (s, brother))
  let bl ← left_child s brother
  let blb ← is_black s bl
  let both ← (if blb then do
      let br ← right_child s brother
      is_black s br
    else pure false)
  if both then
    let s ← set_color s brother Color.Red
    let p ← parent s node
    pure (s, p)
  else
    let br ← right_child s brother
    let brb ← is_black s br
    let (s, brother) ←
      (if brb then do
        let bl ← left_child s brother
        let s ← set_color s bl Color.Black
        let s ← set_color s brother Color.Red
        let s ← rotate_right s brother
        let p ← parent s node
        let brother ← right_child s p
        pure (s, brother)
      else pure (s, brother))
    let p ← parent s node
    let pc ← color s p
    let s ← set_color s brother pc
    let p ← parent s node
    let s ← set_color s p Color.Black
    let br ← right_child s brother
    let s ← set_color s br Color.Black
    let p ← parent s node
    let s ← rotate_left s p
    pure (s, s.m_root)

/-- The `else` branch (node is not a left child) of the loop body of
`balance_after_delete`. -/
def balance_after_delete_right (s : set) (node : node_pointer) :
    Except Fault (set × node_pointer) := do
  let p ← parent s node
  let brother ← left_child s p
  let bred ← (if brother ≠ none then is_red s brother else pure false)
  let (s, brother) ←
    (if bred then do
      let s ← set_color s brother Color.Black
      let p ← parent s node
      let s ← set_color s p Color.Red
      let p ← parent s node
      let s ← rotate_right s p
      let p ← parent s node
      let brother ← left_child s p
      pure (s, brother)
    else pure (s, brother))
  let bl ← left_child s brother
  let blb ← is_black s bl
  let both ← (if blb then do
      let br ← right_child s brother
      is_black s br
    else pure false)
  if both then
    let s ← set_color s brother Color.Red
    let p ← parent s node
    pure (s, p)
  else
    let bl ← left_child s brother
    let blb ← is_black s bl
    let (s, brother) ←
      (if blb then do
        let br ← right_child s brother
        let s ← set_color s br Color.Black
        let s ← set_color s brother Color.Red
        let s ← rotate_left s brother
        let p ← parent s node
        let brother ← left_child s p
        pure (s, brother)
      else pure (s, brother))
    let p ← parent s node
    let pc ← color s p
    let s ← set_color s brother pc
    let p ← parent s node
    let s ← set_color s p Color.Black
    let bl ← left_child s brother
    let s ← set_color s bl Color.Black
    let p ← parent s node
    let s ← rotate_right s p
    pure (s, s.m_root)

/-- The `while` loop of `balance_after_delete`. -/
def balance_after_delete_loop : Nat → set → node_pointer → Except Fault set
  | 0, _, _ => Except.error Fault.out_of_fuel
  | fuel + 1, s, node =>
    if is_root s node then
      pure s
    else do
      let nb ← is_black s node
      if nb then
        let il ← is_left_child s node
        let (s, node) ←
          (if il then balance_after_delete_left s node
          else balance_after_delete_right s node)
        balance_after_delete_loop fuel s node
      else
        pure s

/-- The member `balance_after_delete`. -/
def balance_after_delete (fuel : Nat) (s : set) (node : node_pointer) :
    Except Fault set := do
  let s ← balance_after_delete_loop fuel s node
  set_color s s.m_root Color.Black

/-- The descent loop `while (cur_node)` of `_btree_insert`; `m_comp` is
`std::less<int>`. -/
def _btree_insert_loop : Nat → set → node_pointer → node_pointer →
    Except Fault (set × node_pointer)
  | 0, _, _, _ => Except.error Fault.out_of_fuel
  | fuel + 1, s, new_node, cur_node =>
    if cur_node = none then
      pure (s, none)
    else do
      let nv ← value s new_node
      let cv ← value s cur_node
      if nv < cv then
        let l ← left_child s cur_node
        let lnil ← is_nil_node s l
        if lnil then
          let s ← set_parent s new_node cur_node
          let s ← set_left_child s cur_node new_node
          pure (s, new_node)
        else
          _btree_insert_loop fuel s new_node l
      else
        let r ← right_child s cur_node
        let rnil ← is_nil_node s r
        if rnil then
          let s ← set_parent s new_node cur_node
          let s ← set_right_child s cur_node new_node
          pure (s, new_node)
        else
          _btree_insert_loop fuel s new_node r

/-- The member `_btree_insert`.  `std::allocator::allocate` hands out a slot
that is not in use, modelled as a fresh slot at the end of the store, and
never returns `nullptr`. -/
def _btree_insert (fuel : Nat) (s : set) (value : Int) :
    Except Fault (set × node_pointer) := do
  let new_node : node_pointer := some s.store.length
  let s : set := { s with store := s.store ++ [some (new_SetNode value)] }
  let rnil ← is_nil_node s s.m_root
  if rnil then
    pure ({ s with m_root := new_node }, new_node)
  else
    _btree_insert_loop fuel s new_node s.m_root

/-- The member `insert`. -/
def insert (fuel : Nat) (s : set) (value : Int) : Except Fault (Bool × set) := do
  let (s, new_node) ← _btree_insert fuel s value
  if new_node = none then
    pure (false, s)
  else
    let s ← balance_after_insert fuel s new_node
    pure (true, s)

/-- The loop of `_btree_find`. -/
def _btree_find_loop : Nat → set → Int → node_pointer → Except Fault node_pointer
  | 0, _, _, _ => Except.error Fault.out_of_fuel
  | fuel + 1, s, val, cur_node =>
    if cur_node = none then
      pure none
    else do
      let cnil ← is_nil_node s cur_node
      if cnil then
        pure none
      else
        let cv ← value s cur_node
        if cv = val then
          pure cur_node
        else if val < cv then do
          let l ← left_child s cur_node
          _btree_find_loop fuel s val l
        else do
          let r ← right_child s cur_node
          _btree_find_loop fuel s val r

/-- The member `_btree_find`. -/
def _btree_find (fuel : Nat) (s : set) (val : Int) : Except Fault node_pointer :=
  _btree_find_loop fuel s val s.m_root

/-- The loop of `_btree_left_most`. -/
def _btree_left_most_loop : Nat → set → node_pointer → Except Fault node_pointer
  | 0, _, _ => Except.error Fault.out_of_fuel
  | fuel + 1, s, node => do
    let l ← left_child s node
    let lnil ← is_nil_node s l
    if lnil then
      pure node
    else
      _btree_left_most_loop fuel s l

/-- The member `_btree_left_most`. -/
def _btree_left_most (fuel : Nat) (s : set) (node : node_pointer) :
    Except Fault node_pointer :=
  if node = none then
    pure none
  else do
    let nnil ← is_nil_node s node
    if nnil then
      pure nil_node
    else
      _btree_left_most_loop fuel s node

/-- The lambda `children_count` of `erase`. -/
def children_count (s : set) (node : node_pointer) : Except Fault Nat := do
  let l ← left_child s node
  let lnil ← is_nil_node s l
  let r ← right_child s node
  let rnil ← is_nil_node s r
  pure ((if lnil then 0 else 1) + (if rnil then 0 else 1))

/-- The lambda `destroy_node` of `erase`: the sentinel is kept, any other
node's slot goes back to the allocator. -/
def destroy_node (s : set) (node : node_pointer) : Except Fault set :=
  match node with
  | none => Except.error Fault.null_deref
  | some i => do
    let nnil ← is_nil_node s node
    if nnil then
      pure s
    else
      pure { s with store := s.store.set i none }

/-- The member `erase`. -/
def erase (fuel : Nat) (s : set) (val : Int) : Except Fault (Nat × set) := do
  let node_to_delete ← _btree_find fuel s val
  if node_to_delete = none then
    pure (0, s)
  else
    let dnil ← is_nil_node s node_to_delete
    if dnil then
      pure (0, s)
    else
      let cc ← children_count s node_to_delete
      if cc = 0 then
        if is_root s node_to_delete then
          pure (1, { s with m_root := nil_node })
        else do
          let il ← is_left_child s node_to_delete
          let p ← parent s node_to_delete
          if il then
            let s ← set_left_child s p nil_node
            pure (1, s)
          else
            let s ← set_right_child s p nil_node
            pure (1, s)
      else
        let r ← right_child s node_to_delete
        let left_most ← _btree_left_most fuel s r
        let child ← right_child s left_most
        let (child, left_most) ←
          (if left_most = nil_node then do
            let l ← left_child s node_to_delete
            pure (nil_node, l)
          else pure (child, left_most))
        let lp ← parent s left_most
        let s ← set_parent s child lp
        let s ←
          (if is_root s left_most then
            pure { s with m_root := child }
          else do
            let il ← is_left_child s left_most
            let lp ← parent s left_most
            if il then set_left_child s lp child else set_right_child s lp child)
        let s ←
          (if node_to_delete ≠ left_most then do
            let lv ← value s left_most
            set_value s node_to_delete lv
          else pure s)
        let lb ← is_black s left_most
        let s ← (if lb then balance_after_delete fuel s child else pure s)
        let s ← destroy_node s left_most
        pure (1, s)

deriving instance DecidableEq for Except

/-- One call of the public interface. -/
inductive Call where
  | insert (v : Int)
  | erase (v : Int)
deriving DecidableEq, Repr

/-- Perform one call and keep the store. -/
def call (fuel : Nat) (s : set) : Call → Except Fault set
  | Call.insert v => (insert fuel s v).map Prod.snd
  | Call.erase v => (erase fuel s v).map Prod.snd

/-- Perform the calls in order, stopping at the first fault. -/
def run_calls (fuel : Nat) : set → List Call → Except Fault set
  | s, [] => Except.ok s
  | s, c :: cs =>
    match call fuel s c with
    | Except.ok s' => run_calls fuel s' cs
    | Except.error e => Except.error e

/-- In-order walk along the child links. -/
def in_order_walk : Nat → set → node_pointer → List Int
  | 0, _, _ => []
  | fuel + 1, s, p =>
    match load s p with
    | Except.ok n =>
      if n.m_is_nil_node then []
      else in_order_walk fuel s n.m_left_child ++ [n.m_value] ++ in_order_walk fuel s n.m_right_child
    | Except.error _ => []

def in_order (s : set) : List Int := in_order_walk s.store.length s s.m_root

/-- The shape a store is meant to hold: every node with its slot, colour,
value and the two subtrees; `nil` stands for a link to the sentinel. -/
inductive PTree where
  | nil : PTree
  | node (i : Nat) (c : Color) (l : PTree) (v : Int) (r : PTree) : PTree
deriving DecidableEq, Repr

end custom

namespace custom

namespace PTree

/-- The pointer under which a subtree is linked. -/
def ptr : PTree → node_pointer
  | nil => nil_node
  | node i _ _ _ _ => some i

/-- The slots of a tree, in in-order. -/
def ids : PTree → List Nat
  | nil => []
  | node i _ l _ r => l.ids ++ i :: r.ids

/-- The values of a tree, in in-order. -/
def toList : PTree → List Int
  | nil => []
  | node _ _ l v r => l.toList ++ v :: r.toList

/-- Number of real nodes on the longest path down to a sentinel link. -/
def height : PTree → Nat
  | nil => 0
  | node _ _ l _ r => max l.height r.height + 1

/-- Whether a link goes to the sentinel. -/
def isNil : PTree → Bool
  | nil => true
  | node _ _ _ _ _ => false

/-- Colour of the root of a subtree, given the colour of the sentinel. -/
def rootColor (nc : Color) : PTree → Color
  | nil => nc
  | node _ c _ _ _ => c

end PTree

end custom

namespace custom

/-- The live record in slot `i` of a store, if there is one. -/
def slot (st : List (Option SetNode)) (i : Nat) : Option SetNode :=
  match st[i]? with
  | some (some n) => some n
  | _ => none

/-- The store `st` holds the tree `t` below a node whose address is `par`:
every node of `t` sits in its slot with the colour, value and child links
`t` prescribes and with its parent link set. -/
def Rep (st : List (Option SetNode)) : PTree → node_pointer → Prop
  | PTree.nil, _ => True
  | PTree.node i c l v r, par =>
    i ≠ 0 ∧ slot st i = some ⟨c, par, l.ptr, r.ptr, v, false⟩ ∧
      Rep st l (some i) ∧ Rep st r (some i)

instance Rep.decidable (st : List (Option SetNode)) :
    (t : PTree) → (par : node_pointer) → Decidable (Rep st t par)
  | PTree.nil, _ => isTrue trivial
  | PTree.node i c l v r, par =>
    have := Rep.decidable st l (some i)
    have := Rep.decidable st r (some i)
    inferInstanceAs (Decidable (i ≠ 0 ∧ slot st i = some ⟨c, par, l.ptr, r.ptr, v, false⟩ ∧
      Rep st l (some i) ∧ Rep st r (some i)))

/-- The state `s` is a well-formed pointer tree of shape `T` with sentinel
record `N`: the root pointer and all links agree with `T`, no slot occurs
twice, and slot `0` is the sentinel. -/
structure Abs (s : set) (T : PTree) (N : SetNode) : Prop where
  rep : Rep s.store T nil_node
  root : s.m_root = T.ptr
  nodup : T.ids.Nodup
  nil : slot s.store 0 = some N
  isnil : N.m_is_nil_node = true

/-- One step of a path from a node up to the root: the parent with the
subtree on the other side. -/
inductive Frame where
  | L (i : Nat) (c : Color) (v : Int) (r : PTree) : Frame
  | R (i : Nat) (c : Color) (l : PTree) (v : Int) : Frame
deriving DecidableEq, Repr

end custom

namespace custom

namespace Frame

def fill : Frame → PTree → PTree
  | L i c v r, t => PTree.node i c t v r
  | R i c l v, t => PTree.node i c l v t

def id : Frame → Nat
  | L i _ _ _ => i
  | R i _ _ _ => i

def col : Frame → Color
  | L _ c _ _ => c
  | R _ c _ _ => c

def sib : Frame → PTree
  | L _ _ _ r => r
  | R _ _ l _ => l

def ids (f : Frame) : List Nat := f.id :: f.sib.ids

end Frame

end custom

namespace custom

/-- Put a subtree back below a path. -/
def plug : List Frame → PTree → PTree
  | [], t => t
  | f :: fs, t => plug fs (f.fill t)

/-- Parent pointer of the hole of a path. -/
def ctxPar : List Frame → node_pointer
  | [] => nil_node
  | f :: _ => some f.id

/-- All slots a path mentions. -/
def ctxIds : List Frame → List Nat
  | [] => []
  | f :: fs => f.ids ++ ctxIds fs

/-- Values to the left of the hole of a path, in in-order. -/
def ctxLeft : List Frame → List Int
  | [] => []
  | Frame.L _ _ _ _ :: fs => ctxLeft fs
  | Frame.R _ _ l v :: fs => ctxLeft fs ++ (l.toList ++ [v])

/-- Values to the right of the hole of a path, in in-order. -/
def ctxRight : List Frame → List Int
  | [] => []
  | Frame.L _ _ v r :: fs => (v :: r.toList) ++ ctxRight fs
  | Frame.R _ _ _ _ :: fs => ctxRight fs

/-- The store holds the path `fs`, the hole being linked as `q`. -/
def RepCtx (st : List (Option SetNode)) : List Frame → node_pointer → Prop
  | [], _ => True
  | Frame.L i c v r :: fs, q =>
    i ≠ 0 ∧ slot st i = some ⟨c, ctxPar fs, q, r.ptr, v, false⟩ ∧
      Rep st r (some i) ∧ RepCtx st fs (some i)
  | Frame.R i c l v :: fs, q =>
    i ≠ 0 ∧ slot st i = some ⟨c, ctxPar fs, l.ptr, q, v, false⟩ ∧
      Rep st l (some i) ∧ RepCtx st fs (some i)

end custom

namespace custom

open PTree

namespace PTree

/-- Recolour the root of a subtree (nothing to do for a sentinel link). -/
def setRootCol (c : Color) : PTree → PTree
  | nil => nil
  | node i _ l v r => node i c l v r

end PTree

end custom

namespace custom

open PTree

namespace Frame

def val : Frame → Int
  | L _ _ v _ => v
  | R _ _ _ v => v

def isL : Frame → Bool
  | L _ _ _ _ => true
  | R _ _ _ _ => false

def setCol (c : Color) : Frame → Frame
  | L i _ v r => L i c v r
  | R i _ l v => R i c l v

def setSib (u : PTree) : Frame → Frame
  | L i c v _ => L i c v u
  | R i c _ v => R i c u v

/-- The same parent seen from the other child: the hole moves to the sibling. -/
def flip (t : PTree) : Frame → Frame
  | L i c v _ => R i c t v
  | R i c _ v => L i c v t

def leftPtr (t : PTree) : Frame → node_pointer
  | L _ _ _ _ => t.ptr
  | R _ _ l _ => l.ptr

def rightPtr (t : PTree) : Frame → node_pointer
  | L _ _ _ r => r.ptr
  | R _ _ _ _ => t.ptr

def leftT (t : PTree) : Frame → PTree
  | L _ _ _ _ => t
  | R _ _ l _ => l

def rightT (t : PTree) : Frame → PTree
  | L _ _ _ r => r
  | R _ _ _ _ => t

/-- The recolouring of the grandparent frame in the red-uncle case. -/
def recolor (f : Frame) : Frame := (f.setCol Color.Red).setSib (f.sib.setRootCol Color.Black)

end Frame

end custom

namespace custom

open PTree

/-- The rotation case of insert-fixup on the grandparent's subtree: `fG` is the
grandparent frame, `fP` the parent frame, the last argument the current node. -/
def insRot : Frame → Frame → PTree → PTree
  | Frame.L g _ vg u, Frame.L p _ vp b, t =>
    node p Color.Black t vp (node g Color.Red b vg u)
  | Frame.L g _ vg u, Frame.R p cp a vp, node x _ xl xv xr =>
    node x Color.Black (node p cp a vp xl) xv (node g Color.Red xr vg u)
  | Frame.R g _ u vg, Frame.R p _ a vp, t =>
    node p Color.Black (node g Color.Red u vg a) vp t
  | Frame.R g _ u vg, Frame.L p cp vp b, node x _ xl xv xr =>
    node x Color.Black (node g Color.Red u vg xl) xv (node p cp xr vp b)
  | fG, fP, nil => fG.fill (fP.fill nil)

/-- What the loop of `balance_after_insert` does to the tree, started at the
subtree `t` below the path `fs`, when the sentinel has colour `nc`; returns the
tree and the sentinel's colour at loop exit. -/
def insFix (nc : Color) : List Frame → PTree → PTree × Color
  | fP :: fG :: rest, t =>
    if fP.col = Color.Red then
      if fG.sib.rootColor nc = Color.Red then
        insFix (if fG.sib.isNil then Color.Black else nc) rest
          (fG.recolor.fill ((fP.setCol Color.Black).fill t))
      else (plug rest (insRot fG fP t), nc)
    else (plug (fP :: fG :: rest) t, nc)
  | [f], t => (plug [f] t, nc)
  | [], t => (t, nc)

/-- What the caller of the loop body learns in the rotation case. -/
def RotPost (s : set) (N : SetNode) (rest : List Frame) (T : PTree) (s' : set) (y : Nat) : Prop :=
  ∃ N', Abs s' (plug rest T) N' ∧ N'.m_color = N.m_color ∧
    (N.m_left_child = none → N'.m_left_child = none) ∧
    s'.m_size = s.m_size ∧ s'.store.length = s.store.length ∧
    is_root s' (some y) = false ∧
    ∃ z, parent s' (some y) = Except.ok (some z) ∧ is_red s' (some z) = Except.ok false

/-- The outermost frame of a path (the root of the tree) is Black. -/
def rootFrameBlack : List Frame → Prop
  | [] => True
  | [f] => f.col = Color.Black
  | _ :: g :: fs => rootFrameBlack (g :: fs)

/-- The path `_btree_insert` walks for the value `v`, starting below `acc`. -/
def insPath (v : Int) : PTree → List Frame → List Frame
  | nil, acc => acc
  | node i c l cv r, acc =>
    if v < cv then insPath v l (Frame.L i c cv r :: acc)
    else insPath v r (Frame.R i c l cv :: acc)

/-- The tree after `insert(v)` when the fresh node gets slot `n` and the
sentinel has colour `nc`. -/
def insertT (nc : Color) (v : Int) (n : Nat) (T : PTree) : PTree :=
  (insFix nc (insPath v T []) (node n Color.Red nil v nil)).1.setRootCol Color.Black

/-- The sentinel's colour after `insert(v)`. -/
def insertNilColor (nc : Color) (v : Int) (n : Nat) (T : PTree) : Color :=
  (insFix nc (insPath v T []) (node n Color.Red nil v nil)).2

end custom

namespace custom

open PTree

namespace PTree

/-- Number of Black nodes on the leftmost path down to a sentinel link. -/
def blackHeight : PTree → Nat
  | nil => 0
  | node _ c l _ _ => l.blackHeight + (if c = Color.Black then 1 else 0)

/-- Invariant 4: at every node both subtrees have the same black-height, so
all paths from a node down to a sentinel link count the same number of Black
nodes. -/
def bhOk : PTree → Prop
  | nil => True
  | node _ _ l _ r => l.blackHeight = r.blackHeight ∧ l.bhOk ∧ r.bhOk

/-- Invariant 3: no Red node has a Red child. -/
def noRedRed : PTree → Prop
  | nil => True
  | node _ c l _ r =>
    (c = Color.Red → l.rootColor Color.Black = Color.Black ∧ r.rootColor Color.Black = Color.Black) ∧
      l.noRedRed ∧ r.noRedRed

instance bhOk.decidable : (t : PTree) → Decidable t.bhOk
  | nil => isTrue trivial
  | node _ _ l _ r =>
    have := bhOk.decidable l
    have := bhOk.decidable r
    inferInstanceAs (Decidable (l.blackHeight = r.blackHeight ∧ l.bhOk ∧ r.bhOk))

instance noRedRed.decidable : (t : PTree) → Decidable t.noRedRed
  | nil => isTrue trivial
  | node _ c l _ r =>
    have := noRedRed.decidable l
    have := noRedRed.decidable r
    inferInstanceAs (Decidable ((c = Color.Red →
      l.rootColor Color.Black = Color.Black ∧ r.rootColor Color.Black = Color.Black) ∧
      l.noRedRed ∧ r.noRedRed))

end PTree

end custom

namespace custom

open PTree

/-- The frame above is not Red. -/
def headBlack : List Frame → Prop
  | [] => True
  | g :: _ => g.col = Color.Black

/-- A path whose hole expects a subtree of black-height `n`: every sibling
hanging off the path is balanced, and no two Red frames follow each other. -/
def CtxRB : List Frame → Nat → Prop
  | [], _ => True
  | f :: fs, n =>
    f.sib.bhOk ∧ f.sib.blackHeight = n ∧ f.sib.noRedRed ∧
      (f.col = Color.Red → f.sib.rootColor Color.Black = Color.Black ∧ headBlack fs) ∧
      CtxRB fs (n + if f.col = Color.Black then 1 else 0)

/-- What `_btree_find` returns on a tree: the first node on the search path
that holds `v`, or `nullptr`. -/
def findT (v : Int) : PTree → node_pointer
  | nil => none
  | node i _ l cv r => if cv = v then some i else if v < cv then findT v l else findT v r

/-- A pointer that is the sentinel or a node of the tree. -/
def VP (I : List Nat) (q : node_pointer) : Prop := q = nil_node ∨ ∃ i ∈ I, q = some i

/-- The store holds some well-formed tree on the slots `I` with in-order
values `L`, and the sentinel's left link is still `nullptr`. -/
def WInv (I : List Nat) (L : List Int) (s : set) : Prop :=
  ∃ T N, Abs s T N ∧ N.m_left_child = none ∧ T.ids.Perm I ∧ T.toList = L

/-- The parent link of `q` points at a node of the tree. -/
def HasPar (I : List Nat) (s : set) (q : node_pointer) : Prop :=
  ∃ j ∈ I, parent s q = Except.ok (some j)

/-- The weak invariant together with a Black root. -/
def RInv (I : List Nat) (L : List Int) (s : set) : Prop :=
  ∃ T N, Abs s T N ∧ N.m_left_child = none ∧ T.ids.Perm I ∧ T.toList = L ∧
    T.rootColor Color.Black = Color.Black

/-- The states the public interface can produce: the empty set, and what a
completed `insert` or `erase` call makes of such a state. -/
inductive Reachable : set → Prop where
  | init : Reachable set.init
  | insert {s s' : set} (fuel : Nat) (v : Int) (b : Bool) :
      Reachable s → insert fuel s v = Except.ok (b, s') → Reachable s'
  | erase {s s' : set} (fuel : Nat) (v : Int) (n : Nat) :
      Reachable s → erase fuel s v = Except.ok (n, s') → Reachable s'

/-- The store is a well-formed pointer tree whose in-order values do not
decrease, with a Black root node and the sentinel's left link unset. -/
def Inv (s : set) : Prop :=
  ∃ T N, Abs s T N ∧ N.m_left_child = none ∧ T.rootColor Color.Black = Color.Black ∧
    T.toList.Pairwise (· ≤ ·)

end custom

namespace custom

open PTree

namespace PTree

/-- Invariant 5 in the strict sense: every value in the left subtree is
smaller and every value in the right subtree is greater than the node. -/
def isBST : PTree → Prop
  | nil => True
  | node _ _ l v r => (∀ x ∈ l.toList, x < v) ∧ (∀ x ∈ r.toList, v < x) ∧ l.isBST ∧ r.isBST

end PTree

end custom

namespace custom

open PTree

/-- The state after `insert(1)` on the empty set: the sentinel and one Black
node holding 1. -/
def one_node : set :=
  ⟨[some nil_SetNode, some ⟨Color.Black, nil_node, nil_node, nil_node, 1, false⟩], some 1, 0⟩

/-- The calls of `main`, in order. -/
def demo_calls : List Call :=
  [Call.insert 30, Call.insert 20, Call.insert 10, Call.insert 40, Call.insert 50,
   Call.insert 6, Call.insert 7, Call.insert 8, Call.erase 7, Call.erase 6, Call.erase 30,
   Call.insert 100, Call.insert 33, Call.insert 47, Call.insert 7, Call.erase 50,
   Call.erase 100, Call.insert 50, Call.insert 100, Call.erase 47, Call.erase 50]

end custom

namespace custom

open PTree

namespace PTree

/-- Invariant 5 in the non-strict sense: no value in the left subtree is
greater and no value in the right subtree is smaller than the node. -/
def isSearchTree : PTree → Prop
  | nil => True
  | node _ _ l v r =>
    (∀ x ∈ l.toList, x ≤ v) ∧ (∀ x ∈ r.toList, v ≤ x) ∧ l.isSearchTree ∧ r.isSearchTree

end PTree

end custom

namespace custom

open PTree

/-- The state after `insert(0)`, `insert(1)`: a Black root holding 0 with a
Red right child holding 1. -/
def right_pair : set :=
  ⟨[some nil_SetNode, some ⟨Color.Black, nil_node, nil_node, some 2, 0, false⟩,
    some ⟨Color.Red, some 1, nil_node, nil_node, 1, false⟩], some 1, 0⟩

/-- The state after `insert(1)`, `insert(0)`: a Black root holding 1 with a
Red left child holding 0. -/
def left_pair : set :=
  ⟨[some nil_SetNode, some ⟨Color.Black, nil_node, some 2, nil_node, 1, false⟩,
    some ⟨Color.Red, some 1, nil_node, nil_node, 0, false⟩], some 1, 0⟩

end custom

namespace custom

/-- `rotate<Left>` with the early return of its guard replaced by a fault: a
call whose pivot (the right child) is the sentinel does not return. -/
def rotate_left_checked (s : set) (node : node_pointer) : Except Fault set := do
  let r ← right_child s node
  let rnil ← is_nil_node s r
  if rnil then Except.error Fault.dangling else rotate_left s node

/-- `rotate<Right>` with the early return of its guard replaced by a fault: a
call whose pivot (the left child) is the sentinel does not return. -/
def rotate_right_checked (s : set) (node : node_pointer) : Except Fault set := do
  let l ← left_child s node
  let lnil ← is_nil_node s l
  if lnil then Except.error Fault.dangling else rotate_right s node

/-- The body of `balance_after_delete_left` with the two rotations taken as
parameters. -/
def balance_after_delete_left_via (rl rr : set → node_pointer → Except Fault set)
    (s : set) (node : node_pointer) :
    Except Fault (set × node_pointer) := do
  let p ← parent s node
  let brother ← right_child s p
  let bred ← (if brother ≠ none then is_red s brother else pure false)
  let (s, brother) ←
    (if bred then do
      let s ← set_color s brother Color.Black
      let p ← parent s node
      let s ← set_color s p Color.Red
      let p ← parent s node
      let s ← rl s p
      let p ← parent s node
      let brother ← right_child s p
      pure (s, brother)
    else pure (s, brother))
  let bl ← left_child s brother
  let blb ← is_black s bl
  let both ← (if blb then do
      let br ← right_child s brother
      is_black s br
    else pure false)
  if both then
    let s ← set_color s brother Color.Red
    let p ← parent s node
    pure (s, p)
  else
    let br ← right_child s brother
    let brb ← is_black s br
    let (s, brother) ←
      (if brb then do
        let bl ← left_child s brother
        let s ← set_color s bl Color.Black
        let s ← set_color s brother Color.Red
        let s ← rr s brother
        let p ← parent s node
        let brother ← right_child s p
        pure (s, brother)
      else pure (s, brother))
    let p ← parent s node
    let pc ← color s p
    let s ← set_color s brother pc
    let p ← parent s node
    let s ← set_color s p Color.Black
    let br ← right_child s brother
    let s ← set_color s br Color.Black
    let p ← parent s node
    let s ← rl s p
    pure (s, s.m_root)

/-- The body of `balance_after_delete_right` with the two rotations taken as
parameters. -/
def balance_after_delete_right_via (rl rr : set → node_pointer → Except Fault set)
    (s : set) (node : node_pointer) :
    Except Fault (set × node_pointer) := do
  let p ← parent s node
  let brother ← left_child s p
  let bred ← (if brother ≠ none then is_red s brother else pure false)
  let (s, brother) ←
    (if bred then do
      let s ← set_color s brother Color.Black
      let p ← parent s node
      let s ← set_color s p Color.Red
      let p ← parent s node
      let s ← rr s p
      let p ← parent s node
      let brother ← left_child s p
      pure (s, brother)
    else pure (s, brother))
  let bl ← left_child s brother
  let blb ← is_black s bl
  let both ← (if blb then do
      let br ← right_child s brother
      is_black s br
    else pure false)
  if both then
    let s ← set_color s brother Color.Red
    let p ← parent s node
    pure (s, p)
  else
    let bl ← left_child s brother
    let blb ← is_black s bl
    let (s, brother) ←
      (if blb then do
        let br ← right_child s brother
        let s ← set_color s br Color.Black
        let s ← set_color s brother Color.Red
        let s ← rl s brother
        let p ← parent s node
        let brother ← left_child s p
        pure (s, brother)
      else pure (s, brother))
    let p ← parent s node
    let pc ← color s p
    let s ← set_color s brother pc
    let p ← parent s node
    let s ← set_color s p Color.Black
    let bl ← left_child s brother
    let s ← set_color s bl Color.Black
    let p ← parent s node
    let s ← rr s p
    pure (s, s.m_root)

/-- The loop of `balance_after_delete` over the parametrised bodies. -/
def balance_after_delete_loop_via (rl rr : set → node_pointer → Except Fault set)
    : Nat → set → node_pointer → Except Fault set
  | 0, _, _ => Except.error Fault.out_of_fuel
  | fuel + 1, s, node =>
    if is_root s node then
      pure s
    else do
      let nb ← is_black s node
      if nb then
        let il ← is_left_child s node
        let (s, node) ←
          (if il then balance_after_delete_left_via rl rr s node
          else balance_after_delete_right_via rl rr s node)
        balance_after_delete_loop_via rl rr fuel s node
      else
        pure s

/-- The member `balance_after_delete` over the parametrised loop. -/
def balance_after_delete_via (rl rr : set → node_pointer → Except Fault set)
    (fuel : Nat) (s : set) (node : node_pointer) :
    Except Fault set := do
  let s ← balance_after_delete_loop_via rl rr fuel s node
  set_color s s.m_root Color.Black

/-- The member `erase` over the parametrised fixup. -/
def erase_via (rl rr : set → node_pointer → Except Fault set)
    (fuel : Nat) (s : set) (val : Int) : Except Fault (Nat × set) := do
  let node_to_delete ← _btree_find fuel s val
  if node_to_delete = none then
    pure (0, s)
  else
    let dnil ← is_nil_node s node_to_delete
    if dnil then
      pure (0, s)
    else
      let cc ← children_count s node_to_delete
      if cc = 0 then
        if is_root s node_to_delete then
          pure (1, { s with m_root := nil_node })
        else do
          let il ← is_left_child s node_to_delete
          let p ← parent s node_to_delete
          if il then
            let s ← set_left_child s p nil_node
            pure (1, s)
          else
            let s ← set_right_child s p nil_node
            pure (1, s)
      else
        let r ← right_child s node_to_delete
        let left_most ← _btree_left_most fuel s r
        let child ← right_child s left_most
        let (child, left_most) ←
          (if left_most = nil_node then do
            let l ← left_child s node_to_delete
            pure (nil_node, l)
          else pure (child, left_most))
        let lp ← parent s left_most
        let s ← set_parent s child lp
        let s ←
          (if is_root s left_most then
            pure { s with m_root := child }
          else do
            let il ← is_left_child s left_most
            let lp ← parent s left_most
            if il then set_left_child s lp child else set_right_child s lp child)
        let s ←
          (if node_to_delete ≠ left_most then do
            let lv ← value s left_most
            set_value s node_to_delete lv
          else pure s)
        let lb ← is_black s left_most
        let s ← (if lb then balance_after_delete_via rl rr fuel s child else pure s)
        let s ← destroy_node s left_most
        pure (1, s)

end custom

namespace custom

open PTree

/-- Insert 0, 1, ..., 13 in this order, then erase 0, 2, 1, 4, 6, 5, 8, 10: each
erased value sits in a node without real children when its turn comes. -/
def chain_calls : List Call :=
  [Call.insert 0, Call.insert 1, Call.insert 2, Call.insert 3, Call.insert 4, Call.insert 5,
   Call.insert 6, Call.insert 7, Call.insert 8, Call.insert 9, Call.insert 10, Call.insert 11,
   Call.insert 12, Call.insert 13, Call.erase 0, Call.erase 2, Call.erase 1, Call.erase 4,
   Call.erase 6, Call.erase 5, Call.erase 8, Call.erase 10]

/-- The state after `insert` of 0, 2, 3, 1 on the empty set: the tree
2B(0B(nil, 1R), 3B); the rotation of the third insert left the address of the
first node in the sentinel's parent link and the root in its right link. -/
def fault_state : set :=
  ⟨[some ⟨Color.Black, some 1, none, some 2, 0, true⟩,
    some ⟨Color.Black, some 2, nil_node, some 4, 0, false⟩,
    some ⟨Color.Black, nil_node, some 1, some 3, 2, false⟩,
    some ⟨Color.Black, some 2, nil_node, nil_node, 3, false⟩,
    some ⟨Color.Red, some 1, nil_node, nil_node, 1, false⟩], some 2, 0⟩

end custom

namespace custom

open PTree

namespace PTree

end PTree

end custom

namespace custom

open PTree

/-- The state after `insert(2)`, `insert(1)`, `insert(3)`: a Black root holding 2
with two Red children holding 1 and 3. -/
def three_nodes : set :=
  ⟨[some nil_SetNode, some ⟨Color.Black, nil_node, some 2, some 3, 2, false⟩,
    some ⟨Color.Red, some 1, nil_node, nil_node, 1, false⟩,
    some ⟨Color.Red, some 1, nil_node, nil_node, 3, false⟩], some 1, 0⟩

end custom

/-! ## Theorems -/

namespace custom

theorem slot_lt {st : List (Option SetNode)} {i : Nat} {n : SetNode}
    (h : slot st i = some n) : i < st.length := by
  by_contra hc
  simp [slot, List.getElem?_eq_none (Nat.le_of_not_lt hc)] at h

theorem slot_set_self {st : List (Option SetNode)} {i : Nat} (n : SetNode)
    (h : i < st.length) : slot (st.set i (some n)) i = some n := by
  simp [slot, List.getElem?_set, h]

theorem slot_set_ne {st : List (Option SetNode)} {i j : Nat} (x : Option SetNode)
    (h : j ≠ i) : slot (st.set i x) j = slot st j := by
  simp [slot, List.getElem?_set, Ne.symm h]

theorem Rep.congr {st st' : List (Option SetNode)} :
    ∀ {t : PTree} {par : node_pointer}, (∀ i ∈ t.ids, slot st' i = slot st i) →
      Rep st t par → Rep st' t par
  | PTree.nil, _, _, _ => trivial
  | PTree.node i c l v r, par, h, ⟨h0, hi, hl, hr⟩ => by
    refine ⟨h0, ?_, ?_, ?_⟩
    · rw [h i (by simp [PTree.ids])]; exact hi
    · exact Rep.congr (fun j hj => h j (by simp [PTree.ids, hj])) hl
    · exact Rep.congr (fun j hj => h j (by simp [PTree.ids, hj])) hr

theorem Rep.ids_ne_zero {st : List (Option SetNode)} :
    ∀ {t : PTree} {par : node_pointer}, Rep st t par → ∀ i ∈ t.ids, i ≠ 0
  | PTree.nil, _, _, i, hi => by simp [PTree.ids] at hi
  | PTree.node j c l v r, par, ⟨h0, _, hl, hr⟩, i, hi => by
    simp only [PTree.ids, List.mem_append, List.mem_cons] at hi
    rcases hi with hi | hi | hi
    · exact Rep.ids_ne_zero hl i hi
    · exact hi ▸ h0
    · exact Rep.ids_ne_zero hr i hi

theorem Rep.ids_lt {st : List (Option SetNode)} :
    ∀ {t : PTree} {par : node_pointer}, Rep st t par → ∀ i ∈ t.ids, i < st.length
  | PTree.nil, _, _, i, hi => by simp [PTree.ids] at hi
  | PTree.node j c l v r, par, ⟨_, hj, hl, hr⟩, i, hi => by
    simp only [PTree.ids, List.mem_append, List.mem_cons] at hi
    rcases hi with hi | hi | hi
    · exact Rep.ids_lt hl i hi
    · subst hi
      exact slot_lt hj
    · exact Rep.ids_lt hr i hi

/-- A subtree is linked under a pointer to a live slot. -/
theorem PTree.ptr_eq (t : PTree) : t.ptr = some 0 ∨ ∃ i, t.ptr = some i ∧ i ∈ t.ids := by
  cases t with
  | nil => left; rfl
  | node i c l v r => right; exact ⟨i, rfl, by simp [PTree.ids]⟩

theorem RepCtx.congr_ctx {st st' : List (Option SetNode)} :
    ∀ {fs : List Frame} {q : node_pointer}, (∀ i ∈ ctxIds fs, slot st' i = slot st i) →
      RepCtx st fs q → RepCtx st' fs q
  | [], _, _, _ => trivial
  | Frame.L i c v r :: fs, q, h, ⟨h0, hi, hr, hfs⟩ => by
    refine ⟨h0, ?_, ?_, ?_⟩
    · rw [h i (by simp [ctxIds, Frame.ids, Frame.id])]; exact hi
    · exact Rep.congr (fun j hj => h j (by simp [ctxIds, Frame.ids, Frame.sib, hj])) hr
    · exact RepCtx.congr_ctx (fun j hj => h j (by simp [ctxIds, hj])) hfs
  | Frame.R i c l v :: fs, q, h, ⟨h0, hi, hl, hfs⟩ => by
    refine ⟨h0, ?_, ?_, ?_⟩
    · rw [h i (by simp [ctxIds, Frame.ids, Frame.id])]; exact hi
    · exact Rep.congr (fun j hj => h j (by simp [ctxIds, Frame.ids, Frame.sib, hj])) hl
    · exact RepCtx.congr_ctx (fun j hj => h j (by simp [ctxIds, hj])) hfs

theorem Rep_plug {st : List (Option SetNode)} :
    ∀ {fs : List Frame} {t : PTree},
      Rep st (plug fs t) nil_node ↔ RepCtx st fs t.ptr ∧ Rep st t (ctxPar fs)
  | [], t => by simp [plug, RepCtx, ctxPar]
  | Frame.L i c v r :: fs, t => by
    rw [plug, @Rep_plug st fs _]
    simp only [Frame.fill, RepCtx, Rep, PTree.ptr, ctxPar, Frame.id]
    tauto
  | Frame.R i c l v :: fs, t => by
    rw [plug, @Rep_plug st fs _]
    simp only [Frame.fill, RepCtx, Rep, PTree.ptr, ctxPar, Frame.id]
    tauto

theorem ids_plug : ∀ (fs : List Frame) (t : PTree),
    (plug fs t).ids.Perm (t.ids ++ ctxIds fs)
  | [], t => by simp [plug, ctxIds]
  | Frame.L i c v r :: fs, t => by
    refine (ids_plug fs _).trans ?_
    simp only [Frame.fill, PTree.ids, ctxIds, Frame.ids, Frame.id, Frame.sib,
      List.append_assoc, List.cons_append]
    exact List.Perm.refl _
  | Frame.R i c l v :: fs, t => by
    refine (ids_plug fs _).trans ?_
    simp only [Frame.fill, PTree.ids, ctxIds, Frame.ids, Frame.id, Frame.sib,
      List.append_assoc, List.cons_append]
    rw [List.perm_iff_count]
    intro a
    simp only [List.count_append, List.count_cons]
    omega

theorem toList_plug : ∀ (fs : List Frame) (t : PTree),
    (plug fs t).toList = ctxLeft fs ++ t.toList ++ ctxRight fs
  | [], t => by simp [plug, ctxLeft, ctxRight]
  | Frame.L i c v r :: fs, t => by
    rw [plug, toList_plug fs]
    simp [Frame.fill, PTree.toList, ctxLeft, ctxRight]
  | Frame.R i c l v :: fs, t => by
    rw [plug, toList_plug fs]
    simp [Frame.fill, PTree.toList, ctxLeft, ctxRight]

@[simp] theorem PTree.ptr_nil : PTree.nil.ptr = some 0 := rfl

@[simp] theorem PTree.ptr_node (i : Nat) (c : Color) (l : PTree) (v : Int) (r : PTree) :
    (PTree.node i c l v r).ptr = some i := rfl

theorem Rep.frame_rep {st st' : List (Option SetNode)} {t : PTree} {par : node_pointer}
    (ks : List Nat) (hag : ∀ i, i ∉ ks → slot st' i = slot st i)
    (hdis : ∀ i ∈ t.ids, i ∉ ks) (h : Rep st t par) : Rep st' t par :=
  Rep.congr (fun i hi => hag i (hdis i hi)) h

theorem RepCtx.frame_ctx {st st' : List (Option SetNode)} {fs : List Frame} {q : node_pointer}
    (ks : List Nat) (hag : ∀ i, i ∉ ks → slot st' i = slot st i)
    (hdis : ∀ i ∈ ctxIds fs, i ∉ ks) (h : RepCtx st fs q) : RepCtx st' fs q :=
  RepCtx.congr_ctx (fun i hi => hag i (hdis i hi)) h

theorem RepCtx.ctx_ne_zero {st : List (Option SetNode)} :
    ∀ {fs : List Frame} {q : node_pointer}, RepCtx st fs q → ∀ i ∈ ctxIds fs, i ≠ 0
  | [], _, _, i, hi => by simp [ctxIds] at hi
  | Frame.L j c v r :: fs, q, ⟨h0, _, hr, hfs⟩, i, hi => by
    simp only [ctxIds, Frame.ids, Frame.id, Frame.sib, List.mem_append, List.mem_cons] at hi
    rcases hi with (hi | hi) | hi
    · exact hi ▸ h0
    · exact Rep.ids_ne_zero hr i hi
    · exact RepCtx.ctx_ne_zero hfs i hi
  | Frame.R j c l v :: fs, q, ⟨h0, _, hl, hfs⟩, i, hi => by
    simp only [ctxIds, Frame.ids, Frame.id, Frame.sib, List.mem_append, List.mem_cons] at hi
    rcases hi with (hi | hi) | hi
    · exact hi ▸ h0
    · exact Rep.ids_ne_zero hl i hi
    · exact RepCtx.ctx_ne_zero hfs i hi

theorem ptr_plug_cons (f : Frame) : ∀ (fs : List Frame) (t t' : PTree),
    (plug (f :: fs) t).ptr = (plug (f :: fs) t').ptr := by
  intro fs
  induction fs generalizing f with
  | nil => intro t t'; cases f <;> rfl
  | cons g gs ih =>
    intro t t'
    show (plug (g :: gs) (f.fill t)).ptr = (plug (g :: gs) (f.fill t')).ptr
    exact ih g _ _

theorem ptr_plug_congr (fs : List Frame) {t t' : PTree} (h : t.ptr = t'.ptr ∨ fs ≠ []) :
    (plug fs t).ptr = (plug fs t').ptr := by
  cases fs with
  | nil =>
    rcases h with h | h
    · exact h
    · exact absurd rfl h
  | cons f fs => exact ptr_plug_cons f fs t t'

theorem nodup_plug' {fs : List Frame} {t : PTree} :
    (plug fs t).ids.Nodup ↔ t.ids.Nodup ∧ (ctxIds fs).Nodup ∧ ∀ i ∈ t.ids, i ∉ ctxIds fs := by
  rw [(ids_plug fs t).nodup_iff, List.nodup_append]
  rfl

theorem nodup_plug_congr {fs : List Frame} {t t' : PTree} (h : t.ids.Perm t'.ids) :
    (plug fs t).ids.Nodup ↔ (plug fs t').ids.Nodup := by
  rw [nodup_plug', nodup_plug', h.nodup_iff]
  constructor
  · rintro ⟨h1, h2, h3⟩; exact ⟨h1, h2, fun i hi => h3 i (h.mem_iff.2 hi)⟩
  · rintro ⟨h1, h2, h3⟩; exact ⟨h1, h2, fun i hi => h3 i (h.mem_iff.1 hi)⟩

theorem ptr_plug_mem : ∀ (fs : List Frame) (t : PTree), fs ≠ [] →
    ∃ i ∈ ctxIds fs, (plug fs t).ptr = some i
  | [], _, h => absurd rfl h
  | [f], t, _ => by
    cases f <;> exact ⟨_, by simp [ctxIds, Frame.ids, Frame.id], rfl⟩
  | f :: g :: fs, t, _ => by
    obtain ⟨i, hi, h⟩ := ptr_plug_mem (g :: fs) (f.fill t) (by simp)
    exact ⟨i, by simp only [ctxIds, List.mem_append] at hi ⊢; exact Or.inr hi, h⟩

theorem PTree.ptr_ne_of_not_mem {t : PTree} {i : Nat} (h0 : i ≠ 0) (h : i ∉ t.ids) :
    t.ptr ≠ some i := by
  rcases t.ptr_eq with h' | ⟨j, hj, hjm⟩
  · rw [h']; simpa using h0.symm
  · rw [hj]; simp only [ne_eq, Option.some.injEq]; rintro rfl; exact h hjm

theorem load_eq (s : set) (i : Nat) :
    load s (some i) =
      match slot s.store i with
      | some n => Except.ok n
      | none => Except.error Fault.dangling := by
  simp only [load, slot]
  rcases s.store[i]? with _ | _ | n <;> rfl

theorem modify_eq (s : set) (i : Nat) (f : SetNode → SetNode) :
    modify s (some i) f =
      match slot s.store i with
      | some n => Except.ok { s with store := s.store.set i (some (f n)) }
      | none => Except.error Fault.dangling := by
  simp only [modify, slot]
  rcases s.store[i]? with _ | _ | n <;> rfl

theorem bind_ok {α β : Type} (a : α) (f : α → Except Fault β) :
    (Except.ok a >>= f) = f a := rfl

theorem map_ok {α β : Type} (a : α) (f : α → β) :
    Except.map f (Except.ok a : Except Fault α) = Except.ok (f a) := rfl

theorem nodup_plug {fs : List Frame} {t : PTree} :
    (plug fs t).ids.Nodup ↔ t.ids.Nodup ∧ (ctxIds fs).Nodup ∧ ∀ i ∈ t.ids, i ∉ ctxIds fs := by
  rw [(ids_plug fs t).nodup_iff, List.nodup_append]
  rfl

end custom

namespace custom

open PTree

/-- Re-link the hole of a path: only the innermost frame's slot changes. -/
theorem RepCtx.relink {st st' : List (Option SetNode)} {fs : List Frame} {q q' : node_pointer}
    (h : RepCtx st fs q) (hnd : (ctxIds fs).Nodup)
    (htop : ∀ f rest, fs = f :: rest →
      slot st' f.id = (slot st f.id).map (fun n =>
        match f with
        | Frame.L _ _ _ _ => { n with m_left_child := q' }
        | Frame.R _ _ _ _ => { n with m_right_child := q' }))
    (hfr : ∀ i ∈ ctxIds fs, some i ≠ ctxPar fs → slot st' i = slot st i) :
    RepCtx st' fs q' := by
  cases fs with
  | nil => trivial
  | cons f rest =>
    have hnd := hnd
    cases f with
    | L g cg vg sib =>
      obtain ⟨h0, hg, hsib, hrest⟩ := h
      simp only [ctxIds, Frame.ids, Frame.id, Frame.sib, List.nodup_append, List.nodup_cons,
        List.cons_append, List.mem_append, not_or] at hnd
      refine ⟨h0, ?_, ?_, ?_⟩
      · have := htop _ _ rfl
        simp only [Frame.id, hg, Option.map] at this
        exact this
      · refine Rep.congr (fun i hi => hfr i ?_ ?_) hsib
        · simp [ctxIds, Frame.ids, Frame.sib, hi]
        · simp only [ctxPar, Frame.id, ne_eq, Option.some.injEq]
          rintro rfl; exact hnd.1.1 hi
      · refine RepCtx.congr_ctx (fun i hi => hfr i ?_ ?_) hrest
        · simp [ctxIds, hi]
        · simp only [ctxPar, Frame.id, ne_eq, Option.some.injEq]
          rintro rfl; exact hnd.1.2 hi
    | R g cg sib vg =>
      obtain ⟨h0, hg, hsib, hrest⟩ := h
      simp only [ctxIds, Frame.ids, Frame.id, Frame.sib, List.nodup_append, List.nodup_cons,
        List.cons_append, List.mem_append, not_or] at hnd
      refine ⟨h0, ?_, ?_, ?_⟩
      · have := htop _ _ rfl
        simp only [Frame.id, hg, Option.map] at this
        exact this
      · refine Rep.congr (fun i hi => hfr i ?_ ?_) hsib
        · simp [ctxIds, Frame.ids, Frame.sib, hi]
        · simp only [ctxPar, Frame.id, ne_eq, Option.some.injEq]
          rintro rfl; exact hnd.1.1 hi
      · refine RepCtx.congr_ctx (fun i hi => hfr i ?_ ?_) hrest
        · simp [ctxIds, hi]
        · simp only [ctxPar, Frame.id, ne_eq, Option.some.injEq]
          rintro rfl; exact hnd.1.2 hi

/-- Re-parent a subtree: only its root's slot changes. -/
theorem Rep.reparent {st st' : List (Option SetNode)} {t : PTree} {par par' : node_pointer}
    (h : Rep st t par) (hnd : t.ids.Nodup)
    (htop : ∀ i, t.ptr = some i → i ≠ 0 →
      slot st' i = (slot st i).map (fun n => { n with m_parent := par' }))
    (hfr : ∀ i ∈ t.ids, some i ≠ t.ptr → slot st' i = slot st i) :
    Rep st' t par' := by
  cases t with
  | nil => trivial
  | node i c l v r =>
    obtain ⟨h0, hi, hl, hr⟩ := h
    simp only [PTree.ids, List.nodup_append, List.nodup_cons, List.mem_append, not_or,
      List.disjoint_cons_right] at hnd
    refine ⟨h0, ?_, ?_, ?_⟩
    · have := htop i rfl h0
      simpa [hi, Option.map] using this
    · refine Rep.congr (fun j hj => hfr j (by simp [PTree.ids, hj]) ?_) hl
      simp only [ptr_node, ne_eq, Option.some.injEq]
      rintro rfl; exact hnd.2.2.1 hj
    · refine Rep.congr (fun j hj => hfr j (by simp [PTree.ids, hj]) ?_) hr
      simp only [ptr_node, ne_eq, Option.some.injEq]
      rintro rfl; exact hnd.2.1.1 hj

theorem rotL_assemble {st st' : List (Option SetNode)} {fs : List Frame} {p b : Nat}
    {cp cb : Color} {a c d : PTree} {vp vb : Int}
    (hrep : Rep st (plug fs (node p cp a vp (node b cb c vb d))) nil_node)
    (hnd : (plug fs (node p cp a vp (node b cb c vb d))).ids.Nodup)
    (hb' : slot st' b = some ⟨cb, ctxPar fs, some p, d.ptr, vb, false⟩)
    (hp' : slot st' p = some ⟨cp, some b, a.ptr, c.ptr, vp, false⟩)
    (hc' : ∀ i, c.ptr = some i → i ≠ 0 →
      slot st' i = (slot st i).map (fun n => { n with m_parent := some p }))
    (hg' : ∀ f rest, fs = f :: rest →
      slot st' f.id = (slot st f.id).map (fun n =>
        match f with
        | Frame.L _ _ _ _ => { n with m_left_child := some b }
        | Frame.R _ _ _ _ => { n with m_right_child := some b }))
    (hfr : ∀ i, i ≠ 0 → i ≠ p → i ≠ b → some i ≠ c.ptr → some i ≠ ctxPar fs →
      slot st' i = slot st i) :
    Rep st' (plug fs (node b cb (node p cp a vp c) vb d)) nil_node := by
  rw [Rep_plug] at hrep ⊢
  obtain ⟨hctx, hp0, hp, ha, hb0, hb, hc, hd⟩ := hrep
  rw [nodup_plug'] at hnd
  obtain ⟨hnd1, hnd2, hnd3⟩ := hnd
  simp only [PTree.ids, List.nodup_append, List.nodup_cons, List.mem_append, List.mem_cons,
    List.disjoint_cons_right, List.disjoint_append_right, forall_eq_or_imp, or_imp, forall_and,
    forall_eq, not_or] at hnd1 hnd3
  obtain ⟨hna, ⟨⟨hpc, hpb, hpd⟩, hnc, ⟨hbd, hndd⟩, hbc, hcd⟩, hpa, hac, hba, had⟩ := hnd1
  obtain ⟨h3a, h3p, h3c, h3b, h3d⟩ := hnd3
  have hcptr : ∀ i, i ≠ 0 → i ∉ c.ids → some i ≠ c.ptr := by
    intro i hi0 hic
    rcases c.ptr_eq with h | ⟨j, hj, hjm⟩
    · rw [h]; simpa using hi0
    · rw [hj]; simp only [ne_eq, Option.some.injEq]; rintro rfl; exact hic hjm
  refine ⟨?_, hb0, hb', ⟨hp0, hp', ?_, ?_⟩, ?_⟩
  · refine RepCtx.relink hctx hnd2 hg' (fun i hi hne => ?_)
    refine hfr i (RepCtx.ctx_ne_zero hctx i hi) ?_ ?_ (hcptr i (RepCtx.ctx_ne_zero hctx i hi) ?_) hne
    · rintro rfl; exact h3p hi
    · rintro rfl; exact h3b hi
    · intro hic; exact h3c i hic hi
  · refine Rep.congr (fun i hi => ?_) ha
    have hi0 := Rep.ids_ne_zero ha i hi
    refine hfr i hi0 ?_ ?_ (hcptr i hi0 ?_) ?_
    · rintro rfl; exact hpa hi
    · rintro rfl; exact hba hi
    · intro hic; exact hac hi hic
    · cases fs with
      | nil => simpa [ctxPar, nil_node] using hi0
      | cons f rest =>
        simp only [ctxPar, ne_eq, Option.some.injEq]
        rintro rfl
        exact h3a _ hi (by simp [ctxIds, Frame.ids])
  · refine Rep.reparent hc hnc hc' (fun i hi hne => ?_)
    have hi0 := Rep.ids_ne_zero hc i hi
    refine hfr i hi0 ?_ ?_ hne ?_
    · rintro rfl; exact hpc hi
    · rintro rfl; exact hbc hi
    · cases fs with
      | nil => simpa [ctxPar, nil_node] using hi0
      | cons f rest =>
        simp only [ctxPar, ne_eq, Option.some.injEq]
        rintro rfl
        exact h3c _ hi (by simp [ctxIds, Frame.ids])
  · refine Rep.congr (fun i hi => ?_) hd
    have hi0 := Rep.ids_ne_zero hd i hi
    refine hfr i hi0 ?_ ?_ (hcptr i hi0 ?_) ?_
    · rintro rfl; exact hpd hi
    · rintro rfl; exact hbd hi
    · intro hic; exact hcd hic hi
    · cases fs with
      | nil => simpa [ctxPar, nil_node] using hi0
      | cons f rest =>
        simp only [ctxPar, ne_eq, Option.some.injEq]
        rintro rfl
        exact h3d _ hi (by simp [ctxIds, Frame.ids])

theorem rotate_left_focus {s : set} {N : SetNode} {fs : List Frame} {p b : Nat} {cp cb : Color}
    {a c d : PTree} {vp vb : Int}
    (h : Abs s (plug fs (node p cp a vp (node b cb c vb d))) N) :
    ∃ s' N', rotate_left s (some p) = Except.ok s' ∧
      Abs s' (plug fs (node b cb (node p cp a vp c) vb d)) N' ∧
      N'.m_color = N.m_color ∧ (N.m_left_child = none → N'.m_left_child = none) ∧
      (N'.m_parent = N.m_parent ∨ N'.m_parent = some p) ∧
      s'.m_size = s.m_size ∧ s'.store.length = s.store.length := by
  obtain ⟨hrep, hroot, hnd, hnil, hisnil⟩ := h
  have hnd' : (plug fs (node b cb (node p cp a vp c) vb d)).ids.Nodup := by
    refine (nodup_plug_congr ?_).1 hnd
    simp only [PTree.ids, List.append_assoc, List.cons_append]
    exact List.Perm.refl _
  have hasm := fun st' => @rotL_assemble s.store st' fs p b cp cb a c d vp vb hrep hnd
  rw [Rep_plug] at hrep
  obtain ⟨hctx, hp0, hp, ha, hb0, hb, hc, hd⟩ := hrep
  rw [nodup_plug'] at hnd
  obtain ⟨hnd1, hnd2, hnd3⟩ := hnd
  simp only [PTree.ids, List.nodup_append, List.nodup_cons, List.mem_append, List.mem_cons,
    List.disjoint_cons_right, List.disjoint_append_right, forall_eq_or_imp, or_imp, forall_and,
    forall_eq, not_or] at hnd1 hnd3
  have hpb : p ≠ b := hnd1.2.1.1.2.1
  have hbp : b ≠ p := hpb.symm
  have hp0' : 0 ≠ p := hp0.symm
  have hb0' : 0 ≠ b := hb0.symm
  have hpl := slot_lt hp
  have hbl := slot_lt hb
  have h0l := slot_lt hnil
  simp only [ptr_node] at hp hb hctx
  rcases fs with _ | ⟨f, rest⟩
  · -- the rotated node is the root
    simp only [plug, ptr_node] at hroot
    simp only [ctxPar, nil_node] at hp
    cases c with
    | nil =>
      simp only [ptr_nil] at hb
      by_cases hNl : N.m_left_child = some p
      · simp [rotate_left, right_child, left_child, is_nil_node, parent, load_eq, hp, hb, hnil, modify_eq, set_left_child, set_parent, set_right_child, bind_ok, map_ok, is_left_child, bind, Except.bind, Except.map, pure, Except.pure,
          slot_set_self, slot_set_ne, hpb, hbp, hp0, hb0, hp0', hb0', hpl, hbl, h0l, nil_node, is_root, hroot, hNl]
        refine ⟨_, ⟨?_, rfl, hnd', slot_set_self _ (by simpa using h0l), hisnil⟩, rfl, Or.inr rfl⟩
        apply hasm
        · simp [slot_set_self, slot_set_ne, hpb, hbp, hp0, hb0, hp0', hb0', hpl, hbl, h0l, ctxPar, nil_node]
        · simp [slot_set_self, slot_set_ne, hpb, hbp, hp0, hb0, hp0', hb0', hpl, hbl, h0l, ctxPar, nil_node]
        · intro i hi hi0; simp at hi; exact absurd hi.symm hi0
        · intro f rest hfs; simp at hfs
        · intro i h1 h2 h3 h4 h5
          simp [slot_set_self, slot_set_ne, h1, h2, h3]
      · simp [rotate_left, right_child, left_child, is_nil_node, parent, load_eq, hp, hb, hnil, modify_eq, set_left_child, set_parent, set_right_child, bind_ok, map_ok, is_left_child, bind, Except.bind, Except.map, pure, Except.pure,
          slot_set_self, slot_set_ne, hpb, hbp, hp0, hb0, hp0', hb0', hpl, hbl, h0l, nil_node, is_root, hroot, hNl]
        refine ⟨_, ⟨?_, rfl, hnd', slot_set_self _ (by simpa using h0l), hisnil⟩, rfl, id, Or.inr rfl⟩
        apply hasm
        · simp [slot_set_self, slot_set_ne, hpb, hbp, hp0, hb0, hp0', hb0', hpl, hbl, h0l, ctxPar, nil_node]
        · simp [slot_set_self, slot_set_ne, hpb, hbp, hp0, hb0, hp0', hb0', hpl, hbl, h0l, ctxPar, nil_node]
        · intro i hi hi0; simp at hi; exact absurd hi.symm hi0
        · intro f rest hfs; simp at hfs
        · intro i h1 h2 h3 h4 h5
          simp [slot_set_self, slot_set_ne, h1, h2, h3]
    | node ci cc cl cv cr =>
      obtain ⟨hci0, hci, -, -⟩ := hc
      simp only [ptr_node] at hb
      have hcl := slot_lt hci
      have hcp : ci ≠ p := fun e => hnd1.2.1.1.1 (by simp [PTree.ids, e])
      have hcb : ci ≠ b := fun e => hnd1.2.1.2.2.2.1 (by simp [PTree.ids, e])
      have hpc := hcp.symm
      have hbc := hcb.symm
      have hci0' := hci0.symm
      by_cases hNl : N.m_left_child = some p
      · simp [rotate_left, right_child, left_child, is_nil_node, parent, load_eq, hp, hb, hnil, hci, modify_eq, set_left_child, set_parent, set_right_child, bind_ok, map_ok, is_left_child, bind, Except.bind, Except.map, pure, Except.pure,
          slot_set_self, slot_set_ne, hpb, hbp, hp0, hb0, hp0', hb0', hpl, hbl, h0l, nil_node, is_root, hroot, hNl,
          hcl, hcp, hcb, hpc, hbc, hci0, hci0']
        refine ⟨{ N with m_left_child := some b }, ⟨?_, rfl, hnd', ?_, hisnil⟩, rfl, Or.inl rfl⟩
        · apply hasm
          · simp [slot_set_self, slot_set_ne, hpb, hbp, hp0, hb0, hp0', hb0', hpl, hbl, h0l, ctxPar, nil_node, hcl, hcp, hcb, hpc, hbc, hci0, hci0']
          · simp [slot_set_self, slot_set_ne, hpb, hbp, hp0, hb0, hp0', hb0', hpl, hbl, h0l, ctxPar, nil_node, hcl, hcp, hcb, hpc, hbc, hci0, hci0']
          · intro i hi hi0
            simp only [ptr_node, Option.some.injEq] at hi
            subst hi
            simp [slot_set_self, slot_set_ne, hpb, hbp, hp0, hb0, hp0', hb0', hpl, hbl, h0l, ctxPar, nil_node, hcl, hcp, hcb, hpc, hbc, hci0, hci0', hci]
          · intro f rest hfs; simp at hfs
          · intro i h1 h2 h3 h4 h5
            simp only [ptr_node, ne_eq, Option.some.injEq] at h4
            simp [slot_set_self, slot_set_ne, h1, h2, h3, h4]
        · simp [slot_set_self, slot_set_ne, hpb, hbp, hp0, hb0, hp0', hb0', hpl, hbl, h0l, ctxPar, nil_node, hcl, hcp, hcb, hpc, hbc, hci0, hci0']
      · simp [rotate_left, right_child, left_child, is_nil_node, parent, load_eq, hp, hb, hnil, hci, modify_eq, set_left_child, set_parent, set_right_child, bind_ok, map_ok, is_left_child, bind, Except.bind, Except.map, pure, Except.pure,
          slot_set_self, slot_set_ne, hpb, hbp, hp0, hb0, hp0', hb0', hpl, hbl, h0l, nil_node, is_root, hroot, hNl,
          hcl, hcp, hcb, hpc, hbc, hci0, hci0']
        refine ⟨{ N with m_right_child := some b }, ⟨?_, rfl, hnd', ?_, hisnil⟩, rfl, id, Or.inl rfl⟩
        · apply hasm
          · simp [slot_set_self, slot_set_ne, hpb, hbp, hp0, hb0, hp0', hb0', hpl, hbl, h0l, ctxPar, nil_node, hcl, hcp, hcb, hpc, hbc, hci0, hci0']
          · simp [slot_set_self, slot_set_ne, hpb, hbp, hp0, hb0, hp0', hb0', hpl, hbl, h0l, ctxPar, nil_node, hcl, hcp, hcb, hpc, hbc, hci0, hci0']
          · intro i hi hi0
            simp only [ptr_node, Option.some.injEq] at hi
            subst hi
            simp [slot_set_self, slot_set_ne, hpb, hbp, hp0, hb0, hp0', hb0', hpl, hbl, h0l, ctxPar, nil_node, hcl, hcp, hcb, hpc, hbc, hci0, hci0', hci]
          · intro f rest hfs; simp at hfs
          · intro i h1 h2 h3 h4 h5
            simp only [ptr_node, ne_eq, Option.some.injEq] at h4
            simp [slot_set_self, slot_set_ne, h1, h2, h3, h4]
        · simp [slot_set_self, slot_set_ne, hpb, hbp, hp0, hb0, hp0', hb0', hpl, hbl, h0l, ctxPar, nil_node, hcl, hcp, hcb, hpc, hbc, hci0, hci0']
  · -- the rotated node has a parent `g`
    obtain ⟨r, hrm, hr⟩ := ptr_plug_mem (f :: rest) (node p cp a vp (node b cb c vb d)) (by simp)
    have hroot2 : s.m_root = (plug (f :: rest) (node b cb (node p cp a vp c) vb d)).ptr :=
      hroot.trans (ptr_plug_cons _ _ _ _)
    rw [hr] at hroot
    have hrp : r ≠ p := fun e => hnd3.2.1 (e ▸ hrm)
    have hpr := hrp.symm
    cases f with
    | L g cg vg sib =>
      obtain ⟨hg0, hg, hsib, hrest⟩ := hctx
      simp only [ctxPar, Frame.id] at hp
      have hgl := slot_lt hg
      have hgp : g ≠ p := fun e => hnd3.2.1 (by simp [ctxIds, Frame.ids, Frame.id, e])
      have hgb : g ≠ b := fun e => hnd3.2.2.2.1 (by simp [ctxIds, Frame.ids, Frame.id, e])
      have hpg := hgp.symm
      have hbg := hgb.symm
      have hg0' := hg0.symm
      cases c with
      | nil =>
        simp only [ptr_nil] at hb
        simp [rotate_left, right_child, left_child, is_nil_node, parent, load_eq, hp, hb, hnil, hg, modify_eq, set_left_child, set_parent, set_right_child, bind_ok, map_ok, is_left_child, bind, Except.bind, Except.map, pure, Except.pure,
          slot_set_self, slot_set_ne, hpb, hbp, hp0, hb0, hp0', hb0', hpl, hbl, h0l, nil_node, is_root, hroot,
          hgl, hgp, hgb, hpg, hbg, hg0, hg0', hpr]
        refine ⟨_, ⟨?_, ?_, hnd', slot_set_self _ (by simpa using h0l), hisnil⟩, rfl, id, Or.inr rfl⟩
        · apply hasm
          · simp [slot_set_self, slot_set_ne, hpb, hbp, hp0, hb0, hp0', hb0', hpl, hbl, h0l, ctxPar, nil_node, hgl, hgp, hgb, hpg, hbg, hg0, hg0', Frame.id]
          · simp [slot_set_self, slot_set_ne, hpb, hbp, hp0, hb0, hp0', hb0', hpl, hbl, h0l, ctxPar, nil_node, hgl, hgp, hgb, hpg, hbg, hg0, hg0', Frame.id]
          · intro i hi hi0; simp at hi; exact absurd hi.symm hi0
          · intro f rest hfs
            simp only [List.cons.injEq] at hfs
            obtain ⟨rfl, rfl⟩ := hfs
            simp [slot_set_self, slot_set_ne, hpb, hbp, hp0, hb0, hp0', hb0', hpl, hbl, h0l, ctxPar, nil_node, hgl, hgp, hgb, hpg, hbg, hg0, hg0', Frame.id, hg]
          · intro i h1 h2 h3 h4 h5
            simp only [ctxPar, Frame.id, ne_eq, Option.some.injEq] at h5
            simp [slot_set_self, slot_set_ne, h1, h2, h3, h5]
        · exact hroot.symm.trans hroot2
      | node ci cc cl cv cr =>
        obtain ⟨hci0, hci, -, -⟩ := hc
        simp only [ptr_node] at hb
        have hcl := slot_lt hci
        have hcp : ci ≠ p := fun e => hnd1.2.1.1.1 (by simp [PTree.ids, e])
        have hcb : ci ≠ b := fun e => hnd1.2.1.2.2.2.1 (by simp [PTree.ids, e])
        have hcg : ci ≠ g := fun e => hnd3.2.2.1 ci (by simp [PTree.ids]) (by simp [ctxIds, Frame.ids, Frame.id, e])
        have hgc := hcg.symm
        have hpc := hcp.symm
        have hbc := hcb.symm
        have hci0' := hci0.symm
        simp [rotate_left, right_child, left_child, is_nil_node, parent, load_eq, hp, hb, hnil, hg, modify_eq, set_left_child, set_parent, set_right_child, bind_ok, map_ok, is_left_child, bind, Except.bind, Except.map, pure, Except.pure,
          slot_set_self, slot_set_ne, hpb, hbp, hp0, hb0, hp0', hb0', hpl, hbl, h0l, nil_node, is_root, hroot,
          hgl, hgp, hgb, hpg, hbg, hg0, hg0', hpr, hci, hcl, hcp, hcb, hpc, hbc, hci0, hci0', hcg, hgc]
        refine ⟨N, ⟨?_, ?_, hnd', ?_, hisnil⟩, rfl, id, Or.inl rfl⟩
        · apply hasm
          · simp [slot_set_self, slot_set_ne, hpb, hbp, hp0, hb0, hp0', hb0', hpl, hbl, h0l, ctxPar, nil_node, hgl, hgp, hgb, hpg, hbg, hg0, hg0', Frame.id, hcl, hcp, hcb, hpc, hbc, hci0, hci0', hcg, hgc]
          · simp [slot_set_self, slot_set_ne, hpb, hbp, hp0, hb0, hp0', hb0', hpl, hbl, h0l, ctxPar, nil_node, hgl, hgp, hgb, hpg, hbg, hg0, hg0', Frame.id, hcl, hcp, hcb, hpc, hbc, hci0, hci0', hcg, hgc]
          · intro i hi hi0
            simp only [ptr_node, Option.some.injEq] at hi
            subst hi
            simp [slot_set_self, slot_set_ne, hpb, hbp, hp0, hb0, hp0', hb0', hpl, hbl, h0l, ctxPar, nil_node, hgl, hgp, hgb, hpg, hbg, hg0, hg0', Frame.id, hcl, hcp, hcb, hpc, hbc, hci0, hci0', hcg, hgc, hci]
          · intro f rest hfs
            simp only [List.cons.injEq] at hfs
            obtain ⟨rfl, rfl⟩ := hfs
            simp [slot_set_self, slot_set_ne, hpb, hbp, hp0, hb0, hp0', hb0', hpl, hbl, h0l, ctxPar, nil_node, hgl, hgp, hgb, hpg, hbg, hg0, hg0', Frame.id, hcl, hcp, hcb, hpc, hbc, hci0, hci0', hcg, hgc, hg]
          · intro i h1 h2 h3 h4 h5
            simp only [ctxPar, Frame.id, ptr_node, ne_eq, Option.some.injEq] at h4 h5
            simp [slot_set_self, slot_set_ne, h1, h2, h3, h4, h5]
        · exact hroot.symm.trans hroot2
        · simp [slot_set_self, slot_set_ne, hpb, hbp, hp0, hb0, hp0', hb0', hpl, hbl, h0l, ctxPar, nil_node, hgl, hgp, hgb, hpg, hbg, hg0, hg0', Frame.id, hcl, hcp, hcb, hpc, hbc, hci0, hci0', hcg, hgc, hnil]
    | R g cg sib vg =>
      obtain ⟨hg0, hg, hsib, hrest⟩ := hctx
      simp only [ctxPar, Frame.id] at hp
      have hgl := slot_lt hg
      have hgp : g ≠ p := fun e => hnd3.2.1 (by simp [ctxIds, Frame.ids, Frame.id, e])
      have hgb : g ≠ b := fun e => hnd3.2.2.2.1 (by simp [ctxIds, Frame.ids, Frame.id, e])
      have hpg := hgp.symm
      have hbg := hgb.symm
      have hg0' := hg0.symm
      have hsp : sib.ptr ≠ some p :=
        PTree.ptr_ne_of_not_mem hp0 (fun e => hnd3.2.1 (by simp [ctxIds, Frame.ids, Frame.sib, e]))
      cases c with
      | nil =>
        simp only [ptr_nil] at hb
        simp [rotate_left, right_child, left_child, is_nil_node, parent, load_eq, hp, hb, hnil, hg, modify_eq, set_left_child, set_parent, set_right_child, bind_ok, map_ok, is_left_child, bind, Except.bind, Except.map, pure, Except.pure,
          slot_set_self, slot_set_ne, hpb, hbp, hp0, hb0, hp0', hb0', hpl, hbl, h0l, nil_node, is_root, hroot,
          hgl, hgp, hgb, hpg, hbg, hg0, hg0', hpr, hsp]
        refine ⟨_, ⟨?_, ?_, hnd', slot_set_self _ (by simpa using h0l), hisnil⟩, rfl, id, Or.inr rfl⟩
        · apply hasm
          · simp [slot_set_self, slot_set_ne, hpb, hbp, hp0, hb0, hp0', hb0', hpl, hbl, h0l, ctxPar, nil_node, hgl, hgp, hgb, hpg, hbg, hg0, hg0', Frame.id]
          · simp [slot_set_self, slot_set_ne, hpb, hbp, hp0, hb0, hp0', hb0', hpl, hbl, h0l, ctxPar, nil_node, hgl, hgp, hgb, hpg, hbg, hg0, hg0', Frame.id]
          · intro i hi hi0; simp at hi; exact absurd hi.symm hi0
          · intro f rest hfs
            simp only [List.cons.injEq] at hfs
            obtain ⟨rfl, rfl⟩ := hfs
            simp [slot_set_self, slot_set_ne, hpb, hbp, hp0, hb0, hp0', hb0', hpl, hbl, h0l, ctxPar, nil_node, hgl, hgp, hgb, hpg, hbg, hg0, hg0', Frame.id, hg]
          · intro i h1 h2 h3 h4 h5
            simp only [ctxPar, Frame.id, ne_eq, Option.some.injEq] at h5
            simp [slot_set_self, slot_set_ne, h1, h2, h3, h5]
        · exact hroot.symm.trans hroot2
      | node ci cc cl cv cr =>
        obtain ⟨hci0, hci, -, -⟩ := hc
        simp only [ptr_node] at hb
        have hcl := slot_lt hci
        have hcp : ci ≠ p := fun e => hnd1.2.1.1.1 (by simp [PTree.ids, e])
        have hcb : ci ≠ b := fun e => hnd1.2.1.2.2.2.1 (by simp [PTree.ids, e])
        have hcg : ci ≠ g := fun e => hnd3.2.2.1 ci (by simp [PTree.ids]) (by simp [ctxIds, Frame.ids, Frame.id, e])
        have hgc := hcg.symm
        have hpc := hcp.symm
        have hbc := hcb.symm
        have hci0' := hci0.symm
        simp [rotate_left, right_child, left_child, is_nil_node, parent, load_eq, hp, hb, hnil, hg, modify_eq, set_left_child, set_parent, set_right_child, bind_ok, map_ok, is_left_child, bind, Except.bind, Except.map, pure, Except.pure,
          slot_set_self, slot_set_ne, hpb, hbp, hp0, hb0, hp0', hb0', hpl, hbl, h0l, nil_node, is_root, hroot,
          hgl, hgp, hgb, hpg, hbg, hg0, hg0', hpr, hci, hcl, hcp, hcb, hpc, hbc, hci0, hci0', hcg, hgc, hsp]
        refine ⟨N, ⟨?_, ?_, hnd', ?_, hisnil⟩, rfl, id, Or.inl rfl⟩
        · apply hasm
          · simp [slot_set_self, slot_set_ne, hpb, hbp, hp0, hb0, hp0', hb0', hpl, hbl, h0l, ctxPar, nil_node, hgl, hgp, hgb, hpg, hbg, hg0, hg0', Frame.id, hcl, hcp, hcb, hpc, hbc, hci0, hci0', hcg, hgc]
          · simp [slot_set_self, slot_set_ne, hpb, hbp, hp0, hb0, hp0', hb0', hpl, hbl, h0l, ctxPar, nil_node, hgl, hgp, hgb, hpg, hbg, hg0, hg0', Frame.id, hcl, hcp, hcb, hpc, hbc, hci0, hci0', hcg, hgc]
          · intro i hi hi0
            simp only [ptr_node, Option.some.injEq] at hi
            subst hi
            simp [slot_set_self, slot_set_ne, hpb, hbp, hp0, hb0, hp0', hb0', hpl, hbl, h0l, ctxPar, nil_node, hgl, hgp, hgb, hpg, hbg, hg0, hg0', Frame.id, hcl, hcp, hcb, hpc, hbc, hci0, hci0', hcg, hgc, hci]
          · intro f rest hfs
            simp only [List.cons.injEq] at hfs
            obtain ⟨rfl, rfl⟩ := hfs
            simp [slot_set_self, slot_set_ne, hpb, hbp, hp0, hb0, hp0', hb0', hpl, hbl, h0l, ctxPar, nil_node, hgl, hgp, hgb, hpg, hbg, hg0, hg0', Frame.id, hcl, hcp, hcb, hpc, hbc, hci0, hci0', hcg, hgc, hg]
          · intro i h1 h2 h3 h4 h5
            simp only [ctxPar, Frame.id, ptr_node, ne_eq, Option.some.injEq] at h4 h5
            simp [slot_set_self, slot_set_ne, h1, h2, h3, h4, h5]
        · exact hroot.symm.trans hroot2
        · simp [slot_set_self, slot_set_ne, hpb, hbp, hp0, hb0, hp0', hb0', hpl, hbl, h0l, ctxPar, nil_node, hgl, hgp, hgb, hpg, hbg, hg0, hg0', Frame.id, hcl, hcp, hcb, hpc, hbc, hci0, hci0', hcg, hgc, hnil]

theorem rotR_assemble {st st' : List (Option SetNode)} {fs : List Frame} {p b : Nat}
    {cp cb : Color} {c d e : PTree} {vp vb : Int}
    (hrep : Rep st (plug fs (node p cp (node b cb c vb d) vp e)) nil_node)
    (hnd : (plug fs (node p cp (node b cb c vb d) vp e)).ids.Nodup)
    (hb' : slot st' b = some ⟨cb, ctxPar fs, c.ptr, some p, vb, false⟩)
    (hp' : slot st' p = some ⟨cp, some b, d.ptr, e.ptr, vp, false⟩)
    (hd' : ∀ i, d.ptr = some i → i ≠ 0 →
      slot st' i = (slot st i).map (fun n => { n with m_parent := some p }))
    (hg' : ∀ f rest, fs = f :: rest →
      slot st' f.id = (slot st f.id).map (fun n =>
        match f with
        | Frame.L _ _ _ _ => { n with m_left_child := some b }
        | Frame.R _ _ _ _ => { n with m_right_child := some b }))
    (hfr : ∀ i, i ≠ 0 → i ≠ p → i ≠ b → some i ≠ d.ptr → some i ≠ ctxPar fs →
      slot st' i = slot st i) :
    Rep st' (plug fs (node b cb c vb (node p cp d vp e))) nil_node := by
  rw [Rep_plug] at hrep ⊢
  obtain ⟨hctx, hp0, hp, ⟨hb0, hb, hc, hd⟩, he⟩ := hrep
  rw [nodup_plug'] at hnd
  obtain ⟨hnd1, hnd2, hnd3⟩ := hnd
  simp only [PTree.ids, List.nodup_append, List.nodup_cons, List.mem_append, List.mem_cons,
    List.disjoint_cons_right, List.disjoint_append_right, List.disjoint_append_left,
    List.disjoint_cons_left, forall_eq_or_imp, or_imp, forall_and,
    forall_eq, not_or] at hnd1 hnd3
  obtain ⟨⟨hnc, ⟨hbd, hndd⟩, hbc, hcd⟩, ⟨hpe, hnde⟩, ⟨hpc, hpb, hpd⟩, hce, hbe, hde⟩ := hnd1
  obtain ⟨⟨h3c, h3b, h3d⟩, h3p, h3e⟩ := hnd3
  have hdptr : ∀ i, i ≠ 0 → i ∉ d.ids → some i ≠ d.ptr :=
    fun i hi0 hid => (PTree.ptr_ne_of_not_mem hi0 hid).symm
  have hpar : ∀ i, i ≠ 0 → i ∉ ctxIds fs → some i ≠ ctxPar fs := by
    intro i hi0 hi
    cases fs with
    | nil => simpa [ctxPar, nil_node] using hi0
    | cons f rest =>
      simp only [ctxPar, ne_eq, Option.some.injEq]
      rintro rfl
      exact hi (by simp [ctxIds, Frame.ids])
  refine ⟨?_, hb0, hb', ?_, hp0, hp', ?_, ?_⟩
  · refine RepCtx.relink hctx hnd2 hg' (fun i hi hne => ?_)
    refine hfr i (RepCtx.ctx_ne_zero hctx i hi) ?_ ?_ (hdptr i (RepCtx.ctx_ne_zero hctx i hi) ?_) hne
    · rintro rfl; exact h3p hi
    · rintro rfl; exact h3b hi
    · intro hid; exact h3d i hid hi
  · refine Rep.congr (fun i hi => ?_) hc
    have hi0 := Rep.ids_ne_zero hc i hi
    refine hfr i hi0 ?_ ?_ (hdptr i hi0 ?_) (hpar i hi0 (h3c i hi))
    · rintro rfl; exact hpc hi
    · rintro rfl; exact hbc hi
    · intro hid; exact hcd hi hid
  · refine Rep.reparent hd hndd hd' (fun i hi hne => ?_)
    have hi0 := Rep.ids_ne_zero hd i hi
    refine hfr i hi0 ?_ ?_ hne (hpar i hi0 (h3d i hi))
    · rintro rfl; exact hpd hi
    · rintro rfl; exact hbd hi
  · refine Rep.congr (fun i hi => ?_) he
    have hi0 := Rep.ids_ne_zero he i hi
    refine hfr i hi0 ?_ ?_ (hdptr i hi0 ?_) (hpar i hi0 (h3e i hi))
    · rintro rfl; exact hpe hi
    · rintro rfl; exact hbe hi
    · intro hid; exact hde hid hi

theorem rotate_right_focus {s : set} {N : SetNode} {fs : List Frame} {p b : Nat} {cp cb : Color}
    {c d e : PTree} {vp vb : Int}
    (h : Abs s (plug fs (node p cp (node b cb c vb d) vp e)) N) :
    ∃ s' N', rotate_right s (some p) = Except.ok s' ∧
      Abs s' (plug fs (node b cb c vb (node p cp d vp e))) N' ∧
      N'.m_color = N.m_color ∧ (N.m_left_child = none → N'.m_left_child = none) ∧
      (N'.m_parent = N.m_parent ∨ N'.m_parent = some p) ∧
      s'.m_size = s.m_size ∧ s'.store.length = s.store.length := by
  obtain ⟨hrep, hroot, hnd, hnil, hisnil⟩ := h
  have hnd' : (plug fs (node b cb c vb (node p cp d vp e))).ids.Nodup := by
    refine (nodup_plug_congr ?_).1 hnd
    simp only [PTree.ids, List.append_assoc, List.cons_append]
    exact List.Perm.refl _
  have hasm := fun st' => @rotR_assemble s.store st' fs p b cp cb c d e vp vb hrep hnd
  rw [Rep_plug] at hrep
  obtain ⟨hctx, hp0, hp, ⟨hb0, hb, hc, hd⟩, he⟩ := hrep
  rw [nodup_plug'] at hnd
  obtain ⟨hnd1, hnd2, hnd3⟩ := hnd
  simp only [PTree.ids, List.nodup_append, List.nodup_cons, List.mem_append, List.mem_cons,
    List.disjoint_cons_right, List.disjoint_append_right, List.disjoint_append_left,
    List.disjoint_cons_left, forall_eq_or_imp, or_imp, forall_and,
    forall_eq, not_or] at hnd1 hnd3
  obtain ⟨⟨hnc, ⟨hbd, hndd⟩, hbc, hcd⟩, ⟨hpe, hnde⟩, ⟨hpc, hpb, hpd⟩, hce, hbe, hde⟩ := hnd1
  obtain ⟨⟨h3c, h3b, h3d⟩, h3p, h3e⟩ := hnd3
  have hpb : p ≠ b := hpb
  have hbp : b ≠ p := hpb.symm
  have hp0' : 0 ≠ p := hp0.symm
  have hb0' : 0 ≠ b := hb0.symm
  have hpl := slot_lt hp
  have hbl := slot_lt hb
  have h0l := slot_lt hnil
  simp only [ptr_node] at hp hb hctx
  rcases fs with _ | ⟨f, rest⟩
  · -- the rotated node is the root
    simp only [plug, ptr_node] at hroot
    simp only [ctxPar, nil_node] at hp
    cases d with
    | nil =>
      simp only [ptr_nil] at hb
      by_cases hNl : N.m_left_child = some p
      · simp [rotate_right, right_child, left_child, is_nil_node, parent, load_eq, hp, hb, hnil, modify_eq, set_left_child, set_parent, set_right_child, bind_ok, map_ok, is_left_child, bind, Except.bind, Except.map, pure, Except.pure, slot_set_self, slot_set_ne, nil_node, is_root, hroot, hpb, hbp, hp0, hb0, hp0', hb0', hpl, hbl, h0l, hNl]
        refine ⟨_, ⟨?_, rfl, hnd', slot_set_self _ (by simpa using h0l), hisnil⟩, rfl, Or.inr rfl⟩
        apply hasm
        · simp [slot_set_self, slot_set_ne, hpb, hbp, hp0, hb0, hp0', hb0', hpl, hbl, h0l, ctxPar, nil_node]
        · simp [slot_set_self, slot_set_ne, hpb, hbp, hp0, hb0, hp0', hb0', hpl, hbl, h0l, ctxPar, nil_node]
        · intro i hi hi0; simp at hi; exact absurd hi.symm hi0
        · intro f rest hfs; simp at hfs
        · intro i h1 h2 h3 h4 h5
          simp [slot_set_self, slot_set_ne, h1, h2, h3]
      · simp [rotate_right, right_child, left_child, is_nil_node, parent, load_eq, hp, hb, hnil, modify_eq, set_left_child, set_parent, set_right_child, bind_ok, map_ok, is_left_child, bind, Except.bind, Except.map, pure, Except.pure, slot_set_self, slot_set_ne, nil_node, is_root, hroot, hpb, hbp, hp0, hb0, hp0', hb0', hpl, hbl, h0l, hNl]
        refine ⟨_, ⟨?_, rfl, hnd', slot_set_self _ (by simpa using h0l), hisnil⟩, rfl, id, Or.inr rfl⟩
        apply hasm
        · simp [slot_set_self, slot_set_ne, hpb, hbp, hp0, hb0, hp0', hb0', hpl, hbl, h0l, ctxPar, nil_node]
        · simp [slot_set_self, slot_set_ne, hpb, hbp, hp0, hb0, hp0', hb0', hpl, hbl, h0l, ctxPar, nil_node]
        · intro i hi hi0; simp at hi; exact absurd hi.symm hi0
        · intro f rest hfs; simp at hfs
        · intro i h1 h2 h3 h4 h5
          simp [slot_set_self, slot_set_ne, h1, h2, h3]
    | node di cd dl dv dr =>
      obtain ⟨hdi0, hdi, -, -⟩ := hd
      simp only [ptr_node] at hb
      have hcl := slot_lt hdi
      have hdp : di ≠ p := fun e' => hpd (by simp [PTree.ids, e'])
      have hdb : di ≠ b := fun e' => hbd (by simp [PTree.ids, e'])
      have hpd' := hdp.symm
      have hbd' := hdb.symm
      have hdi0' := hdi0.symm
      by_cases hNl : N.m_left_child = some p
      · simp [rotate_right, right_child, left_child, is_nil_node, parent, load_eq, hp, hb, hnil, modify_eq, set_left_child, set_parent, set_right_child, bind_ok, map_ok, is_left_child, bind, Except.bind, Except.map, pure, Except.pure, slot_set_self, slot_set_ne, nil_node, is_root, hroot, hpb, hbp, hp0, hb0, hp0', hb0', hpl, hbl, h0l, hNl, hdi, hcl, hdp, hdb, hpd', hbd', hdi0, hdi0']
        refine ⟨{ N with m_left_child := some b }, ⟨?_, rfl, hnd', ?_, hisnil⟩, rfl, Or.inl rfl⟩
        · apply hasm
          · simp [slot_set_self, slot_set_ne, hpb, hbp, hp0, hb0, hp0', hb0', hpl, hbl, h0l, ctxPar, nil_node, hcl, hdp, hdb, hpd', hbd', hdi0, hdi0']
          · simp [slot_set_self, slot_set_ne, hpb, hbp, hp0, hb0, hp0', hb0', hpl, hbl, h0l, ctxPar, nil_node, hcl, hdp, hdb, hpd', hbd', hdi0, hdi0']
          · intro i hi hi0
            simp only [ptr_node, Option.some.injEq] at hi
            subst hi
            simp [slot_set_self, slot_set_ne, hpb, hbp, hp0, hb0, hp0', hb0', hpl, hbl, h0l, ctxPar, nil_node, hcl, hdp, hdb, hpd', hbd', hdi0, hdi0', hdi]
          · intro f rest hfs; simp at hfs
          · intro i h1 h2 h3 h4 h5
            simp only [ptr_node, ne_eq, Option.some.injEq] at h4
            simp [slot_set_self, slot_set_ne, h1, h2, h3, h4]
        · simp [slot_set_self, slot_set_ne, hpb, hbp, hp0, hb0, hp0', hb0', hpl, hbl, h0l, ctxPar, nil_node, hcl, hdp, hdb, hpd', hbd', hdi0, hdi0']
      · simp [rotate_right, right_child, left_child, is_nil_node, parent, load_eq, hp, hb, hnil, modify_eq, set_left_child, set_parent, set_right_child, bind_ok, map_ok, is_left_child, bind, Except.bind, Except.map, pure, Except.pure, slot_set_self, slot_set_ne, nil_node, is_root, hroot, hpb, hbp, hp0, hb0, hp0', hb0', hpl, hbl, h0l, hNl, hdi, hcl, hdp, hdb, hpd', hbd', hdi0, hdi0']
        refine ⟨{ N with m_right_child := some b }, ⟨?_, rfl, hnd', ?_, hisnil⟩, rfl, id, Or.inl rfl⟩
        · apply hasm
          · simp [slot_set_self, slot_set_ne, hpb, hbp, hp0, hb0, hp0', hb0', hpl, hbl, h0l, ctxPar, nil_node, hcl, hdp, hdb, hpd', hbd', hdi0, hdi0']
          · simp [slot_set_self, slot_set_ne, hpb, hbp, hp0, hb0, hp0', hb0', hpl, hbl, h0l, ctxPar, nil_node, hcl, hdp, hdb, hpd', hbd', hdi0, hdi0']
          · intro i hi hi0
            simp only [ptr_node, Option.some.injEq] at hi
            subst hi
            simp [slot_set_self, slot_set_ne, hpb, hbp, hp0, hb0, hp0', hb0', hpl, hbl, h0l, ctxPar, nil_node, hcl, hdp, hdb, hpd', hbd', hdi0, hdi0', hdi]
          · intro f rest hfs; simp at hfs
          · intro i h1 h2 h3 h4 h5
            simp only [ptr_node, ne_eq, Option.some.injEq] at h4
            simp [slot_set_self, slot_set_ne, h1, h2, h3, h4]
        · simp [slot_set_self, slot_set_ne, hpb, hbp, hp0, hb0, hp0', hb0', hpl, hbl, h0l, ctxPar, nil_node, hcl, hdp, hdb, hpd', hbd', hdi0, hdi0']
  · -- the rotated node has a parent `g`
    obtain ⟨r, hrm, hr⟩ := ptr_plug_mem (f :: rest) (node p cp (node b cb c vb d) vp e) (by simp)
    have hroot2 : s.m_root = (plug (f :: rest) (node b cb c vb (node p cp d vp e))).ptr :=
      hroot.trans (ptr_plug_cons _ _ _ _)
    rw [hr] at hroot
    have hrp : r ≠ p := fun e' => h3p (e' ▸ hrm)
    have hpr := hrp.symm
    cases f with
    | L g cg vg sib =>
      obtain ⟨hg0, hg, hsib, hrest⟩ := hctx
      simp only [ctxPar, Frame.id] at hp
      have hgl := slot_lt hg
      have hgp : g ≠ p := fun e' => h3p (by simp [ctxIds, Frame.ids, Frame.id, e'])
      have hgb : g ≠ b := fun e' => h3b (by simp [ctxIds, Frame.ids, Frame.id, e'])
      have hpg := hgp.symm
      have hbg := hgb.symm
      have hg0' := hg0.symm
      cases d with
      | nil =>
        simp only [ptr_nil] at hb
        simp [rotate_right, right_child, left_child, is_nil_node, parent, load_eq, hp, hb, hnil, modify_eq, set_left_child, set_parent, set_right_child, bind_ok, map_ok, is_left_child, bind, Except.bind, Except.map, pure, Except.pure, slot_set_self, slot_set_ne, nil_node, is_root, hroot, hpb, hbp, hp0, hb0, hp0', hb0', hpl, hbl, h0l, hg, hgl, hgp, hgb, hpg, hbg, hg0, hg0', hpr]
        refine ⟨_, ⟨?_, ?_, hnd', slot_set_self _ (by simpa using h0l), hisnil⟩, rfl, id, Or.inr rfl⟩
        · apply hasm
          · simp [slot_set_self, slot_set_ne, hpb, hbp, hp0, hb0, hp0', hb0', hpl, hbl, h0l, ctxPar, nil_node, hgl, hgp, hgb, hpg, hbg, hg0, hg0', Frame.id]
          · simp [slot_set_self, slot_set_ne, hpb, hbp, hp0, hb0, hp0', hb0', hpl, hbl, h0l, ctxPar, nil_node, hgl, hgp, hgb, hpg, hbg, hg0, hg0', Frame.id]
          · intro i hi hi0; simp at hi; exact absurd hi.symm hi0
          · intro f rest hfs
            simp only [List.cons.injEq] at hfs
            obtain ⟨rfl, rfl⟩ := hfs
            simp [slot_set_self, slot_set_ne, hpb, hbp, hp0, hb0, hp0', hb0', hpl, hbl, h0l, ctxPar, nil_node, hgl, hgp, hgb, hpg, hbg, hg0, hg0', Frame.id, hg]
          · intro i h1 h2 h3 h4 h5
            simp only [ctxPar, Frame.id, ne_eq, Option.some.injEq] at h5
            simp [slot_set_self, slot_set_ne, h1, h2, h3, h5]
        · exact hroot.symm.trans hroot2
      | node di cd dl dv dr =>
        obtain ⟨hdi0, hdi, -, -⟩ := hd
        simp only [ptr_node] at hb
        have hcl := slot_lt hdi
        have hdp : di ≠ p := fun e' => hpd (by simp [PTree.ids, e'])
        have hdb : di ≠ b := fun e' => hbd (by simp [PTree.ids, e'])
        have hpd' := hdp.symm
        have hbd' := hdb.symm
        have hdi0' := hdi0.symm
        have hdg : di ≠ g := fun e' => h3d di (by simp [PTree.ids]) (by simp [ctxIds, Frame.ids, Frame.id, e'])
        have hgd := hdg.symm
        simp [rotate_right, right_child, left_child, is_nil_node, parent, load_eq, hp, hb, hnil, modify_eq, set_left_child, set_parent, set_right_child, bind_ok, map_ok, is_left_child, bind, Except.bind, Except.map, pure, Except.pure, slot_set_self, slot_set_ne, nil_node, is_root, hroot, hpb, hbp, hp0, hb0, hp0', hb0', hpl, hbl, h0l, hg, hgl, hgp, hgb, hpg, hbg, hg0, hg0', hpr, hdi, hcl, hdp, hdb, hpd', hbd', hdi0, hdi0', hdg, hgd]
        refine ⟨N, ⟨?_, ?_, hnd', ?_, hisnil⟩, rfl, id, Or.inl rfl⟩
        · apply hasm
          · simp [slot_set_self, slot_set_ne, hpb, hbp, hp0, hb0, hp0', hb0', hpl, hbl, h0l, ctxPar, nil_node, hgl, hgp, hgb, hpg, hbg, hg0, hg0', Frame.id, hcl, hdp, hdb, hpd', hbd', hdi0, hdi0', hdg, hgd]
          · simp [slot_set_self, slot_set_ne, hpb, hbp, hp0, hb0, hp0', hb0', hpl, hbl, h0l, ctxPar, nil_node, hgl, hgp, hgb, hpg, hbg, hg0, hg0', Frame.id, hcl, hdp, hdb, hpd', hbd', hdi0, hdi0', hdg, hgd]
          · intro i hi hi0
            simp only [ptr_node, Option.some.injEq] at hi
            subst hi
            simp [slot_set_self, slot_set_ne, hpb, hbp, hp0, hb0, hp0', hb0', hpl, hbl, h0l, ctxPar, nil_node, hgl, hgp, hgb, hpg, hbg, hg0, hg0', Frame.id, hcl, hdp, hdb, hpd', hbd', hdi0, hdi0', hdg, hgd, hdi]
          · intro f rest hfs
            simp only [List.cons.injEq] at hfs
            obtain ⟨rfl, rfl⟩ := hfs
            simp [slot_set_self, slot_set_ne, hpb, hbp, hp0, hb0, hp0', hb0', hpl, hbl, h0l, ctxPar, nil_node, hgl, hgp, hgb, hpg, hbg, hg0, hg0', Frame.id, hcl, hdp, hdb, hpd', hbd', hdi0, hdi0', hdg, hgd, hg]
          · intro i h1 h2 h3 h4 h5
            simp only [ctxPar, Frame.id, ptr_node, ne_eq, Option.some.injEq] at h4 h5
            simp [slot_set_self, slot_set_ne, h1, h2, h3, h4, h5]
        · exact hroot.symm.trans hroot2
        · simp [slot_set_self, slot_set_ne, hpb, hbp, hp0, hb0, hp0', hb0', hpl, hbl, h0l, ctxPar, nil_node, hgl, hgp, hgb, hpg, hbg, hg0, hg0', Frame.id, hcl, hdp, hdb, hpd', hbd', hdi0, hdi0', hdg, hgd, hnil]
    | R g cg sib vg =>
      obtain ⟨hg0, hg, hsib, hrest⟩ := hctx
      simp only [ctxPar, Frame.id] at hp
      have hgl := slot_lt hg
      have hgp : g ≠ p := fun e' => h3p (by simp [ctxIds, Frame.ids, Frame.id, e'])
      have hgb : g ≠ b := fun e' => h3b (by simp [ctxIds, Frame.ids, Frame.id, e'])
      have hpg := hgp.symm
      have hbg := hgb.symm
      have hg0' := hg0.symm
      have hsp : sib.ptr ≠ some p :=
        PTree.ptr_ne_of_not_mem hp0 (fun e' => h3p (by simp [ctxIds, Frame.ids, Frame.sib, e']))
      cases d with
      | nil =>
        simp only [ptr_nil] at hb
        simp [rotate_right, right_child, left_child, is_nil_node, parent, load_eq, hp, hb, hnil, modify_eq, set_left_child, set_parent, set_right_child, bind_ok, map_ok, is_left_child, bind, Except.bind, Except.map, pure, Except.pure, slot_set_self, slot_set_ne, nil_node, is_root, hroot, hpb, hbp, hp0, hb0, hp0', hb0', hpl, hbl, h0l, hg, hgl, hgp, hgb, hpg, hbg, hg0, hg0', hpr, hsp]
        refine ⟨_, ⟨?_, ?_, hnd', slot_set_self _ (by simpa using h0l), hisnil⟩, rfl, id, Or.inr rfl⟩
        · apply hasm
          · simp [slot_set_self, slot_set_ne, hpb, hbp, hp0, hb0, hp0', hb0', hpl, hbl, h0l, ctxPar, nil_node, hgl, hgp, hgb, hpg, hbg, hg0, hg0', Frame.id]
          · simp [slot_set_self, slot_set_ne, hpb, hbp, hp0, hb0, hp0', hb0', hpl, hbl, h0l, ctxPar, nil_node, hgl, hgp, hgb, hpg, hbg, hg0, hg0', Frame.id]
          · intro i hi hi0; simp at hi; exact absurd hi.symm hi0
          · intro f rest hfs
            simp only [List.cons.injEq] at hfs
            obtain ⟨rfl, rfl⟩ := hfs
            simp [slot_set_self, slot_set_ne, hpb, hbp, hp0, hb0, hp0', hb0', hpl, hbl, h0l, ctxPar, nil_node, hgl, hgp, hgb, hpg, hbg, hg0, hg0', Frame.id, hg]
          · intro i h1 h2 h3 h4 h5
            simp only [ctxPar, Frame.id, ne_eq, Option.some.injEq] at h5
            simp [slot_set_self, slot_set_ne, h1, h2, h3, h5]
        · exact hroot.symm.trans hroot2
      | node di cd dl dv dr =>
        obtain ⟨hdi0, hdi, -, -⟩ := hd
        simp only [ptr_node] at hb
        have hcl := slot_lt hdi
        have hdp : di ≠ p := fun e' => hpd (by simp [PTree.ids, e'])
        have hdb : di ≠ b := fun e' => hbd (by simp [PTree.ids, e'])
        have hpd' := hdp.symm
        have hbd' := hdb.symm
        have hdi0' := hdi0.symm
        have hdg : di ≠ g := fun e' => h3d di (by simp [PTree.ids]) (by simp [ctxIds, Frame.ids, Frame.id, e'])
        have hgd := hdg.symm
        simp [rotate_right, right_child, left_child, is_nil_node, parent, load_eq, hp, hb, hnil, modify_eq, set_left_child, set_parent, set_right_child, bind_ok, map_ok, is_left_child, bind, Except.bind, Except.map, pure, Except.pure, slot_set_self, slot_set_ne, nil_node, is_root, hroot, hpb, hbp, hp0, hb0, hp0', hb0', hpl, hbl, h0l, hg, hgl, hgp, hgb, hpg, hbg, hg0, hg0', hpr, hdi, hcl, hdp, hdb, hpd', hbd', hdi0, hdi0', hdg, hgd, hsp]
        refine ⟨N, ⟨?_, ?_, hnd', ?_, hisnil⟩, rfl, id, Or.inl rfl⟩
        · apply hasm
          · simp [slot_set_self, slot_set_ne, hpb, hbp, hp0, hb0, hp0', hb0', hpl, hbl, h0l, ctxPar, nil_node, hgl, hgp, hgb, hpg, hbg, hg0, hg0', Frame.id, hcl, hdp, hdb, hpd', hbd', hdi0, hdi0', hdg, hgd]
          · simp [slot_set_self, slot_set_ne, hpb, hbp, hp0, hb0, hp0', hb0', hpl, hbl, h0l, ctxPar, nil_node, hgl, hgp, hgb, hpg, hbg, hg0, hg0', Frame.id, hcl, hdp, hdb, hpd', hbd', hdi0, hdi0', hdg, hgd]
          · intro i hi hi0
            simp only [ptr_node, Option.some.injEq] at hi
            subst hi
            simp [slot_set_self, slot_set_ne, hpb, hbp, hp0, hb0, hp0', hb0', hpl, hbl, h0l, ctxPar, nil_node, hgl, hgp, hgb, hpg, hbg, hg0, hg0', Frame.id, hcl, hdp, hdb, hpd', hbd', hdi0, hdi0', hdg, hgd, hdi]
          · intro f rest hfs
            simp only [List.cons.injEq] at hfs
            obtain ⟨rfl, rfl⟩ := hfs
            simp [slot_set_self, slot_set_ne, hpb, hbp, hp0, hb0, hp0', hb0', hpl, hbl, h0l, ctxPar, nil_node, hgl, hgp, hgb, hpg, hbg, hg0, hg0', Frame.id, hcl, hdp, hdb, hpd', hbd', hdi0, hdi0', hdg, hgd, hg]
          · intro i h1 h2 h3 h4 h5
            simp only [ctxPar, Frame.id, ptr_node, ne_eq, Option.some.injEq] at h4 h5
            simp [slot_set_self, slot_set_ne, h1, h2, h3, h4, h5]
        · exact hroot.symm.trans hroot2
        · simp [slot_set_self, slot_set_ne, hpb, hbp, hp0, hb0, hp0', hb0', hpl, hbl, h0l, ctxPar, nil_node, hgl, hgp, hgb, hpg, hbg, hg0, hg0', Frame.id, hcl, hdp, hdb, hpd', hbd', hdi0, hdi0', hdg, hgd, hnil]

theorem Abs.slot_focus {s : set} {N : SetNode} {fs : List Frame} {i : Nat} {c : Color}
    {l r : PTree} {v : Int} (h : Abs s (plug fs (node i c l v r)) N) :
    slot s.store i = some ⟨c, ctxPar fs, l.ptr, r.ptr, v, false⟩ :=
  (Rep_plug.1 h.rep).2.2.1

theorem Abs.focus_ne_zero {s : set} {N : SetNode} {fs : List Frame} {i : Nat} {c : Color}
    {l r : PTree} {v : Int} (h : Abs s (plug fs (node i c l v r)) N) : i ≠ 0 :=
  (Rep_plug.1 h.rep).2.1

theorem Abs.load_focus {s : set} {N : SetNode} {fs : List Frame} {i : Nat} {c : Color}
    {l r : PTree} {v : Int} (h : Abs s (plug fs (node i c l v r)) N) :
    load s (some i) = Except.ok ⟨c, ctxPar fs, l.ptr, r.ptr, v, false⟩ := by
  rw [load_eq, h.slot_focus]

theorem Abs.load_nil {s : set} {N : SetNode} {T : PTree} (h : Abs s T N) :
    load s (some 0) = Except.ok N := by
  rw [load_eq, h.nil]

/-- Reading through the pointer of any subtree: the sentinel or a real node. -/
theorem Abs.load_sub {s : set} {N : SetNode} {fs : List Frame} {t : PTree}
    (h : Abs s (plug fs t) N) :
    ∃ n, load s t.ptr = Except.ok n ∧ n.m_color = t.rootColor N.m_color ∧
      n.m_is_nil_node = t.isNil := by
  cases t with
  | nil => exact ⟨N, h.load_nil, rfl, h.isnil⟩
  | node i c l v r => exact ⟨_, h.load_focus, rfl, rfl⟩

/-- Overwrite the colour and value of the focus. -/
theorem Abs.modify_focus {s : set} {N : SetNode} {fs : List Frame} {i : Nat} {c : Color}
    {l r : PTree} {v : Int} (h : Abs s (plug fs (node i c l v r)) N) (c' : Color) (v' : Int)
    (f : SetNode → SetNode)
    (hf : f ⟨c, ctxPar fs, l.ptr, r.ptr, v, false⟩ = ⟨c', ctxPar fs, l.ptr, r.ptr, v', false⟩) :
    ∃ s', modify s (some i) f = Except.ok s' ∧ Abs s' (plug fs (node i c' l v' r)) N ∧
      s'.m_size = s.m_size ∧ s'.store.length = s.store.length ∧ s'.m_root = s.m_root ∧
      ∀ j, j ≠ i → slot s'.store j = slot s.store j := by
  have hslot := h.slot_focus
  have hi0 := h.focus_ne_zero
  obtain ⟨hrep, hroot, hnd, hnil, hisnil⟩ := h
  rw [modify_eq, hslot]
  refine ⟨_, rfl, ⟨?_, ?_, ?_, ?_, hisnil⟩, rfl, by simp, rfl, fun j hj => slot_set_ne _ hj⟩
  · rw [Rep_plug] at hrep ⊢
    rw [nodup_plug'] at hnd
    obtain ⟨hnd1, hnd2, hnd3⟩ := hnd
    simp only [PTree.ids, List.nodup_append, List.nodup_cons, List.mem_append, List.mem_cons,
      List.disjoint_cons_right, forall_eq_or_imp, or_imp, forall_and, forall_eq, not_or] at hnd1 hnd3
    obtain ⟨hctx, -, -, hl, hr⟩ := hrep
    refine ⟨RepCtx.congr_ctx (fun j hj => slot_set_ne _ ?_) hctx, hi0, ?_,
      Rep.congr (fun j hj => slot_set_ne _ ?_) hl, Rep.congr (fun j hj => slot_set_ne _ ?_) hr⟩
    · rintro rfl; exact hnd3.2.1 hj
    · simp only []; rw [slot_set_self _ (slot_lt hslot), hf]
    · rintro rfl; exact hnd1.2.2.1 hj
    · rintro rfl; exact hnd1.2.1.1 hj
  · simp only []
    rw [hroot]
    exact ptr_plug_congr fs (Or.inl rfl)
  · refine (nodup_plug_congr ?_).1 hnd
    simp only [PTree.ids]
    exact List.Perm.refl _
  · simp only []
    rw [slot_set_ne _ (Ne.symm hi0)]; exact hnil

theorem Abs.set_color_focus {s : set} {N : SetNode} {fs : List Frame} {i : Nat} {c : Color}
    {l r : PTree} {v : Int} (h : Abs s (plug fs (node i c l v r)) N) (c' : Color) :
    ∃ s', set_color s (some i) c' = Except.ok s' ∧ Abs s' (plug fs (node i c' l v r)) N ∧
      s'.m_size = s.m_size ∧ s'.store.length = s.store.length ∧ s'.m_root = s.m_root ∧
      ∀ j, j ≠ i → slot s'.store j = slot s.store j :=
  h.modify_focus c' v _ rfl

theorem Abs.set_value_focus {s : set} {N : SetNode} {fs : List Frame} {i : Nat} {c : Color}
    {l r : PTree} {v : Int} (h : Abs s (plug fs (node i c l v r)) N) (v' : Int) :
    ∃ s', set_value s (some i) v' = Except.ok s' ∧ Abs s' (plug fs (node i c l v' r)) N ∧
      s'.m_size = s.m_size ∧ s'.store.length = s.store.length ∧ s'.m_root = s.m_root ∧
      ∀ j, j ≠ i → slot s'.store j = slot s.store j :=
  h.modify_focus c v' _ rfl

/-- Recolouring the sentinel leaves the tree alone. -/
theorem Abs.set_color_nil {s : set} {N : SetNode} {T : PTree} (h : Abs s T N) (c' : Color) :
    ∃ s', set_color s (some 0) c' = Except.ok s' ∧ Abs s' T { N with m_color := c' } ∧
      s'.m_size = s.m_size ∧ s'.store.length = s.store.length ∧ s'.m_root = s.m_root ∧
      ∀ j, j ≠ 0 → slot s'.store j = slot s.store j := by
  obtain ⟨hrep, hroot, hnd, hnil, hisnil⟩ := h
  rw [set_color, modify_eq, hnil]
  refine ⟨_, rfl, ⟨?_, hroot, hnd, ?_, hisnil⟩, rfl, by simp, rfl, fun j hj => slot_set_ne _ hj⟩
  · exact Rep.congr (fun j hj => slot_set_ne _ (Rep.ids_ne_zero hrep j hj)) hrep
  · exact slot_set_self _ (slot_lt hnil)

theorem plug_flip (f : Frame) (fs : List Frame) (t : PTree) :
    plug (f :: fs) t = plug (f.flip t :: fs) f.sib := by
  cases f <;> rfl

theorem Abs.load_frame {s : set} {N : SetNode} {f : Frame} {fs : List Frame} {t : PTree}
    (h : Abs s (plug (f :: fs) t) N) :
    load s (some f.id) =
      Except.ok ⟨f.col, ctxPar fs, f.leftPtr t, f.rightPtr t, f.val, false⟩ := by
  cases f <;> exact @Abs.load_focus _ _ fs _ _ _ _ _ h

theorem Abs.set_color_frame {s : set} {N : SetNode} {f : Frame} {fs : List Frame} {t : PTree}
    (h : Abs s (plug (f :: fs) t) N) (c' : Color) :
    ∃ s', set_color s (some f.id) c' = Except.ok s' ∧ Abs s' (plug (f.setCol c' :: fs) t) N ∧
      s'.m_size = s.m_size ∧ s'.store.length = s.store.length ∧ s'.m_root = s.m_root := by
  cases f with
  | L i c v r =>
    obtain ⟨s', h1, h2, h3, h4, h5, -⟩ := @Abs.set_color_focus _ _ fs _ _ _ _ _ h c'
    exact ⟨s', h1, h2, h3, h4, h5⟩
  | R i c l v =>
    obtain ⟨s', h1, h2, h3, h4, h5, -⟩ := @Abs.set_color_focus _ _ fs _ _ _ _ _ h c'
    exact ⟨s', h1, h2, h3, h4, h5⟩

/-- Recolour whatever a subtree pointer points at: a real root or the sentinel. -/
theorem Abs.set_color_sub {s : set} {N : SetNode} {fs : List Frame} {t : PTree}
    (h : Abs s (plug fs t) N) (c' : Color) :
    ∃ s' N', set_color s t.ptr c' = Except.ok s' ∧ Abs s' (plug fs (t.setRootCol c')) N' ∧
      N' = (if t.isNil then { N with m_color := c' } else N) ∧
      s'.m_size = s.m_size ∧ s'.store.length = s.store.length ∧ s'.m_root = s.m_root := by
  cases t with
  | nil =>
    obtain ⟨s', h1, h2, h3, h4, h5, -⟩ := h.set_color_nil c'
    exact ⟨s', _, h1, h2, rfl, h3, h4, h5⟩
  | node i c l v r =>
    obtain ⟨s', h1, h2, h3, h4, h5, -⟩ := h.set_color_focus c'
    exact ⟨s', _, h1, h2, rfl, h3, h4, h5⟩

theorem Abs.set_color_sib {s : set} {N : SetNode} {f : Frame} {fs : List Frame} {t : PTree}
    (h : Abs s (plug (f :: fs) t) N) (c' : Color) :
    ∃ s' N', set_color s f.sib.ptr c' = Except.ok s' ∧
      Abs s' (plug (f.setSib (f.sib.setRootCol c') :: fs) t) N' ∧
      N' = (if f.sib.isNil then { N with m_color := c' } else N) ∧
      s'.m_size = s.m_size ∧ s'.store.length = s.store.length ∧ s'.m_root = s.m_root := by
  rw [plug_flip] at h
  obtain ⟨s', N', h1, h2, h3⟩ := h.set_color_sub c'
  refine ⟨s', N', h1, ?_, h3⟩
  cases f <;> exact h2

/-- The hole of a frame is never linked like its sibling. -/
theorem Abs.sib_ptr_ne {s : set} {N : SetNode} {f : Frame} {fs : List Frame} {x : Nat}
    {c : Color} {l r : PTree} {v : Int} (h : Abs s (plug (f :: fs) (node x c l v r)) N) :
    f.sib.ptr ≠ some x := by
  have hx0 := h.focus_ne_zero
  have hnd := h.nodup
  rw [nodup_plug'] at hnd
  refine PTree.ptr_ne_of_not_mem hx0 (fun hm => ?_)
  exact hnd.2.2 x (by simp [PTree.ids]) (by simp [ctxIds, Frame.ids, hm])

theorem Abs.is_left_child_hole {s : set} {N : SetNode} {f : Frame} {fs : List Frame} {x : Nat}
    {c : Color} {l r : PTree} {v : Int} (h : Abs s (plug (f :: fs) (node x c l v r)) N) :
    is_left_child s (some x) = Except.ok f.isL := by
  have hne := h.sib_ptr_ne
  have h1 := Abs.load_focus h
  cases f with
  | L i ci vi ri =>
    have h2 := @Abs.load_focus _ _ fs _ _ _ _ _ h
    simp [is_left_child, parent, left_child, h1, h2, map_ok, bind_ok, ctxPar, Frame.id,
      Frame.isL, bind, Except.bind, pure, Except.pure]
  | R i ci li vi =>
    have h2 := @Abs.load_focus _ _ fs _ _ _ _ _ h
    simp only [Frame.sib] at hne
    simp [is_left_child, parent, left_child, h1, h2, map_ok, bind_ok, ctxPar, Frame.id,
      Frame.isL, bind, Except.bind, pure, Except.pure, hne]

theorem Abs.is_right_child_hole {s : set} {N : SetNode} {f : Frame} {fs : List Frame} {x : Nat}
    {c : Color} {l r : PTree} {v : Int} (h : Abs s (plug (f :: fs) (node x c l v r)) N) :
    is_right_child s (some x) = Except.ok (!f.isL) := by
  have hne := h.sib_ptr_ne
  have h1 := Abs.load_focus h
  cases f with
  | L i ci vi ri =>
    have h2 := @Abs.load_focus _ _ fs _ _ _ _ _ h
    simp only [Frame.sib] at hne
    simp [is_right_child, parent, right_child, h1, h2, map_ok, bind_ok, ctxPar, Frame.id,
      Frame.isL, bind, Except.bind, pure, Except.pure, hne]
  | R i ci li vi =>
    have h2 := @Abs.load_focus _ _ fs _ _ _ _ _ h
    simp [is_right_child, parent, right_child, h1, h2, map_ok, bind_ok, ctxPar, Frame.id,
      Frame.isL, bind, Except.bind, pure, Except.pure]

theorem Abs.parent_hole {s : set} {N : SetNode} {fs : List Frame} {x : Nat}
    {c : Color} {l r : PTree} {v : Int} (h : Abs s (plug fs (node x c l v r)) N) :
    parent s (some x) = Except.ok (ctxPar fs) := by
  simp [parent, Abs.load_focus h, map_ok]

theorem Abs.uncle_hole {s : set} {N : SetNode} {fP fG : Frame} {fs : List Frame} {x : Nat}
    {c : Color} {l r : PTree} {v : Int}
    (h : Abs s (plug (fP :: fG :: fs) (node x c l v r)) N) :
    uncle s (some x) = Except.ok fG.sib.ptr := by
  have h1 := Abs.parent_hole h
  have h2 : Abs s (plug (fG :: fs) (fP.fill (node x c l v r))) N := h
  obtain ⟨p, cp, pl, pv, pr, hfill, hid⟩ :
      ∃ p cp pl pv pr, fP.fill (node x c l v r) = node p cp pl pv pr ∧ fP.id = p := by
    cases fP <;> exact ⟨_, _, _, _, _, rfl, rfl⟩
  rw [hfill] at h2
  have hne := h2.sib_ptr_ne
  have hp := Abs.parent_hole h2
  simp only [ctxPar, hid] at h1
  cases fG with
  | L g cg vg U =>
    have h3 := @Abs.load_focus _ _ fs _ _ _ _ _ h2
    simp [uncle, h1, hp, left_child, right_child, h3, map_ok, bind_ok, ctxPar, Frame.id,
      bind, Except.bind, pure, Except.pure, Frame.sib]
  | R g cg U vg =>
    have h3 := @Abs.load_focus _ _ fs _ _ _ _ _ h2
    simp only [Frame.sib] at hne
    simp [uncle, h1, hp, left_child, right_child, h3, map_ok, bind_ok, ctxPar, Frame.id,
      bind, Except.bind, pure, Except.pure, Frame.sib, hne]

end custom

namespace custom

open PTree

namespace Frame

theorem fill_eq (f : Frame) (t : PTree) :
    f.fill t = node f.id f.col (f.leftT t) f.val (f.rightT t) := by
  cases f <;> rfl

@[simp] theorem id_setCol (f : Frame) (c : Color) : (f.setCol c).id = f.id := by cases f <;> rfl

@[simp] theorem id_setSib (f : Frame) (u : PTree) : (f.setSib u).id = f.id := by cases f <;> rfl

@[simp] theorem sib_setCol (f : Frame) (c : Color) : (f.setCol c).sib = f.sib := by cases f <;> rfl

@[simp] theorem col_setCol (f : Frame) (c : Color) : (f.setCol c).col = c := by cases f <;> rfl

@[simp] theorem id_recolor (f : Frame) : f.recolor.id = f.id := by cases f <;> rfl

@[simp] theorem col_recolor (f : Frame) : f.recolor.col = Color.Red := by cases f <;> rfl

end Frame

end custom

namespace custom

open PTree

/-- A node with a parent is not the root. -/
theorem Abs.root_ne_hole {s : set} {N : SetNode} {f : Frame} {fs : List Frame} {x : Nat}
    {c : Color} {l r : PTree} {v : Int} (h : Abs s (plug (f :: fs) (node x c l v r)) N) :
    is_root s (some x) = false := by
  obtain ⟨i, hi, hp⟩ := ptr_plug_mem (f :: fs) (node x c l v r) (by simp)
  have hnd := h.nodup
  rw [nodup_plug'] at hnd
  have : i ≠ x := fun e => hnd.2.2 x (by simp [PTree.ids]) (e ▸ hi)
  simp [is_root, h.root, hp, Ne.symm this]

theorem Abs.root_hole {s : set} {N : SetNode} {x : Nat}
    {c : Color} {l r : PTree} {v : Int} (h : Abs s (plug [] (node x c l v r)) N) :
    is_root s (some x) = true := by
  simp [is_root, h.root, plug]

theorem Abs.is_red_focus {s : set} {N : SetNode} {fs : List Frame} {i : Nat} {c : Color}
    {l r : PTree} {v : Int} (h : Abs s (plug fs (node i c l v r)) N) :
    is_red s (some i) = Except.ok (decide (c = Color.Red)) := by
  simp [is_red, h.load_focus, map_ok]

theorem Abs.is_red_sub {s : set} {N : SetNode} {fs : List Frame} {t : PTree}
    (h : Abs s (plug fs t) N) :
    is_red s t.ptr = Except.ok (decide (t.rootColor N.m_color = Color.Red)) := by
  obtain ⟨n, h1, h2, -⟩ := h.load_sub
  simp [is_red, h1, map_ok, h2]

theorem Abs.is_red_sib {s : set} {N : SetNode} {f : Frame} {fs : List Frame} {t : PTree}
    (h : Abs s (plug (f :: fs) t) N) :
    is_red s f.sib.ptr = Except.ok (decide (f.sib.rootColor N.m_color = Color.Red)) := by
  rw [plug_flip] at h
  exact h.is_red_sub

theorem PTree.ptr_ne_none (t : PTree) : t.ptr ≠ none := by cases t <;> simp [PTree.ptr, nil_node]

theorem body_recolor {s : set} {N : SetNode} {fP fG : Frame} {rest : List Frame} {x : Nat}
    {cx : Color} {xl xr : PTree} {xv : Int}
    (h : Abs s (plug (fP :: fG :: rest) (node x cx xl xv xr)) N)
    (hU : fG.sib.rootColor N.m_color = Color.Red) :
    ∃ s' N', balance_after_insert_body s (some x) = Except.ok (s', some fG.id) ∧
      Abs s' (plug rest (fG.recolor.fill ((fP.setCol Color.Black).fill (node x cx xl xv xr)))) N' ∧
      N' = (if fG.sib.isNil then { N with m_color := Color.Black } else N) ∧
      s'.m_size = s.m_size ∧ s'.store.length = s.store.length := by
  have e1 := h.uncle_hole
  have h' : Abs s (plug (fG :: rest) (fP.fill (node x cx xl xv xr))) N := h
  have e2 := h'.is_red_sib
  have e3 := h.parent_hole
  obtain ⟨s1, w1, h1, z1, l1, -⟩ := h.set_color_frame Color.Black
  have e4 := h1.parent_hole
  have h1' : Abs s1 (plug (fG :: rest) ((fP.setCol Color.Black).fill (node x cx xl xv xr))) N := h1
  have e5 : parent s1 (some fP.id) = Except.ok (some fG.id) := by
    have := h1'
    rw [Frame.fill_eq] at this
    simpa [ctxPar] using this.parent_hole
  obtain ⟨s2, w2, h2, z2, l2, -⟩ := h1'.set_color_frame Color.Red
  have h2' : Abs s2 (plug ((fP.setCol Color.Black) :: (fG.setCol Color.Red) :: rest)
      (node x cx xl xv xr)) N := h2
  have e6 := h2'.uncle_hole
  have e7 := h2'.parent_hole
  have e8 : parent s2 (some fP.id) = Except.ok (some fG.id) := by
    have := h2
    rw [Frame.fill_eq] at this
    simpa [ctxPar] using this.parent_hole
  obtain ⟨s3, N3, w3, h3, hN3, z3, l3, -⟩ := h2.set_color_sib Color.Black
  rw [Frame.sib_setCol] at h3
  change Abs s3 (plug (fG.recolor :: rest) _) N3 at h3
  have h3' : Abs s3 (plug ((fP.setCol Color.Black) :: fG.recolor :: rest)
      (node x cx xl xv xr)) N3 := h3
  have e9 := h3'.parent_hole
  have e10 : parent s3 (some fP.id) = Except.ok (some fG.id) := by
    have := h3
    rw [Frame.fill_eq] at this
    simpa [ctxPar] using this.parent_hole
  simp only [ctxPar, Frame.id_setCol, Frame.sib_setCol] at e3 e4 e6 e7 e9 w3 hN3
  refine ⟨s3, N3, ?_, h3, hN3, by rw [z3, z2, z1], by rw [l3, l2, l1]⟩
  simp [balance_after_insert_body, has_uncle, e1, e2, e3, e4, e5, e6, e7, e8, e9, e10, w1, w2, w3,
    hU, bind_ok, PTree.ptr_ne_none, bind, Except.bind, pure, Except.pure]

theorem body_rotate_LL {s : set} {N : SetNode} {rest : List Frame} {x g p : Nat}
    {cx cg cp : Color} {xl xr u b : PTree} {xv vg vp : Int}
    (h : Abs s (plug (Frame.L p cp vp b :: Frame.L g cg vg u :: rest) (node x cx xl xv xr)) N)
    (hU : u.rootColor N.m_color ≠ Color.Red) :
    ∃ s' y, balance_after_insert_body s (some x) = Except.ok (s', some y) ∧
      RotPost s N rest (insRot (Frame.L g cg vg u) (Frame.L p cp vp b) (node x cx xl xv xr)) s' y := by
  have e1 := h.uncle_hole
  have hp : Abs s (plug (Frame.L g cg vg u :: rest) (node p cp (node x cx xl xv xr) vp b)) N := h
  have e2 := hp.is_red_sib
  have e3 := h.parent_hole
  have e4 := hp.is_left_child_hole
  have e5 := h.is_right_child_hole
  obtain ⟨s1, w1, h1, z1, l1, -⟩ := hp.set_color_focus Color.Black
  have h1x : Abs s1 (plug (Frame.L p Color.Black vp b :: Frame.L g cg vg u :: rest)
      (node x cx xl xv xr)) N := h1
  have e6 := h1x.parent_hole
  have e7 := h1.parent_hole
  have h1g : Abs s1 (plug rest (node g cg (node p Color.Black (node x cx xl xv xr) vp b) vg u)) N := h1
  obtain ⟨s2, w2, h2, z2, l2, -⟩ := h1g.set_color_focus Color.Red
  have h2x : Abs s2 (plug (Frame.L p Color.Black vp b :: Frame.L g Color.Red vg u :: rest)
      (node x cx xl xv xr)) N := h2
  have h2p : Abs s2 (plug (Frame.L g Color.Red vg u :: rest)
      (node p Color.Black (node x cx xl xv xr) vp b)) N := h2
  have e8 := h2x.parent_hole
  have e9 := h2p.parent_hole
  obtain ⟨s3, N3, w3, h3, c3, n3, -, z3, l3⟩ := rotate_right_focus h2
  have h3x : Abs s3 (plug (Frame.L p Color.Black vp (node g Color.Red b vg u) :: rest)
      (node x cx xl xv xr)) N3 := h3
  refine ⟨s3, x, ?_, N3, h3, c3, n3, by rw [z3, z2, z1], by rw [l3, l2, l1], h3x.root_ne_hole,
    p, h3x.parent_hole, by simpa using h3.is_red_focus⟩
  simp only [ctxPar, Frame.id, Frame.sib, Frame.isL] at e1 e2 e3 e4 e5 e6 e7 e8 e9
  simp [balance_after_insert_body, has_uncle, e1, e2, e3, e4, e5, e6, e7, e8, e9, w1, w2, w3,
    hU, bind_ok, PTree.ptr_ne_none, bind, Except.bind, pure, Except.pure]

theorem body_rotate_LR {s : set} {N : SetNode} {rest : List Frame} {x g p : Nat}
    {cx cg cp : Color} {xl xr u a : PTree} {xv vg vp : Int}
    (h : Abs s (plug (Frame.R p cp a vp :: Frame.L g cg vg u :: rest) (node x cx xl xv xr)) N)
    (hU : u.rootColor N.m_color ≠ Color.Red) :
    ∃ s' y, balance_after_insert_body s (some x) = Except.ok (s', some y) ∧
      RotPost s N rest (insRot (Frame.L g cg vg u) (Frame.R p cp a vp) (node x cx xl xv xr)) s' y := by
  have e1 := h.uncle_hole
  have hp : Abs s (plug (Frame.L g cg vg u :: rest) (node p cp a vp (node x cx xl xv xr))) N := h
  have e2 := hp.is_red_sib
  have e3 := h.parent_hole
  have e4 := hp.is_left_child_hole
  have e5 := h.is_right_child_hole
  obtain ⟨s1, N1, w1, h1, c1, n1, -, z1, l1⟩ := rotate_left_focus hp
  have h1p : Abs s1 (plug (Frame.L x cx xv xr :: Frame.L g cg vg u :: rest)
      (node p cp a vp xl)) N1 := h1
  have e6 := h1p.parent_hole
  obtain ⟨s2, w2, h2, z2, l2, -⟩ := h1.set_color_focus Color.Black
  have h2p : Abs s2 (plug (Frame.L x Color.Black xv xr :: Frame.L g cg vg u :: rest)
      (node p cp a vp xl)) N1 := h2
  have e7 := h2p.parent_hole
  have e8 := h2.parent_hole
  have h2g : Abs s2 (plug rest (node g cg (node x Color.Black (node p cp a vp xl) xv xr) vg u)) N1 := h2
  obtain ⟨s3, w3, h3, z3, l3, -⟩ := h2g.set_color_focus Color.Red
  have h3p : Abs s3 (plug (Frame.L x Color.Black xv xr :: Frame.L g Color.Red vg u :: rest)
      (node p cp a vp xl)) N1 := h3
  have h3x : Abs s3 (plug (Frame.L g Color.Red vg u :: rest)
      (node x Color.Black (node p cp a vp xl) xv xr)) N1 := h3
  have e9 := h3p.parent_hole
  have e10 := h3x.parent_hole
  obtain ⟨s4, N4, w4, h4, c4, n4, -, z4, l4⟩ := rotate_right_focus h3
  have h4p : Abs s4 (plug (Frame.L x Color.Black xv (node g Color.Red xr vg u) :: rest)
      (node p cp a vp xl)) N4 := h4
  refine ⟨s4, p, ?_, N4, h4, by rw [c4, c1], fun hn => n4 (n1 hn), by rw [z4, z3, z2, z1],
    by rw [l4, l3, l2, l1], h4p.root_ne_hole, x, h4p.parent_hole, by simpa using h4.is_red_focus⟩
  simp only [ctxPar, Frame.id, Frame.sib, Frame.isL] at e1 e2 e3 e4 e5 e6 e7 e8 e9 e10
  simp [balance_after_insert_body, has_uncle, e1, e2, e3, e4, e5, e6, e7, e8, e9, e10, w1, w2, w3, w4,
    hU, bind_ok, PTree.ptr_ne_none, bind, Except.bind, pure, Except.pure]

theorem body_rotate_RR {s : set} {N : SetNode} {rest : List Frame} {x g p : Nat}
    {cx cg cp : Color} {xl xr u a : PTree} {xv vg vp : Int}
    (h : Abs s (plug (Frame.R p cp a vp :: Frame.R g cg u vg :: rest) (node x cx xl xv xr)) N)
    (hU : u.rootColor N.m_color ≠ Color.Red) :
    ∃ s' y, balance_after_insert_body s (some x) = Except.ok (s', some y) ∧
      RotPost s N rest (insRot (Frame.R g cg u vg) (Frame.R p cp a vp) (node x cx xl xv xr)) s' y := by
  have e1 := h.uncle_hole
  have hp : Abs s (plug (Frame.R g cg u vg :: rest) (node p cp a vp (node x cx xl xv xr))) N := h
  have e2 := hp.is_red_sib
  have e3 := h.parent_hole
  have e4 := hp.is_left_child_hole
  have e5 := h.is_left_child_hole
  obtain ⟨s1, w1, h1, z1, l1, -⟩ := hp.set_color_focus Color.Black
  have h1x : Abs s1 (plug (Frame.R p Color.Black a vp :: Frame.R g cg u vg :: rest)
      (node x cx xl xv xr)) N := h1
  have e6 := h1x.parent_hole
  have e7 := h1.parent_hole
  have h1g : Abs s1 (plug rest (node g cg u vg (node p Color.Black a vp (node x cx xl xv xr)))) N := h1
  obtain ⟨s2, w2, h2, z2, l2, -⟩ := h1g.set_color_focus Color.Red
  have h2x : Abs s2 (plug (Frame.R p Color.Black a vp :: Frame.R g Color.Red u vg :: rest)
      (node x cx xl xv xr)) N := h2
  have h2p : Abs s2 (plug (Frame.R g Color.Red u vg :: rest)
      (node p Color.Black a vp (node x cx xl xv xr))) N := h2
  have e8 := h2x.parent_hole
  have e9 := h2p.parent_hole
  obtain ⟨s3, N3, w3, h3, c3, n3, -, z3, l3⟩ := rotate_left_focus h2
  have h3x : Abs s3 (plug (Frame.R p Color.Black (node g Color.Red u vg a) vp :: rest)
      (node x cx xl xv xr)) N3 := h3
  refine ⟨s3, x, ?_, N3, h3, c3, n3, by rw [z3, z2, z1], by rw [l3, l2, l1], h3x.root_ne_hole,
    p, h3x.parent_hole, by simpa using h3.is_red_focus⟩
  simp only [ctxPar, Frame.id, Frame.sib, Frame.isL] at e1 e2 e3 e4 e5 e6 e7 e8 e9
  simp [balance_after_insert_body, has_uncle, e1, e2, e3, e4, e5, e6, e7, e8, e9, w1, w2, w3,
    hU, bind_ok, PTree.ptr_ne_none, bind, Except.bind, pure, Except.pure]

theorem body_rotate_RL {s : set} {N : SetNode} {rest : List Frame} {x g p : Nat}
    {cx cg cp : Color} {xl xr u b : PTree} {xv vg vp : Int}
    (h : Abs s (plug (Frame.L p cp vp b :: Frame.R g cg u vg :: rest) (node x cx xl xv xr)) N)
    (hU : u.rootColor N.m_color ≠ Color.Red) :
    ∃ s' y, balance_after_insert_body s (some x) = Except.ok (s', some y) ∧
      RotPost s N rest (insRot (Frame.R g cg u vg) (Frame.L p cp vp b) (node x cx xl xv xr)) s' y := by
  have e1 := h.uncle_hole
  have hp : Abs s (plug (Frame.R g cg u vg :: rest) (node p cp (node x cx xl xv xr) vp b)) N := h
  have e2 := hp.is_red_sib
  have e3 := h.parent_hole
  have e4 := hp.is_left_child_hole
  have e5 := h.is_left_child_hole
  obtain ⟨s1, N1, w1, h1, c1, n1, -, z1, l1⟩ := rotate_right_focus hp
  have h1p : Abs s1 (plug (Frame.R x cx xl xv :: Frame.R g cg u vg :: rest)
      (node p cp xr vp b)) N1 := h1
  have e6 := h1p.parent_hole
  obtain ⟨s2, w2, h2, z2, l2, -⟩ := h1.set_color_focus Color.Black
  have h2p : Abs s2 (plug (Frame.R x Color.Black xl xv :: Frame.R g cg u vg :: rest)
      (node p cp xr vp b)) N1 := h2
  have e7 := h2p.parent_hole
  have e8 := h2.parent_hole
  have h2g : Abs s2 (plug rest (node g cg u vg (node x Color.Black xl xv (node p cp xr vp b)))) N1 := h2
  obtain ⟨s3, w3, h3, z3, l3, -⟩ := h2g.set_color_focus Color.Red
  have h3p : Abs s3 (plug (Frame.R x Color.Black xl xv :: Frame.R g Color.Red u vg :: rest)
      (node p cp xr vp b)) N1 := h3
  have h3x : Abs s3 (plug (Frame.R g Color.Red u vg :: rest)
      (node x Color.Black xl xv (node p cp xr vp b))) N1 := h3
  have e9 := h3p.parent_hole
  have e10 := h3x.parent_hole
  obtain ⟨s4, N4, w4, h4, c4, n4, -, z4, l4⟩ := rotate_left_focus h3
  have h4p : Abs s4 (plug (Frame.R x Color.Black (node g Color.Red u vg xl) xv :: rest)
      (node p cp xr vp b)) N4 := h4
  refine ⟨s4, p, ?_, N4, h4, by rw [c4, c1], fun hn => n4 (n1 hn), by rw [z4, z3, z2, z1],
    by rw [l4, l3, l2, l1], h4p.root_ne_hole, x, h4p.parent_hole, by simpa using h4.is_red_focus⟩
  simp only [ctxPar, Frame.id, Frame.sib, Frame.isL] at e1 e2 e3 e4 e5 e6 e7 e8 e9 e10
  simp [balance_after_insert_body, has_uncle, e1, e2, e3, e4, e5, e6, e7, e8, e9, e10, w1, w2, w3, w4,
    hU, bind_ok, PTree.ptr_ne_none, bind, Except.bind, pure, Except.pure]

theorem body_rotate {s : set} {N : SetNode} {fP fG : Frame} {rest : List Frame} {x : Nat}
    {cx : Color} {xl xr : PTree} {xv : Int}
    (h : Abs s (plug (fP :: fG :: rest) (node x cx xl xv xr)) N)
    (hU : fG.sib.rootColor N.m_color ≠ Color.Red) :
    ∃ s' y, balance_after_insert_body s (some x) = Except.ok (s', some y) ∧
      RotPost s N rest (insRot fG fP (node x cx xl xv xr)) s' y := by
  cases fG <;> cases fP
  · exact body_rotate_LL h hU
  · exact body_rotate_LR h hU
  · exact body_rotate_RL h hU
  · exact body_rotate_RR h hU

theorem rootFrameBlack_tail2 {f g : Frame} {fs : List Frame}
    (h : rootFrameBlack (f :: g :: fs)) : rootFrameBlack fs := by
  cases fs with
  | nil => trivial
  | cons a as => exact h

theorem Abs.is_red_frame {s : set} {N : SetNode} {f : Frame} {fs : List Frame} {t : PTree}
    (h : Abs s (plug (f :: fs) t) N) :
    is_red s (some f.id) = Except.ok (decide (f.col = Color.Red)) := by
  simp [is_red, h.load_frame, map_ok]

theorem insert_loop_spec : ∀ (fuel : Nat) (fs : List Frame) (x : Nat) (cx : Color)
    (xl : PTree) (xv : Int) (xr : PTree) (s : set) (N : SetNode),
    Abs s (plug fs (node x cx xl xv xr)) N → fs.length < fuel → rootFrameBlack fs →
    ∃ s' N', balance_after_insert_loop fuel s (some x) = Except.ok s' ∧
      Abs s' (insFix N.m_color fs (node x cx xl xv xr)).1 N' ∧
      N'.m_color = (insFix N.m_color fs (node x cx xl xv xr)).2 ∧
      (N.m_left_child = none → N'.m_left_child = none) ∧
      s'.m_size = s.m_size ∧ s'.store.length = s.store.length := by
  intro fuel
  induction fuel with
  | zero => intro fs x cx xl xv xr s N _ hlt; exact absurd hlt (Nat.not_lt_zero _)
  | succ fuel ih =>
    intro fs x cx xl xv xr s N h hlt hrb
    match fs, h, hlt, hrb with
    | [], h, _, _ =>
      refine ⟨s, N, ?_, h, rfl, id, rfl, rfl⟩
      simp [balance_after_insert_loop, h.root_hole, pure, Except.pure]
    | [f], h, _, hrb =>
      refine ⟨s, N, ?_, h, rfl, id, rfl, rfl⟩
      have e1 := h.root_ne_hole
      have e2 := h.parent_hole
      have e3 := h.is_red_frame
      simp only [rootFrameBlack] at hrb
      simp only [ctxPar] at e2
      simp [balance_after_insert_loop, e1, e2, e3, hrb, bind_ok, bind, Except.bind, pure, Except.pure]
    | fP :: fG :: rest, h, hlt, hrb =>
      have e1 := h.root_ne_hole
      have e2 := h.parent_hole
      have e3 := h.is_red_frame
      simp only [ctxPar] at e2
      by_cases hP : fP.col = Color.Red
      · by_cases hU : fG.sib.rootColor N.m_color = Color.Red
        · obtain ⟨s1, N1, w1, h1, hN1, z1, l1⟩ := body_recolor h hU
          rw [Frame.fill_eq] at h1
          have hlt' : rest.length < fuel := by simp at hlt; omega
          obtain ⟨s2, N2, w2, h2, c2, n2, z2, l2⟩ :=
            ih rest _ _ _ _ _ s1 N1 h1 hlt' (rootFrameBlack_tail2 hrb)
          have hc1 : N1.m_color = if fG.sib.isNil then Color.Black else N.m_color := by
            rw [hN1]; split <;> rfl
          refine ⟨s2, N2, ?_, ?_, ?_, ?_, by rw [z2, z1], by rw [l2, l1]⟩
          · simp only [Frame.id_recolor] at w2
            simp [balance_after_insert_loop, e1, e2, e3, hP, w1, w2, bind_ok, bind, Except.bind,
              pure, Except.pure]
          · simp only [insFix, hP, hU, if_true]
            rw [Frame.fill_eq, ← hc1]; exact h2
          · simp only [insFix, hP, hU, if_true]
            rw [Frame.fill_eq, ← hc1]; exact c2
          · intro hn; apply n2; rw [hN1]; split <;> exact hn
        · obtain ⟨s1, y, w1, N1, h1, c1, n1, z1, l1, r1, z, p1, q1⟩ := body_rotate h hU
          refine ⟨s1, N1, ?_, ?_, ?_, n1, z1, l1⟩
          · have hf : ∃ k, fuel = k + 1 := ⟨fuel - 1, by simp at hlt; omega⟩
            obtain ⟨k, rfl⟩ := hf
            simp [balance_after_insert_loop, e1, e2, e3, hP, w1, r1, p1, q1, bind_ok, bind,
              Except.bind, pure, Except.pure]
          · simp only [insFix, hP, hU, if_true, if_false]; exact h1
          · simp only [insFix, hP, hU, if_true, if_false]; exact c1
      · refine ⟨s, N, ?_, ?_, ?_, id, rfl, rfl⟩
        · simp [balance_after_insert_loop, e1, e2, e3, hP, bind_ok, bind, Except.bind, pure,
            Except.pure]
        · simp only [insFix, hP, if_false]; exact h
        · simp only [insFix, hP, if_false]

theorem insFix_isNil : ∀ (n : Nat) (nc : Color) (fs : List Frame) (t : PTree), fs.length < n →
    t.isNil = false → (insFix nc fs t).1.isNil = false := by
  intro n
  induction n with
  | zero => intro nc fs t h; exact absurd h (Nat.not_lt_zero _)
  | succ n ih =>
    intro nc fs t hlt ht
    have hplug : ∀ (gs : List Frame) (u : PTree), u.isNil = false → (plug gs u).isNil = false := by
      intro gs
      induction gs with
      | nil => intro u hu; exact hu
      | cons g gs ihg => intro u _; exact ihg _ (by cases g <;> rfl)
    match fs, hlt with
    | [], _ => exact ht
    | [f], _ => exact hplug _ _ ht
    | fP :: fG :: rest, hlt =>
      simp only [insFix]
      split
      · split
        · refine ih _ rest _ (by simp at hlt; omega) ?_
          rw [Frame.fill_eq]; rfl
        · refine hplug _ _ ?_
          cases fG <;> cases fP <;> cases t <;> rfl
      · exact hplug _ _ ht

theorem balance_after_insert_spec {fuel : Nat} {fs : List Frame} {x : Nat} {cx : Color}
    {xl xr : PTree} {xv : Int} {s : set} {N : SetNode}
    (h : Abs s (plug fs (node x cx xl xv xr)) N) (hlt : fs.length < fuel)
    (hrb : rootFrameBlack fs) :
    ∃ s' N', balance_after_insert fuel s (some x) = Except.ok s' ∧
      Abs s' ((insFix N.m_color fs (node x cx xl xv xr)).1.setRootCol Color.Black) N' ∧
      N'.m_color = (insFix N.m_color fs (node x cx xl xv xr)).2 ∧
      (N.m_left_child = none → N'.m_left_child = none) ∧
      s'.m_size = s.m_size ∧ s'.store.length = s.store.length := by
  obtain ⟨s1, N1, w1, h1, c1, n1, z1, l1⟩ := insert_loop_spec fuel fs x cx xl xv xr s N h hlt hrb
  have hnn := insFix_isNil _ N.m_color fs (node x cx xl xv xr) (Nat.lt_succ_self _) rfl
  have h1' : Abs s1 (plug [] (insFix N.m_color fs (node x cx xl xv xr)).1) N1 := h1
  obtain ⟨s2, N2, w2, h2, hN2, z2, l2, -⟩ := h1'.set_color_sub Color.Black
  rw [hnn] at hN2
  simp only [Bool.false_eq_true, if_false] at hN2
  subst hN2
  rw [← h1.root] at w2
  refine ⟨s2, N2, ?_, h2, c1, n1, by rw [z2, z1], by rw [l2, l1]⟩
  simp [balance_after_insert, w1, w2, bind_ok, bind, Except.bind]

theorem plug_insPath (v : Int) : ∀ (t : PTree) (acc : List Frame),
    plug (insPath v t acc) nil = plug acc t
  | nil, acc => rfl
  | node i c l cv r, acc => by
    simp only [insPath]
    split
    · rw [plug_insPath v l]; rfl
    · rw [plug_insPath v r]; rfl

theorem length_insPath (v : Int) : ∀ (t : PTree) (acc : List Frame),
    (insPath v t acc).length ≤ t.height + acc.length
  | nil, acc => by simp [insPath, PTree.height]
  | node i c l cv r, acc => by
    simp only [insPath, PTree.height]
    split
    · have := length_insPath v l (Frame.L i c cv r :: acc)
      simp only [List.length_cons] at this
      omega
    · have := length_insPath v r (Frame.R i c l cv :: acc)
      simp only [List.length_cons] at this
      omega

/-- Hang the fresh node `n` into a sentinel link on the left. -/
theorem attach_left {s : set} {N : SetNode} {fs : List Frame} {i n : Nat} {c : Color}
    {r : PTree} {cv v : Int} (h : Abs s (plug fs (node i c nil cv r)) N)
    (hn : slot s.store n = some (new_SetNode v)) (hn0 : n ≠ 0)
    (hfresh : n ∉ (plug fs (node i c nil cv r)).ids) :
    ∃ s1 s2, set_parent s (some n) (some i) = Except.ok s1 ∧
      set_left_child s1 (some i) (some n) = Except.ok s2 ∧
      Abs s2 (plug fs (node i c (node n Color.Red nil v nil) cv r)) N ∧
      s2.m_size = s.m_size ∧ s2.store.length = s.store.length := by
  have hslot := h.slot_focus
  have hi0 := h.focus_ne_zero
  obtain ⟨hrep, hroot, hnd, hnil, hisnil⟩ := h
  have hni : n ≠ i := by
    rintro rfl
    exact hfresh ((ids_plug fs _).mem_iff.2 (by simp [PTree.ids]))
  have hfr : ∀ j, j ≠ n → j ≠ i → slot ((s.store.set n (some
      { new_SetNode v with m_parent := some i })).set i (some
      ⟨c, ctxPar fs, some n, r.ptr, cv, false⟩)) j = slot s.store j := by
    intro j h1 h2
    rw [slot_set_ne _ h2, slot_set_ne _ h1]
  refine ⟨⟨s.store.set n (some { new_SetNode v with m_parent := some i }), s.m_root, s.m_size⟩,
    ⟨(s.store.set n (some { new_SetNode v with m_parent := some i })).set i
        (some ⟨c, ctxPar fs, some n, r.ptr, cv, false⟩), s.m_root, s.m_size⟩,
    by rw [set_parent, modify_eq, hn], ?_, ⟨?_, ?_, ?_, ?_, hisnil⟩, rfl, by simp⟩
  · rw [set_left_child, modify_eq]
    simp only []
    rw [slot_set_ne _ (Ne.symm hni), hslot]
  · simp only []
    rw [Rep_plug] at hrep ⊢
    have hfm : ∀ j ∈ (plug fs (node i c nil cv r)).ids, j ≠ n := by
      rintro j hj rfl; exact hfresh hj
    rw [nodup_plug'] at hnd
    obtain ⟨hnd1, hnd2, hnd3⟩ := hnd
    simp only [PTree.ids, List.nodup_append, List.nodup_cons, List.mem_append, List.mem_cons,
      List.disjoint_cons_right, forall_eq_or_imp, or_imp, forall_and, forall_eq, not_or,
      List.nil_append, List.not_mem_nil, not_false_eq_true, true_and] at hnd1 hnd3
    obtain ⟨hctx, -, -, -, hr⟩ := hrep
    refine ⟨RepCtx.congr_ctx (fun j hj => hfr j ?_ ?_) hctx, hi0, ?_, ⟨hn0, ?_, trivial, trivial⟩,
      Rep.congr (fun j hj => hfr j ?_ ?_) hr⟩
    · exact hfm j ((ids_plug fs _).mem_iff.2 (by simp [hj]))
    · rintro rfl; exact hnd3.1 hj
    · rw [slot_set_self _ (by simpa using slot_lt hslot)]; rfl
    · rw [slot_set_ne _ hni, slot_set_self _ (slot_lt hn)]; rfl
    · exact hfm j ((ids_plug fs _).mem_iff.2 (by simp [PTree.ids, hj]))
    · rintro rfl; exact hnd1.1 hj
  · simp only []
    rw [hroot]; exact ptr_plug_congr fs (Or.inl rfl)
  · rw [nodup_plug'] at hnd ⊢
    obtain ⟨hnd1, hnd2, hnd3⟩ := hnd
    have hfc : n ∉ ctxIds fs := fun hm => hfresh ((ids_plug fs _).mem_iff.2 (by simp [hm]))
    have hfr' : n ∉ r.ids := fun hm => hfresh ((ids_plug fs _).mem_iff.2 (by simp [PTree.ids, hm]))
    simp only [PTree.ids, List.nodup_append, List.nodup_cons, List.mem_append, List.mem_cons,
      List.disjoint_cons_right, forall_eq_or_imp, or_imp, forall_and, forall_eq, not_or,
      List.nil_append, List.not_mem_nil, not_false_eq_true, true_and, List.nodup_nil,
      List.disjoint_cons_left, List.disjoint_nil_left, List.append_nil, List.mem_singleton,
      List.singleton_append, List.disjoint_singleton] at hnd1 hnd3 ⊢
    exact ⟨⟨⟨hni, hfr'⟩, hnd1⟩, hnd2, hfc, hnd3⟩
  · simp only []
    rw [hfr 0 (Ne.symm hn0) (Ne.symm hi0)]; exact hnil

/-- Hang the fresh node `n` into a sentinel link on the right. -/
theorem attach_right {s : set} {N : SetNode} {fs : List Frame} {i n : Nat} {c : Color}
    {l : PTree} {cv v : Int} (h : Abs s (plug fs (node i c l cv nil)) N)
    (hn : slot s.store n = some (new_SetNode v)) (hn0 : n ≠ 0)
    (hfresh : n ∉ (plug fs (node i c l cv nil)).ids) :
    ∃ s1 s2, set_parent s (some n) (some i) = Except.ok s1 ∧
      set_right_child s1 (some i) (some n) = Except.ok s2 ∧
      Abs s2 (plug fs (node i c l cv (node n Color.Red nil v nil))) N ∧
      s2.m_size = s.m_size ∧ s2.store.length = s.store.length := by
  have hslot := h.slot_focus
  have hi0 := h.focus_ne_zero
  obtain ⟨hrep, hroot, hnd, hnil, hisnil⟩ := h
  have hni : n ≠ i := by
    rintro rfl
    exact hfresh ((ids_plug fs _).mem_iff.2 (by simp [PTree.ids]))
  have hfr : ∀ j, j ≠ n → j ≠ i → slot ((s.store.set n (some
      { new_SetNode v with m_parent := some i })).set i (some
      ⟨c, ctxPar fs, l.ptr, some n, cv, false⟩)) j = slot s.store j := by
    intro j h1 h2
    rw [slot_set_ne _ h2, slot_set_ne _ h1]
  refine ⟨⟨s.store.set n (some { new_SetNode v with m_parent := some i }), s.m_root, s.m_size⟩,
    ⟨(s.store.set n (some { new_SetNode v with m_parent := some i })).set i
        (some ⟨c, ctxPar fs, l.ptr, some n, cv, false⟩), s.m_root, s.m_size⟩,
    by rw [set_parent, modify_eq, hn], ?_, ⟨?_, ?_, ?_, ?_, hisnil⟩, rfl, by simp⟩
  · rw [set_right_child, modify_eq]
    simp only []
    rw [slot_set_ne _ (Ne.symm hni), hslot]
  · simp only []
    rw [Rep_plug] at hrep ⊢
    have hfm : ∀ j ∈ (plug fs (node i c l cv nil)).ids, j ≠ n := by
      rintro j hj rfl; exact hfresh hj
    rw [nodup_plug'] at hnd
    obtain ⟨hnd1, hnd2, hnd3⟩ := hnd
    simp only [PTree.ids, List.nodup_append, List.nodup_cons, List.mem_append, List.mem_cons,
      List.disjoint_cons_right, forall_eq_or_imp, or_imp, forall_and, forall_eq, not_or,
      List.nil_append, List.not_mem_nil, not_false_eq_true, true_and, List.nodup_nil,
      List.disjoint_nil_right, and_true] at hnd1 hnd3
    obtain ⟨hctx, -, -, hl, -⟩ := hrep
    refine ⟨RepCtx.congr_ctx (fun j hj => hfr j ?_ ?_) hctx, hi0, ?_,
      Rep.congr (fun j hj => hfr j ?_ ?_) hl, ⟨hn0, ?_, trivial, trivial⟩⟩
    · exact hfm j ((ids_plug fs _).mem_iff.2 (by simp [hj]))
    · rintro rfl; exact hnd3.2.1 hj
    · rw [slot_set_self _ (by simpa using slot_lt hslot)]; rfl
    · exact hfm j ((ids_plug fs _).mem_iff.2 (by simp [PTree.ids, hj]))
    · rintro rfl; exact hnd1.2 hj
    · rw [slot_set_ne _ hni, slot_set_self _ (slot_lt hn)]; rfl
  · simp only []
    rw [hroot]; exact ptr_plug_congr fs (Or.inl rfl)
  · rw [nodup_plug'] at hnd ⊢
    obtain ⟨hnd1, hnd2, hnd3⟩ := hnd
    have hfc : n ∉ ctxIds fs := fun hm => hfresh ((ids_plug fs _).mem_iff.2 (by simp [hm]))
    have hfl : n ∉ l.ids := fun hm => hfresh ((ids_plug fs _).mem_iff.2 (by simp [PTree.ids, hm]))
    simp only [PTree.ids, List.nodup_append, List.nodup_cons, List.mem_append, List.mem_cons,
      List.disjoint_cons_right, forall_eq_or_imp, or_imp, forall_and, forall_eq, not_or,
      List.nil_append, List.not_mem_nil, not_false_eq_true, true_and, List.nodup_nil,
      List.disjoint_cons_left, List.disjoint_nil_left, List.append_nil, List.mem_singleton,
      List.singleton_append, List.disjoint_singleton, List.disjoint_nil_right, and_true] at hnd1 hnd3 ⊢
    exact ⟨⟨hnd1.1, Ne.symm hni, hnd1.2, hfl⟩, hnd2, hnd3.1, hnd3.2.1, hfc, hnd3.2.2⟩
  · simp only []
    rw [hfr 0 (Ne.symm hn0) (Ne.symm hi0)]; exact hnil

theorem Abs.is_nil_sub {s : set} {N : SetNode} {fs : List Frame} {t : PTree}
    (h : Abs s (plug fs t) N) : is_nil_node s t.ptr = Except.ok t.isNil := by
  obtain ⟨n, h1, -, h2⟩ := h.load_sub
  simp [is_nil_node, h1, map_ok, h2]

theorem Abs.value_focus {s : set} {N : SetNode} {fs : List Frame} {i : Nat} {c : Color}
    {l r : PTree} {v : Int} (h : Abs s (plug fs (node i c l v r)) N) :
    value s (some i) = Except.ok v := by
  simp [value, h.load_focus, map_ok]

theorem Abs.left_focus {s : set} {N : SetNode} {fs : List Frame} {i : Nat} {c : Color}
    {l r : PTree} {v : Int} (h : Abs s (plug fs (node i c l v r)) N) :
    left_child s (some i) = Except.ok l.ptr := by
  simp [left_child, h.load_focus, map_ok]

theorem Abs.right_focus {s : set} {N : SetNode} {fs : List Frame} {i : Nat} {c : Color}
    {l r : PTree} {v : Int} (h : Abs s (plug fs (node i c l v r)) N) :
    right_child s (some i) = Except.ok r.ptr := by
  simp [right_child, h.load_focus, map_ok]

theorem btree_insert_loop_spec (n : Nat) (v : Int) : ∀ (fuel : Nat) (acc : List Frame) (s : set)
    (N : SetNode) (i : Nat) (c : Color) (l : PTree) (cv : Int) (r : PTree),
    Abs s (plug acc (node i c l cv r)) N → slot s.store n = some (new_SetNode v) → n ≠ 0 →
    n ∉ (plug acc (node i c l cv r)).ids → (node i c l cv r).height ≤ fuel →
    ∃ s', _btree_insert_loop fuel s (some n) (some i) = Except.ok (s', some n) ∧
      Abs s' (plug (insPath v (node i c l cv r) acc) (node n Color.Red nil v nil)) N ∧
      s'.m_size = s.m_size ∧ s'.store.length = s.store.length := by
  intro fuel
  induction fuel with
  | zero => intro acc s N i c l cv r _ _ _ _ hh; simp [PTree.height] at hh
  | succ fuel ih =>
    intro acc s N i c l cv r h hn hn0 hfresh hh
    have e1 : value s (some n) = Except.ok v := by simp [value, load_eq, hn, map_ok, new_SetNode]
    have e2 := h.value_focus
    have e3 := h.left_focus
    have e4 := h.right_focus
    have hl : Abs s (plug (Frame.L i c cv r :: acc) l) N := h
    have hr : Abs s (plug (Frame.R i c l cv :: acc) r) N := h
    have e5 := hl.is_nil_sub
    have e6 := hr.is_nil_sub
    simp only [PTree.height] at hh
    by_cases hlt : v < cv
    · cases l with
      | nil =>
        obtain ⟨s1, s2, w1, w2, h2, z2, l2⟩ := attach_left h hn hn0 hfresh
        refine ⟨s2, ?_, ?_, z2, l2⟩
        · simp only [ptr_nil] at e3 e5
          simp [_btree_insert_loop, e1, e2, e3, e5, hlt, w1, w2, PTree.isNil, bind_ok, bind,
            Except.bind, pure, Except.pure]
        · simp only [insPath, hlt, if_true]; exact h2
      | node li lc ll lv lr =>
        obtain ⟨s', w, h', z, l'⟩ := ih (Frame.L i c cv r :: acc) s N li lc ll lv lr hl hn hn0
          hfresh (by omega)
        refine ⟨s', ?_, ?_, z, l'⟩
        · simp only [ptr_node] at e3 e5
          simp [_btree_insert_loop, e1, e2, e3, e5, hlt, w, PTree.isNil, bind_ok, bind,
            Except.bind, pure, Except.pure]
        · simp only [insPath, hlt, if_true] at h' ⊢; exact h'
    · cases r with
      | nil =>
        obtain ⟨s1, s2, w1, w2, h2, z2, l2⟩ := attach_right h hn hn0 hfresh
        refine ⟨s2, ?_, ?_, z2, l2⟩
        · simp only [ptr_nil] at e4 e6
          simp [_btree_insert_loop, e1, e2, e4, e6, hlt, w1, w2, PTree.isNil, bind_ok, bind,
            Except.bind, pure, Except.pure]
        · simp only [insPath, hlt, if_false]; exact h2
      | node ri rc rl rv rr =>
        obtain ⟨s', w, h', z, l'⟩ := ih (Frame.R i c l cv :: acc) s N ri rc rl rv rr hr hn hn0
          hfresh (by omega)
        refine ⟨s', ?_, ?_, z, l'⟩
        · simp only [ptr_node] at e4 e6
          simp [_btree_insert_loop, e1, e2, e4, e6, hlt, w, PTree.isNil, bind_ok, bind,
            Except.bind, pure, Except.pure]
        · simp only [insPath, hlt, if_false] at h' ⊢; exact h'

theorem slot_append_left {st : List (Option SetNode)} {i : Nat} (x : Option SetNode)
    (h : i < st.length) : slot (st ++ [x]) i = slot st i := by
  simp [slot, List.getElem?_append_left h]

theorem slot_append_self (st : List (Option SetNode)) (n : SetNode) :
    slot (st ++ [some n]) st.length = some n := by
  simp [slot]

theorem rootFrameBlack_insPath (v : Int) : ∀ (t : PTree) (acc : List Frame),
    rootFrameBlack acc → (acc = [] → t.rootColor Color.Black = Color.Black) →
    rootFrameBlack (insPath v t acc)
  | nil, acc, h, _ => h
  | node i c l cv r, acc, h, hc => by
    simp only [insPath]
    have key : ∀ f : Frame, f.col = c → rootFrameBlack (f :: acc) := by
      intro f hf
      cases acc with
      | nil => simp only [rootFrameBlack]; rw [hf]; exact hc rfl
      | cons g gs => exact h
    split
    · exact rootFrameBlack_insPath v l _ (key _ rfl) (by simp)
    · exact rootFrameBlack_insPath v r _ (key _ rfl) (by simp)

theorem btree_insert_spec {s : set} {T : PTree} {N : SetNode} (v : Int) {fuel : Nat}
    (h : Abs s T N) (hfuel : T.height ≤ fuel) :
    ∃ s', _btree_insert fuel s v = Except.ok (s', some s.store.length) ∧
      Abs s' (plug (insPath v T []) (node s.store.length Color.Red nil v nil)) N ∧
      s'.m_size = s.m_size ∧ s'.store.length = s.store.length + 1 := by
  obtain ⟨hrep, hroot, hnd, hnil, hisnil⟩ := h
  have h0l := slot_lt hnil
  have h0 : Abs ⟨s.store ++ [some (new_SetNode v)], s.m_root, s.m_size⟩ T N :=
    ⟨Rep.congr (fun i hi => slot_append_left _ (Rep.ids_lt hrep i hi)) hrep, hroot, hnd,
      by simp only []; rw [slot_append_left _ h0l]; exact hnil, hisnil⟩
  have hn := slot_append_self s.store (new_SetNode v)
  have hn0 : s.store.length ≠ 0 := by omega
  have hfresh : s.store.length ∉ T.ids := fun hm => Nat.lt_irrefl _ (Rep.ids_lt hrep _ hm)
  have e1 : is_nil_node ⟨s.store ++ [some (new_SetNode v)], s.m_root, s.m_size⟩ s.m_root
      = Except.ok T.isNil := by
    have := @Abs.is_nil_sub _ _ [] _ h0
    rwa [← hroot] at this
  cases T with
  | nil =>
    refine ⟨⟨s.store ++ [some (new_SetNode v)], some s.store.length, s.m_size⟩, ?_, ?_, rfl, by simp⟩
    · simp [_btree_insert, e1, PTree.isNil, bind_ok, bind, Except.bind, pure, Except.pure]
    · refine ⟨⟨hn0, hn, trivial, trivial⟩, rfl, by simp [insPath, plug, PTree.ids], ?_, hisnil⟩
      simp only []; rw [slot_append_left _ h0l]; exact hnil
  | node i c l cv r =>
    obtain ⟨s', w, h', z, l'⟩ := btree_insert_loop_spec s.store.length v fuel [] _ N i c l cv r
      h0 hn hn0 hfresh hfuel
    refine ⟨s', ?_, h', z, by rw [l']; simp⟩
    simp only [ptr_node] at hroot
    have w' : ∀ q, q = some i → _btree_insert_loop fuel
        ⟨s.store ++ [some (new_SetNode v)], s.m_root, s.m_size⟩ (some s.store.length) q
          = Except.ok (s', some s.store.length) := by
      rintro q rfl; exact w
    simp [_btree_insert, e1, PTree.isNil, bind_ok, bind, Except.bind, pure, Except.pure]
    exact w' _ hroot

theorem insert_spec {s : set} {T : PTree} {N : SetNode} (v : Int) {fuel : Nat}
    (h : Abs s T N) (hrb : T.rootColor Color.Black = Color.Black) (hfuel : T.height < fuel) :
    ∃ s' N', insert fuel s v = Except.ok (true, s') ∧
      Abs s' (insertT N.m_color v s.store.length T) N' ∧
      N'.m_color = insertNilColor N.m_color v s.store.length T ∧
      (N.m_left_child = none → N'.m_left_child = none) ∧
      s'.m_size = s.m_size ∧ s'.store.length = s.store.length + 1 := by
  obtain ⟨s1, w1, h1, z1, l1⟩ := btree_insert_spec v h (Nat.le_of_lt hfuel)
  have hlen : (insPath v T []).length < fuel := by
    have := length_insPath v T []
    simp only [List.length_nil] at this
    omega
  obtain ⟨s2, N2, w2, h2, c2, n2, z2, l2⟩ := balance_after_insert_spec h1 hlen
    (rootFrameBlack_insPath v T [] trivial (fun _ => hrb))
  refine ⟨s2, N2, ?_, h2, c2, n2, by rw [z2, z1], by rw [l2, l1]⟩
  simp [insert, w1, w2, bind_ok, bind, Except.bind, pure, Except.pure]

theorem toList_setRootCol (c : Color) (t : PTree) : (t.setRootCol c).toList = t.toList := by
  cases t <;> rfl

theorem toList_fill_setCol (f : Frame) (c : Color) (t : PTree) :
    ((f.setCol c).fill t).toList = (f.fill t).toList := by
  cases f <;> rfl

theorem toList_fill_congr (f : Frame) {t t' : PTree} (h : t.toList = t'.toList) :
    (f.fill t).toList = (f.fill t').toList := by
  cases f <;> simp [Frame.fill, PTree.toList, h]

theorem toList_plug_congr (fs : List Frame) {t t' : PTree} (h : t.toList = t'.toList) :
    (plug fs t).toList = (plug fs t').toList := by
  rw [toList_plug, toList_plug, h]

theorem toList_recolor_fill (f : Frame) (t : PTree) :
    (f.recolor.fill t).toList = (f.fill t).toList := by
  cases f <;> simp [Frame.recolor, Frame.setCol, Frame.setSib, Frame.fill, PTree.toList,
    Frame.sib, toList_setRootCol]

theorem toList_insRot (fG fP : Frame) (t : PTree) :
    (insRot fG fP t).toList = (fG.fill (fP.fill t)).toList := by
  cases fG <;> cases fP <;> cases t <;>
    simp [insRot, Frame.fill, PTree.toList, List.append_assoc]

theorem toList_insFix : ∀ (n : Nat) (nc : Color) (fs : List Frame) (t : PTree), fs.length < n →
    (insFix nc fs t).1.toList = (plug fs t).toList := by
  intro n
  induction n with
  | zero => intro nc fs t h; exact absurd h (Nat.not_lt_zero _)
  | succ n ih =>
    intro nc fs t hlt
    match fs, hlt with
    | [], _ => rfl
    | [f], _ => rfl
    | fP :: fG :: rest, hlt =>
      simp only [insFix]
      split
      · split
        · rw [ih _ rest _ (by simp at hlt; omega)]
          show _ = (plug rest (fG.fill (fP.fill t))).toList
          refine toList_plug_congr rest ?_
          rw [toList_recolor_fill]
          exact toList_fill_congr fG (toList_fill_setCol fP _ t)
        · show _ = (plug rest (fG.fill (fP.fill t))).toList
          exact toList_plug_congr rest (toList_insRot fG fP t)
      · rfl

theorem toList_insertT (nc : Color) (v : Int) (n : Nat) (T : PTree) :
    (insertT nc v n T).toList =
      ctxLeft (insPath v T []) ++ [v] ++ ctxRight (insPath v T []) := by
  rw [insertT, toList_setRootCol, toList_insFix _ nc _ _ (Nat.lt_succ_self _), toList_plug]
  simp [PTree.toList]

theorem toList_eq_insPath (v : Int) (T : PTree) :
    T.toList = ctxLeft (insPath v T []) ++ ctxRight (insPath v T []) := by
  have := toList_plug (insPath v T []) nil
  rw [plug_insPath] at this
  simpa [plug, PTree.toList] using this

theorem insPath_bounds (v : Int) : ∀ (t : PTree) (acc : List Frame),
    (plug acc t).toList.Pairwise (· ≤ ·) →
    (∀ a ∈ ctxLeft acc, a ≤ v) → (∀ b ∈ ctxRight acc, v < b) →
    (∀ a ∈ ctxLeft (insPath v t acc), a ≤ v) ∧ (∀ b ∈ ctxRight (insPath v t acc), v < b)
  | nil, acc, _, hl, hr => ⟨hl, hr⟩
  | node i c l cv r, acc, hs, hl, hr => by
    simp only [insPath]
    have hs' := hs
    rw [toList_plug] at hs'
    simp only [PTree.toList, List.pairwise_append, List.pairwise_cons, List.mem_append,
      List.mem_cons] at hs'
    split
    · next hlt =>
      refine insPath_bounds v l _ hs hl ?_
      intro b hb
      simp only [ctxRight, List.cons_append, List.mem_cons, List.mem_append] at hb
      rcases hb with rfl | hb | hb
      · exact hlt
      · exact lt_of_lt_of_le hlt (hs'.1.2.1.2.1.1 b hb)
      · exact hr b hb
    · next hge =>
      refine insPath_bounds v r _ hs ?_ hr
      intro a ha
      simp only [ctxLeft, List.mem_append, List.mem_cons, List.mem_singleton, List.not_mem_nil,
        or_false] at ha
      rcases ha with ha | ha | rfl
      · exact hl a ha
      · exact le_trans (hs'.1.2.1.2.2 a ha cv (Or.inl rfl)) (not_lt.1 hge)
      · exact not_lt.1 hge

/-- The in-order sequence stays sorted under `insert`. -/
theorem sorted_insertT (nc : Color) (v : Int) (n : Nat) (T : PTree)
    (h : T.toList.Pairwise (· ≤ ·)) : (insertT nc v n T).toList.Pairwise (· ≤ ·) := by
  obtain ⟨hl, hr⟩ := insPath_bounds v T [] h (by simp [ctxLeft]) (by simp [ctxRight])
  rw [toList_insertT]
  rw [toList_eq_insPath v T, List.pairwise_append] at h
  simp only [List.pairwise_append, List.pairwise_cons, List.mem_append, List.mem_singleton,
    List.not_mem_nil, List.Pairwise.nil, forall_eq, and_true, true_and, false_implies,
    implies_true]
  refine ⟨⟨h.1, hl⟩, h.2.1, ?_⟩
  rintro a (ha | rfl) b hb
  · exact h.2.2 a ha b hb
  · exact le_of_lt (hr b hb)

/-- The in-order sequence stays strictly sorted when a new value is inserted. -/
theorem strictSorted_insertT (nc : Color) (v : Int) (n : Nat) (T : PTree)
    (h : T.toList.Pairwise (· < ·)) (hv : v ∉ T.toList) :
    (insertT nc v n T).toList.Pairwise (· < ·) := by
  obtain ⟨hl, hr⟩ := insPath_bounds v T [] (h.imp le_of_lt) (by simp [ctxLeft]) (by simp [ctxRight])
  rw [toList_insertT]
  rw [toList_eq_insPath v T] at h hv
  rw [List.pairwise_append] at h
  simp only [List.mem_append, not_or] at hv
  simp only [List.pairwise_append, List.pairwise_cons, List.mem_append, List.mem_singleton,
    List.not_mem_nil, List.Pairwise.nil, forall_eq, and_true, true_and, false_implies,
    implies_true]
  refine ⟨⟨h.1, fun a ha => lt_of_le_of_ne (hl a ha) (fun e => hv.1 (e ▸ ha))⟩, h.2.1, ?_⟩
  rintro a (ha | rfl) b hb
  · exact h.2.2 a ha b hb
  · exact hr b hb

theorem mem_insertT (nc : Color) (v : Int) (n : Nat) (T : PTree) (w : Int) :
    w ∈ (insertT nc v n T).toList ↔ w = v ∨ w ∈ T.toList := by
  rw [toList_insertT, toList_eq_insPath v T]
  simp only [List.mem_append, List.mem_singleton]
  tauto

theorem Color.ne_red {c : Color} : c ≠ Color.Red ↔ c = Color.Black := by
  cases c <;> simp

theorem plug_valid : ∀ (fs : List Frame) (t : PTree) (n : Nat), CtxRB fs n →
    t.bhOk → t.blackHeight = n → t.noRedRed →
    (¬ headBlack fs → t.rootColor Color.Black = Color.Black) →
    (plug fs t).bhOk ∧ (plug fs t).noRedRed
  | [], t, _, _, h1, _, h3, _ => ⟨h1, h3⟩
  | f :: fs, t, n, ⟨s1, s2, s3, s4, hc⟩, h1, h2, h3, h4 => by
    refine plug_valid fs (f.fill t) _ hc ?_ ?_ ?_ ?_
    · cases f <;> simp only [Frame.fill, PTree.bhOk, Frame.sib] at * <;> simp [*]
    · cases f <;> simp only [Frame.fill, PTree.blackHeight, Frame.sib, Frame.col] at * <;> simp [*]
    · have : f.col = Color.Red → t.rootColor Color.Black = Color.Black := by
        intro hf; apply h4; simp [headBlack, hf]
      cases f <;> simp only [Frame.fill, PTree.noRedRed, Frame.sib, Frame.col] at * <;>
        exact ⟨fun hcr => ⟨by simp [*], by simp [*]⟩, by assumption, by assumption⟩
    · intro hh
      have : f.col = Color.Black := by
        by_contra hne
        have := (s4 (by cases hf : f.col <;> simp_all)).2
        exact hh this
      cases f <;> simpa [Frame.fill, PTree.rootColor, Frame.col] using this

theorem bhOk_setRootCol (c : Color) (t : PTree) : (t.setRootCol c).bhOk ↔ t.bhOk := by
  cases t <;> simp [PTree.setRootCol, PTree.bhOk]

theorem noRedRed_setRootCol_black {t : PTree} (h : t.noRedRed) :
    (t.setRootCol Color.Black).noRedRed := by
  cases t with
  | nil => trivial
  | node i c l v r => exact ⟨fun hc => (by cases hc), h.2.1, h.2.2⟩

theorem rootColor_setRootCol_black (t : PTree) :
    (t.setRootCol Color.Black).rootColor Color.Black = Color.Black := by
  cases t <;> rfl

theorem blackHeight_setRootCol_black {t : PTree} (h : t.rootColor Color.Black = Color.Red) :
    (t.setRootCol Color.Black).blackHeight = t.blackHeight + 1 := by
  cases t with
  | nil => simp [PTree.rootColor] at h
  | node i c l v r =>
    simp only [PTree.rootColor] at h
    simp [PTree.setRootCol, PTree.blackHeight, h]

theorem bhOk_fill (f : Frame) (t : PTree) :
    (f.fill t).bhOk ↔ t.blackHeight = f.sib.blackHeight ∧ t.bhOk ∧ f.sib.bhOk := by
  cases f <;> simp only [Frame.fill, PTree.bhOk, Frame.sib]
  constructor
  · rintro ⟨a, b, c⟩; exact ⟨a.symm, c, b⟩
  · rintro ⟨a, b, c⟩; exact ⟨a.symm, c, b⟩

theorem blackHeight_fill (f : Frame) (t : PTree) (h : t.blackHeight = f.sib.blackHeight) :
    (f.fill t).blackHeight = t.blackHeight + (if f.col = Color.Black then 1 else 0) := by
  cases f <;> simp only [Frame.fill, PTree.blackHeight, Frame.sib, Frame.col] at h ⊢
  rw [h]

theorem noRedRed_fill (f : Frame) (t : PTree) :
    (f.fill t).noRedRed ↔
      (f.col = Color.Red →
        t.rootColor Color.Black = Color.Black ∧ f.sib.rootColor Color.Black = Color.Black) ∧
      t.noRedRed ∧ f.sib.noRedRed := by
  cases f <;> simp only [Frame.fill, PTree.noRedRed, Frame.sib, Frame.col]
  constructor
  · rintro ⟨a, b, c⟩; exact ⟨fun h => (a h).symm, c, b⟩
  · rintro ⟨a, b, c⟩; exact ⟨fun h => (a h).symm, c, b⟩

theorem rootColor_fill (f : Frame) (t : PTree) (c : Color) : (f.fill t).rootColor c = f.col := by
  cases f <;> rfl

@[simp] theorem Frame.sib_recolor (f : Frame) :
    f.recolor.sib = f.sib.setRootCol Color.Black := by cases f <;> rfl

@[simp] theorem PTree.rootColor_node (nc : Color) (i : Nat) (c : Color) (l : PTree) (v : Int)
    (r : PTree) : (node i c l v r).rootColor nc = c := rfl

theorem insRot_valid {fG fP : Frame} {x : Nat} {xl xr : PTree} {xv : Int} {n : Nat}
    (h1 : (node x Color.Red xl xv xr).bhOk) (h2 : (node x Color.Red xl xv xr).blackHeight = n)
    (h3 : (node x Color.Red xl xv xr).noRedRed)
    (p1 : fP.sib.bhOk) (p2 : fP.sib.blackHeight = n) (p3 : fP.sib.noRedRed)
    (p4 : fP.sib.rootColor Color.Black = Color.Black) (hP : fP.col = Color.Red)
    (g1 : fG.sib.bhOk) (g2 : fG.sib.blackHeight = n) (g3 : fG.sib.noRedRed)
    (g4 : fG.sib.rootColor Color.Black = Color.Black) :
    (insRot fG fP (node x Color.Red xl xv xr)).bhOk ∧
      (insRot fG fP (node x Color.Red xl xv xr)).blackHeight = n + 1 ∧
      (insRot fG fP (node x Color.Red xl xv xr)).noRedRed ∧
      (insRot fG fP (node x Color.Red xl xv xr)).rootColor Color.Black = Color.Black := by
  simp only [PTree.bhOk, PTree.blackHeight, PTree.noRedRed, PTree.rootColor_node, if_false,
    Nat.add_zero, forall_true_left, true_implies, reduceCtorEq] at h1 h2 h3
  obtain ⟨h1a, h1b, h1c⟩ := h1
  obtain ⟨⟨h3a, h3b⟩, h3c, h3d⟩ := h3
  cases fG <;> cases fP <;>
    simp only [Frame.sib, Frame.col] at p1 p2 p3 p4 hP g1 g2 g3 g4 <;>
    subst hP <;>
    simp only [insRot, PTree.bhOk, PTree.blackHeight, PTree.noRedRed, PTree.rootColor_node,
      if_true, if_false, Nat.add_zero, forall_true_left, true_implies, and_true, true_and,
      reduceCtorEq, false_implies, implies_true] <;>
    and_intros <;> first | assumption | omega

theorem insFix_valid : ∀ (k : Nat) (fs : List Frame) (x : Nat) (xl : PTree) (xv : Int)
    (xr : PTree) (n : Nat), fs.length < k → CtxRB fs n → rootFrameBlack fs →
    (node x Color.Red xl xv xr).bhOk → (node x Color.Red xl xv xr).blackHeight = n →
    (node x Color.Red xl xv xr).noRedRed →
    (insFix Color.Black fs (node x Color.Red xl xv xr)).2 = Color.Black ∧
      (insFix Color.Black fs (node x Color.Red xl xv xr)).1.bhOk ∧
      (insFix Color.Black fs (node x Color.Red xl xv xr)).1.noRedRed := by
  intro k
  induction k with
  | zero => intro fs x xl xv xr n h; exact absurd h (Nat.not_lt_zero _)
  | succ k ih =>
    intro fs x xl xv xr n hlt hc hrb h1 h2 h3
    match fs, hlt, hc, hrb with
    | [], _, _, _ => exact ⟨rfl, h1, h3⟩
    | [f], _, hc, hrb =>
      exact ⟨rfl, plug_valid [f] _ n hc h1 h2 h3 (fun hh => absurd hrb hh)⟩
    | fP :: fG :: rest, hlt, hc, hrb =>
      simp only [insFix]
      by_cases hP : fP.col = Color.Red
      · simp only [hP, if_true]
        obtain ⟨p1, p2, p3, p4, g1, g2, g3, g4, hrest⟩ := hc
        have hG : fG.col = Color.Black := (p4 hP).2
        have hPs : fP.sib.rootColor Color.Black = Color.Black := (p4 hP).1
        simp only [hP, hG, if_true, if_false, Nat.add_zero, reduceCtorEq] at g2 hrest
        by_cases hU : fG.sib.rootColor Color.Black = Color.Red
        · simp only [hU, if_true]
          have hnn : fG.sib.isNil = false := by
            cases hs : fG.sib with
            | nil => rw [hs] at hU; simp [PTree.rootColor] at hU
            | node _ _ _ _ _ => rfl
          simp only [hnn, Bool.false_eq_true, if_false]
          have hb1 : ((fP.setCol Color.Black).fill (node x Color.Red xl xv xr)).bhOk := by
            rw [bhOk_fill, Frame.sib_setCol]; exact ⟨h2.trans p2.symm, h1, p1⟩
          have hb2 : ((fP.setCol Color.Black).fill (node x Color.Red xl xv xr)).blackHeight
              = n + 1 := by
            rw [blackHeight_fill _ _ (by rw [Frame.sib_setCol]; exact h2.trans p2.symm), h2]
            simp
          have hb3 : ((fP.setCol Color.Black).fill (node x Color.Red xl xv xr)).noRedRed := by
            rw [noRedRed_fill, Frame.sib_setCol]
            exact ⟨fun hc => by simp at hc, h3, p3⟩
          have hu2 : (fG.sib.setRootCol Color.Black).blackHeight = n + 1 := by
            rw [blackHeight_setRootCol_black hU, g2]
          have key : (fG.recolor.fill ((fP.setCol Color.Black).fill (node x Color.Red xl xv xr))).bhOk ∧
              (fG.recolor.fill ((fP.setCol Color.Black).fill (node x Color.Red xl xv xr))).blackHeight
                = n + 1 ∧
              (fG.recolor.fill ((fP.setCol Color.Black).fill (node x Color.Red xl xv xr))).noRedRed := by
            refine ⟨?_, ?_, ?_⟩
            · rw [bhOk_fill, Frame.sib_recolor, bhOk_setRootCol]
              exact ⟨hb2.trans hu2.symm, hb1, g1⟩
            · rw [blackHeight_fill _ _ (by rw [Frame.sib_recolor]; exact hb2.trans hu2.symm), hb2]
              simp
            · rw [noRedRed_fill, Frame.sib_recolor]
              refine ⟨fun _ => ⟨?_, rootColor_setRootCol_black _⟩, hb3, noRedRed_setRootCol_black g3⟩
              rw [rootColor_fill]; simp
          rw [Frame.fill_eq, Frame.col_recolor] at key ⊢
          exact ih rest _ _ _ _ (n + 1) (by simp at hlt; omega) hrest
            (rootFrameBlack_tail2 hrb) key.1 key.2.1 key.2.2
        · simp only [hU, if_false]
          obtain ⟨r1, r2, r3, r4⟩ := @insRot_valid fG _ _ _ _ _ _ h1 h2 h3 p1 p2 p3 hPs hP g1 g2 g3
            (Color.ne_red.1 hU)
          exact ⟨trivial, plug_valid rest _ (n + 1) hrest r1 r2 r3 (fun _ => r4)⟩
      · simp only [hP, if_false]
        exact ⟨trivial, plug_valid _ _ n hc h1 h2 h3 (fun hh => absurd (Color.ne_red.1 hP) hh)⟩

theorem ctxRB_insPath (v : Int) : ∀ (t : PTree) (acc : List Frame), t.bhOk → t.noRedRed →
    CtxRB acc t.blackHeight → (¬ headBlack acc → t.rootColor Color.Black = Color.Black) →
    CtxRB (insPath v t acc) 0
  | nil, acc, _, _, hc, _ => hc
  | node i c l cv r, acc, ⟨b1, b2, b3⟩, ⟨r1, r2, r3⟩, hc, hh => by
    have hhb : c = Color.Red → headBlack acc := by
      intro hcr
      by_contra hn
      have := hh hn
      simp only [PTree.rootColor_node] at this
      rw [this] at hcr; cases hcr
    simp only [insPath]
    split
    · refine ctxRB_insPath v l _ b2 r2 ⟨b3, b1.symm, r3, fun hcr => ⟨(r1 hcr).2, hhb hcr⟩, hc⟩ ?_
      intro hn
      simp only [headBlack, Frame.col] at hn
      exact (r1 (by cases c <;> simp_all)).1
    · refine ctxRB_insPath v r _ b3 r3 ⟨b2, b1, r2, fun hcr => ⟨(r1 hcr).1, hhb hcr⟩, ?_⟩ ?_
      · simp only [Frame.col]; rw [← b1]; exact hc
      · intro hn
        simp only [headBlack, Frame.col] at hn
        exact (r1 (by cases c <;> simp_all)).2

/-- Insert on a red-black tree gives a red-black tree and leaves the sentinel Black. -/
theorem insertT_valid (v : Int) (n : Nat) (T : PTree) (hbh : T.bhOk) (hrr : T.noRedRed)
    (hroot : T.rootColor Color.Black = Color.Black) :
    insertNilColor Color.Black v n T = Color.Black ∧
      (insertT Color.Black v n T).rootColor Color.Black = Color.Black ∧
      (insertT Color.Black v n T).noRedRed ∧ (insertT Color.Black v n T).bhOk := by
  have hctx := ctxRB_insPath v T [] hbh hrr trivial (fun hn => absurd trivial hn)
  obtain ⟨h1, h2, h3⟩ := insFix_valid _ (insPath v T []) n nil v nil 0 (Nat.lt_succ_self _) hctx
    (rootFrameBlack_insPath v T [] trivial (fun _ => hroot))
    ⟨rfl, trivial, trivial⟩ rfl ⟨fun _ => ⟨rfl, rfl⟩, trivial, trivial⟩
  exact ⟨h1, rootColor_setRootCol_black _, noRedRed_setRootCol_black h3,
    (bhOk_setRootCol _ _).2 h2⟩

theorem rootColor_insertT (nc : Color) (v : Int) (n : Nat) (T : PTree) :
    (insertT nc v n T).rootColor Color.Black = Color.Black :=
  rootColor_setRootCol_black _

theorem plug_append : ∀ (fs acc : List Frame) (t : PTree),
    plug (fs ++ acc) t = plug acc (plug fs t)
  | [], _, _ => rfl
  | f :: fs, acc, t => by
    show plug (fs ++ acc) (f.fill t) = plug acc (plug fs (f.fill t))
    exact plug_append fs acc _

theorem find_loop_spec (v : Int) : ∀ (fuel : Nat) (fs : List Frame) (t : PTree) (s : set)
    (N : SetNode), Abs s (plug fs t) N →
    (t.height < fuel → _btree_find_loop fuel s v t.ptr = Except.ok (findT v t)) ∧
    (∀ q, _btree_find_loop fuel s v t.ptr = Except.ok q → q = findT v t) := by
  intro fuel
  induction fuel with
  | zero =>
    intro fs t s N _
    exact ⟨fun h => absurd h (Nat.not_lt_zero _), fun q h => by simp [_btree_find_loop] at h⟩
  | succ fuel ih =>
    intro fs t s N h
    have e1 := h.is_nil_sub
    cases t with
    | nil =>
      simp only [ptr_nil] at e1
      simp [_btree_find_loop, e1, PTree.isNil, findT, bind_ok, bind, Except.bind, pure,
        Except.pure]
    | node i c l cv r =>
      have e2 := h.value_focus
      have e3 := h.left_focus
      have e4 := h.right_focus
      have hl : Abs s (plug (Frame.L i c cv r :: fs) l) N := h
      have hr : Abs s (plug (Frame.R i c l cv :: fs) r) N := h
      obtain ⟨il1, il2⟩ := ih _ l s N hl
      obtain ⟨ir1, ir2⟩ := ih _ r s N hr
      simp only [ptr_node] at e1
      by_cases hcv : cv = v
      · simp [_btree_find_loop, e1, e2, PTree.isNil, findT, hcv, bind_ok, bind, Except.bind,
          pure, Except.pure]
      · by_cases hlt : v < cv
        · simp only [_btree_find_loop, e1, e2, e3, PTree.isNil, findT, hcv, hlt, bind_ok, bind,
            Except.bind, pure, Except.pure, if_true, if_false, reduceCtorEq, Bool.false_eq_true,
            PTree.height, ptr_node]
          exact ⟨fun hh => il1 (by omega), il2⟩
        · simp only [_btree_find_loop, e1, e2, e4, PTree.isNil, findT, hcv, hlt, bind_ok, bind,
            Except.bind, pure, Except.pure, if_true, if_false, reduceCtorEq, Bool.false_eq_true,
            PTree.height, ptr_node]
          exact ⟨fun hh => ir1 (by omega), ir2⟩

theorem find_spec {s : set} {T : PTree} {N : SetNode} (v : Int) (fuel : Nat) (h : Abs s T N) :
    (T.height < fuel → _btree_find fuel s v = Except.ok (findT v T)) ∧
    (∀ q, _btree_find fuel s v = Except.ok q → q = findT v T) := by
  have := find_loop_spec v fuel [] T s N h
  rw [← h.root] at this
  exact this

theorem findT_none_of_not_mem (v : Int) : ∀ (t : PTree), v ∉ t.toList → findT v t = none
  | nil, _ => rfl
  | node i c l cv r, h => by
    simp only [PTree.toList, List.mem_append, List.mem_cons, not_or] at h
    simp only [findT]
    rw [if_neg (fun e => h.2.1 e.symm)]
    split
    · exact findT_none_of_not_mem v l h.1
    · exact findT_none_of_not_mem v r h.2.2

theorem findT_focus (v : Int) : ∀ (t : PTree) (d : Nat), findT v t = some d →
    ∃ fs c l r, t = plug fs (node d c l v r)
  | nil, d, h => by simp [findT] at h
  | node i c l cv r, d, h => by
    simp only [findT] at h
    split at h
    · next hcv =>
      simp only [Option.some.injEq] at h
      subst h; subst hcv
      exact ⟨[], c, l, r, rfl⟩
    · split at h
      · obtain ⟨fs, c', l', r', e⟩ := findT_focus v l d h
        exact ⟨fs ++ [Frame.L i c cv r], c', l', r', by rw [plug_append, ← e]; rfl⟩
      · obtain ⟨fs, c', l', r', e⟩ := findT_focus v r d h
        exact ⟨fs ++ [Frame.R i c l cv], c', l', r', by rw [plug_append, ← e]; rfl⟩

theorem findT_some_of_mem (v : Int) : ∀ (t : PTree), t.toList.Pairwise (· ≤ ·) →
    v ∈ t.toList → ∃ d, findT v t = some d
  | nil, _, h => by simp [PTree.toList] at h
  | node i c l cv r, hs, h => by
    simp only [PTree.toList, List.pairwise_append, List.pairwise_cons, List.mem_cons] at hs
    simp only [PTree.toList, List.mem_append, List.mem_cons] at h
    simp only [findT]
    by_cases hcv : cv = v
    · exact ⟨i, by simp [hcv]⟩
    · rw [if_neg hcv]
      by_cases hlt : v < cv
      · rw [if_pos hlt]
        rcases h with h | h | h
        · exact findT_some_of_mem v l hs.1 h
        · exact absurd h.symm hcv
        · exact absurd (hs.2.1.1 v h) (not_le.2 hlt)
      · rw [if_neg hlt]
        rcases h with h | h | h
        · have := hs.2.2 v h cv (Or.inl rfl)
          exact absurd (lt_of_le_of_ne this (fun e => hcv e.symm)) hlt
        · exact absurd h.symm hcv
        · exact findT_some_of_mem v r hs.2.1.2 h

theorem exists_focus : ∀ (T : PTree) (i : Nat), i ∈ T.ids →
    ∃ fs c l v r, T = plug fs (node i c l v r)
  | nil, i, h => by simp [PTree.ids] at h
  | node j c l v r, i, h => by
    simp only [PTree.ids, List.mem_append, List.mem_cons] at h
    rcases h with h | h | h
    · obtain ⟨fs, c', l', v', r', e⟩ := exists_focus l i h
      exact ⟨fs ++ [Frame.L j c v r], c', l', v', r', by rw [plug_append, ← e]; rfl⟩
    · subst h; exact ⟨[], c, l, v, r, rfl⟩
    · obtain ⟨fs, c', l', v', r', e⟩ := exists_focus r i h
      exact ⟨fs ++ [Frame.R j c l v], c', l', v', r', by rw [plug_append, ← e]; rfl⟩

theorem mem_ids_plug {fs : List Frame} {t : PTree} {i : Nat} :
    i ∈ (plug fs t).ids ↔ i ∈ t.ids ∨ i ∈ ctxIds fs := by
  rw [(ids_plug fs t).mem_iff, List.mem_append]

/-- A store that agrees with `s` on the tree's slots and on the sentinel holds
the same tree. -/
theorem Abs.frame {s s' : set} {T : PTree} {N : SetNode} (h : Abs s T N)
    (hfr : ∀ i ∈ T.ids, slot s'.store i = slot s.store i)
    (h0 : slot s'.store 0 = slot s.store 0) (hroot : s'.m_root = s.m_root) : Abs s' T N :=
  ⟨Rep.congr hfr h.rep, hroot.trans h.root, h.nodup, h0.trans h.nil, h.isnil⟩

/-- The links stored in a tree node. -/
theorem Abs.node_info {s : set} {T : PTree} {N : SetNode} (h : Abs s T N) {i : Nat}
    (hi : i ∈ T.ids) :
    ∃ n, load s (some i) = Except.ok n ∧ n.m_is_nil_node = false ∧ i ≠ 0 ∧
      ((n.m_parent = nil_node ∧ s.m_root = some i) ∨
        (∃ j ∈ T.ids, n.m_parent = some j ∧ s.m_root ≠ some i)) ∧
      (n.m_left_child = nil_node ∨
        ∃ k ∈ T.ids, n.m_left_child = some k ∧ k ≠ i ∧ parent s (some k) = Except.ok (some i)) ∧
      (n.m_right_child = nil_node ∨
        ∃ k ∈ T.ids, n.m_right_child = some k ∧ k ≠ i ∧ parent s (some k) = Except.ok (some i)) ∧
      (n.m_left_child = n.m_right_child → n.m_left_child = nil_node) := by
  obtain ⟨fs, c, l, v, r, rfl⟩ := exists_focus T i hi
  have hnd := h.nodup
  rw [nodup_plug'] at hnd
  obtain ⟨hnd1, hnd2, hnd3⟩ := hnd
  simp only [PTree.ids, List.nodup_append, List.nodup_cons, List.mem_append, List.mem_cons,
    List.disjoint_cons_right, forall_eq_or_imp, or_imp, forall_and, forall_eq, not_or] at hnd1 hnd3
  refine ⟨_, h.load_focus, rfl, h.focus_ne_zero, ?_, ?_, ?_, ?_⟩
  · cases fs with
    | nil => left; exact ⟨rfl, by simpa [plug] using h.root⟩
    | cons f fs =>
      right
      refine ⟨f.id, mem_ids_plug.2 (Or.inr (by simp [ctxIds, Frame.ids])), rfl, ?_⟩
      have := h.root_ne_hole
      simpa [is_root, eq_comm] using this
  · cases l with
    | nil => left; rfl
    | node k kc kl kv kr =>
      right
      have hk : Abs s (plug (Frame.L i c v r :: fs) (node k kc kl kv kr)) N := h
      refine ⟨k, mem_ids_plug.2 (Or.inl (by simp [PTree.ids])), rfl, ?_, hk.parent_hole⟩
      rintro rfl; exact hnd1.2.2.1 (by simp [PTree.ids])
  · cases r with
    | nil => left; rfl
    | node k kc kl kv kr =>
      right
      have hk : Abs s (plug (Frame.R i c l v :: fs) (node k kc kl kv kr)) N := h
      refine ⟨k, mem_ids_plug.2 (Or.inl (by simp [PTree.ids])), rfl, ?_, hk.parent_hole⟩
      rintro rfl; exact hnd1.2.1.1 (by simp [PTree.ids])
  · intro e
    simp only at e
    cases l with
    | nil => rfl
    | node k kc kl kv kr =>
      exfalso
      cases r with
      | nil => simp [nil_node] at e; exact (Rep_plug.1 h.rep).2.2.2.1.1 e
      | node k' kc' kl' kv' kr' =>
        simp only [ptr_node, Option.some.injEq] at e
        subst e
        have hd : (node k kc kl kv kr).ids.Disjoint (node k kc' kl' kv' kr').ids := hnd1.2.2.2
        exact hd (a := k) (by simp [PTree.ids]) (by simp [PTree.ids])

theorem modify_links {s s' : set} {q : node_pointer} {f : SetNode → SetNode}
    (h : modify s q f = Except.ok s')
    (hf : ∀ n, (f n).m_parent = n.m_parent ∧ (f n).m_left_child = n.m_left_child ∧
      (f n).m_right_child = n.m_right_child) :
    s'.m_root = s.m_root ∧ ∀ k, parent s' k = parent s k ∧ left_child s' k = left_child s k ∧
      right_child s' k = right_child s k := by
  cases q with
  | none => simp [modify] at h
  | some i =>
    rw [modify_eq] at h
    cases hs : slot s.store i with
    | none => rw [hs] at h; simp at h
    | some n =>
      rw [hs] at h
      simp only [Except.ok.injEq] at h
      subst h
      refine ⟨rfl, fun k => ?_⟩
      cases k with
      | none => exact ⟨rfl, rfl, rfl⟩
      | some j =>
        simp only [parent, left_child, right_child, load_eq]
        by_cases hj : j = i
        · subst hj
          rw [slot_set_self _ (slot_lt hs), hs]
          simp [Except.map, hf n]
        · rw [slot_set_ne _ hj]
          exact ⟨rfl, rfl, rfl⟩

theorem set_color_links {s s' : set} {q : node_pointer} {c : Color}
    (h : set_color s q c = Except.ok s') :
    s'.m_root = s.m_root ∧ ∀ k, parent s' k = parent s k ∧ left_child s' k = left_child s k ∧
      right_child s' k = right_child s k :=
  modify_links h (fun _ => ⟨rfl, rfl, rfl⟩)

theorem ids_plug_congr (fs : List Frame) {t t' : PTree} (h : t.ids.Perm t'.ids) :
    (plug fs t).ids.Perm (plug fs t').ids :=
  (ids_plug fs t).trans ((h.append_right _).trans (ids_plug fs t').symm)

theorem WInv.set_color {I : List Nat} {L : List Int} {s s' : set} {q : node_pointer}
    {c : Color} (h : WInv I L s) (hs : custom.set_color s q c = Except.ok s') : WInv I L s' := by
  obtain ⟨T, N, hA, hN, hI, hL⟩ := h
  cases q with
  | none => simp [custom.set_color, modify] at hs
  | some k =>
    by_cases hk0 : k = 0
    · subst hk0
      obtain ⟨s'', w, h', -⟩ := hA.set_color_nil c
      rw [w] at hs; cases hs
      exact ⟨T, _, h', hN, hI, hL⟩
    · by_cases hk : k ∈ T.ids
      · obtain ⟨fs, c0, l, v, r, rfl⟩ := exists_focus T k hk
        obtain ⟨s'', w, h', -⟩ := hA.set_color_focus c
        rw [w] at hs; cases hs
        refine ⟨_, N, h', hN, (ids_plug_congr fs ?_).trans hI, ?_⟩
        · simp only [PTree.ids]; exact List.Perm.refl _
        · rw [← hL]; exact toList_plug_congr fs rfl
      · rw [custom.set_color, modify_eq] at hs
        cases hsl : slot s.store k with
        | none => rw [hsl] at hs; simp at hs
        | some n =>
          rw [hsl] at hs
          simp only [Except.ok.injEq] at hs
          subst hs
          refine ⟨T, N, hA.frame (fun i hi => slot_set_ne _ ?_) (slot_set_ne _ (Ne.symm hk0)) rfl,
            hN, hI, hL⟩
          rintro rfl; exact hk hi

theorem rotate_left_nil {s : set} {N : SetNode} {fs : List Frame} {i : Nat} {c : Color}
    {l : PTree} {v : Int} (h : Abs s (plug fs (node i c l v nil)) N) :
    rotate_left s (some i) = Except.ok s := by
  have e1 := h.right_focus
  have e2 : is_nil_node s (some 0) = Except.ok true := by
    simp [is_nil_node, h.load_nil, map_ok, h.isnil]
  simp only [ptr_nil] at e1
  simp [rotate_left, e1, e2, bind_ok, bind, Except.bind, pure, Except.pure]

theorem rotate_right_nil {s : set} {N : SetNode} {fs : List Frame} {i : Nat} {c : Color}
    {r : PTree} {v : Int} (h : Abs s (plug fs (node i c nil v r)) N) :
    rotate_right s (some i) = Except.ok s := by
  have e1 := h.left_focus
  have e2 : is_nil_node s (some 0) = Except.ok true := by
    simp [is_nil_node, h.load_nil, map_ok, h.isnil]
  simp only [ptr_nil] at e1
  simp [rotate_right, e1, e2, bind_ok, bind, Except.bind, pure, Except.pure]

theorem WInv.ne_zero {I : List Nat} {L : List Int} {s : set} (h : WInv I L s) {i : Nat}
    (hi : i ∈ I) : i ≠ 0 := by
  obtain ⟨T, N, hA, -, hI, -⟩ := h
  exact Rep.ids_ne_zero hA.rep i (hI.mem_iff.2 hi)

/-- A tree node whose parent link is a real node keeps one after the
sentinel's links or other nodes changed, as long as it is not the new root. -/
theorem hasPar_of_not_root {I : List Nat} {s : set} {T : PTree} {N : SetNode}
    (h : Abs s T N) (hI : T.ids.Perm I) {k : Nat} (hk : k ∈ I) (hr : s.m_root ≠ some k) :
    HasPar I s (some k) := by
  obtain ⟨n, h1, -, -, h2, -⟩ := h.node_info (hI.mem_iff.2 hk)
  rcases h2 with ⟨-, h2⟩ | ⟨j, hj, h2, -⟩
  · exact absurd h2 hr
  · exact ⟨j, hI.mem_iff.1 hj, by simp [parent, h1, map_ok, h2]⟩

theorem not_root_of_hasPar {I : List Nat} {s : set} {T : PTree} {N : SetNode}
    (h : Abs s T N) (hI : T.ids.Perm I) {k : Nat} (hk : k ∈ I) (hp : HasPar I s (some k)) :
    s.m_root ≠ some k := by
  obtain ⟨n, h1, -, -, h2, -⟩ := h.node_info (hI.mem_iff.2 hk)
  obtain ⟨j, hj, hp⟩ := hp
  rcases h2 with ⟨h2, -⟩ | ⟨_, _, _, h2⟩
  · simp [parent, h1, map_ok, h2, nil_node] at hp
    exact absurd hp.symm (Rep.ids_ne_zero h.rep j (hI.mem_iff.2 hj))
  · exact h2

theorem WInv.rotate_left {I : List Nat} {L : List Int} {s s' : set} {i : Nat}
    (h : WInv I L s) (hi : i ∈ I) (hs : custom.rotate_left s (some i) = Except.ok s') :
    WInv I L s' ∧ ∀ q, VP I q → HasPar I s q →
      (right_child s (some i) = Except.ok q → q = nil_node) → HasPar I s' q := by
  obtain ⟨T, N, hA, hN, hI, hL⟩ := h
  obtain ⟨fs, c, l, v, r, rfl⟩ := exists_focus T i (hI.mem_iff.2 hi)
  cases r with
  | nil =>
    rw [rotate_left_nil hA] at hs; cases hs
    exact ⟨⟨_, N, hA, hN, hI, hL⟩, fun q _ hq _ => hq⟩
  | node b cb rl vb rr =>
    obtain ⟨s'', N', w, hA', -, hN', hP', -, -⟩ := rotate_left_focus hA
    rw [w] at hs; cases hs
    have hI' : (plug fs (node b cb (node i c l v rl) vb rr)).ids.Perm I := by
      refine (ids_plug_congr fs ?_).trans hI
      simp only [PTree.ids, List.append_assoc, List.cons_append]
      exact List.Perm.refl _
    refine ⟨⟨_, N', hA', hN' hN, hI', ?_⟩, ?_⟩
    · rw [← hL]; refine toList_plug_congr fs ?_
      simp [PTree.toList, List.append_assoc]
    · intro q hq hp hpiv
      have hrc := hA.right_focus
      simp only [ptr_node] at hrc
      rcases hq with rfl | ⟨k, hk, rfl⟩
      · obtain ⟨j, hj, hp⟩ := hp
        simp only [parent, nil_node, hA.load_nil, map_ok, Except.ok.injEq] at hp
        rcases hP' with e | e
        · exact ⟨j, hj, by simp [parent, nil_node, hA'.load_nil, map_ok, e, hp]⟩
        · exact ⟨i, hi, by simp [parent, nil_node, hA'.load_nil, map_ok, e]⟩
      · have hkb : k ≠ b := by
          rintro rfl
          have := hpiv hrc
          simp only [nil_node, Option.some.injEq] at this
          exact hA'.focus_ne_zero this
        refine hasPar_of_not_root hA' hI' hk ?_
        have hr := not_root_of_hasPar hA hI hk hp
        cases fs with
        | nil => rw [hA'.root]; simpa [plug] using Ne.symm hkb
        | cons f fs =>
          rw [hA'.root, ← ptr_plug_cons f fs (node i c l v (node b cb rl vb rr)), ← hA.root]
          exact hr

theorem WInv.rotate_right {I : List Nat} {L : List Int} {s s' : set} {i : Nat}
    (h : WInv I L s) (hi : i ∈ I) (hs : custom.rotate_right s (some i) = Except.ok s') :
    WInv I L s' ∧ ∀ q, VP I q → HasPar I s q →
      (left_child s (some i) = Except.ok q → q = nil_node) → HasPar I s' q := by
  obtain ⟨T, N, hA, hN, hI, hL⟩ := h
  obtain ⟨fs, c, l, v, r, rfl⟩ := exists_focus T i (hI.mem_iff.2 hi)
  cases l with
  | nil =>
    rw [rotate_right_nil hA] at hs; cases hs
    exact ⟨⟨_, N, hA, hN, hI, hL⟩, fun q _ hq _ => hq⟩
  | node b cb ll vb lr =>
    obtain ⟨s'', N', w, hA', -, hN', hP', -, -⟩ := rotate_right_focus hA
    rw [w] at hs; cases hs
    have hI' : (plug fs (node b cb ll vb (node i c lr v r))).ids.Perm I := by
      refine (ids_plug_congr fs ?_).trans hI
      simp only [PTree.ids, List.append_assoc, List.cons_append]
      exact List.Perm.refl _
    refine ⟨⟨_, N', hA', hN' hN, hI', ?_⟩, ?_⟩
    · rw [← hL]; refine toList_plug_congr fs ?_
      simp [PTree.toList, List.append_assoc]
    · intro q hq hp hpiv
      have hrc := hA.left_focus
      simp only [ptr_node] at hrc
      rcases hq with rfl | ⟨k, hk, rfl⟩
      · obtain ⟨j, hj, hp⟩ := hp
        simp only [parent, nil_node, hA.load_nil, map_ok, Except.ok.injEq] at hp
        rcases hP' with e | e
        · exact ⟨j, hj, by simp [parent, nil_node, hA'.load_nil, map_ok, e, hp]⟩
        · exact ⟨i, hi, by simp [parent, nil_node, hA'.load_nil, map_ok, e]⟩
      · have hkb : k ≠ b := by
          rintro rfl
          have := hpiv hrc
          simp only [nil_node, Option.some.injEq] at this
          exact hA'.focus_ne_zero this
        refine hasPar_of_not_root hA' hI' hk ?_
        have hr := not_root_of_hasPar hA hI hk hp
        cases fs with
        | nil => rw [hA'.root]; simpa [plug] using Ne.symm hkb
        | cons f fs =>
          rw [hA'.root, ← ptr_plug_cons f fs (node i c (node b cb ll vb lr) v r), ← hA.root]
          exact hr

theorem bind_ok_inv {α β : Type} {x : Except Fault α} {f : α → Except Fault β} {b : β}
    (h : (x >>= f) = Except.ok b) : ∃ a, x = Except.ok a ∧ f a = Except.ok b := by
  cases x with
  | error e => cases h
  | ok a => exact ⟨a, rfl, h⟩

theorem pure_ok_inv {α : Type} {a b : α} (h : (pure a : Except Fault α) = Except.ok b) :
    a = b := by
  cases h; rfl

theorem HasPar.keep {I : List Nat} {s s' : set} {q a : node_pointer} {c : Color}
    (h : HasPar I s q) (hs : custom.set_color s a c = Except.ok s') : HasPar I s' q := by
  obtain ⟨j, hj, hp⟩ := h
  exact ⟨j, hj, by rw [((set_color_links hs).2 q).1]; exact hp⟩

theorem WInv.child_left {I : List Nat} {L : List Int} {s : set} (h : WInv I L s) {j : Nat}
    (hj : j ∈ I) {b : node_pointer} (hb : left_child s (some j) = Except.ok b) : VP I b := by
  obtain ⟨T, N, hA, -, hI, -⟩ := h
  obtain ⟨n, h1, -, -, -, h2, -, -⟩ := hA.node_info (hI.mem_iff.2 hj)
  simp only [left_child, h1, map_ok, Except.ok.injEq] at hb
  subst hb
  rcases h2 with h2 | ⟨k, hk, h2, -⟩
  · exact Or.inl h2
  · exact Or.inr ⟨k, hI.mem_iff.1 hk, h2⟩

theorem WInv.child_right {I : List Nat} {L : List Int} {s : set} (h : WInv I L s) {j : Nat}
    (hj : j ∈ I) {b : node_pointer} (hb : right_child s (some j) = Except.ok b) : VP I b := by
  obtain ⟨T, N, hA, -, hI, -⟩ := h
  obtain ⟨n, h1, -, -, -, -, h2, -⟩ := hA.node_info (hI.mem_iff.2 hj)
  simp only [right_child, h1, map_ok, Except.ok.injEq] at hb
  subst hb
  rcases h2 with h2 | ⟨k, hk, h2, -⟩
  · exact Or.inl h2
  · exact Or.inr ⟨k, hI.mem_iff.1 hk, h2⟩

theorem WInv.nil_left {I : List Nat} {L : List Int} {s : set} (h : WInv I L s)
    {x : node_pointer} (hx : left_child s nil_node = Except.ok x) : x = none := by
  obtain ⟨T, N, hA, hN, -, -⟩ := h
  simp only [left_child, nil_node, hA.load_nil, map_ok, Except.ok.injEq] at hx
  rw [← hx, hN]

theorem is_black_ne_none {s : set} {x : node_pointer} {b : Bool}
    (h : is_black s x = Except.ok b) : x ≠ none := by
  rintro rfl; simp [is_black, load, Except.map] at h

/-- A real node is not both children of its parent. -/
theorem WInv.children_ne {I : List Nat} {L : List Int} {s : set} (h : WInv I L s) {j : Nat}
    (hj : j ∈ I) {a : node_pointer} (hl : left_child s (some j) = Except.ok a)
    (hr : right_child s (some j) = Except.ok a) : a = nil_node := by
  obtain ⟨T, N, hA, -, hI, -⟩ := h
  obtain ⟨n, h1, -, -, -, -, -, h2⟩ := hA.node_info (hI.mem_iff.2 hj)
  simp only [left_child, right_child, h1, map_ok, Except.ok.injEq] at hl hr
  rw [← hl]; exact h2 (hl.trans hr.symm)

theorem WInv.parent_of_left {I : List Nat} {L : List Int} {s : set} (h : WInv I L s) {k : Nat}
    (hk : k ∈ I) {i : Nat} (hi : i ≠ 0) (hl : left_child s (some k) = Except.ok (some i)) :
    parent s (some i) = Except.ok (some k) := by
  obtain ⟨T, N, hA, -, hI, -⟩ := h
  obtain ⟨n, h1, -, -, -, h2, -, -⟩ := hA.node_info (hI.mem_iff.2 hk)
  simp only [left_child, h1, map_ok, Except.ok.injEq] at hl
  rcases h2 with h2 | ⟨k', -, h2, -, h3⟩
  · rw [hl] at h2; simp [nil_node] at h2; exact absurd h2 hi
  · rw [hl] at h2; cases h2; exact h3

theorem WInv.parent_of_right {I : List Nat} {L : List Int} {s : set} (h : WInv I L s) {k : Nat}
    (hk : k ∈ I) {i : Nat} (hi : i ≠ 0) (hl : right_child s (some k) = Except.ok (some i)) :
    parent s (some i) = Except.ok (some k) := by
  obtain ⟨T, N, hA, -, hI, -⟩ := h
  obtain ⟨n, h1, -, -, -, -, h2, -⟩ := hA.node_info (hI.mem_iff.2 hk)
  simp only [right_child, h1, map_ok, Except.ok.injEq] at hl
  rcases h2 with h2 | ⟨k', -, h2, -, h3⟩
  · rw [hl] at h2; simp [nil_node] at h2; exact absurd h2 hi
  · rw [hl] at h2; cases h2; exact h3

theorem WInv.left_ne_self {I : List Nat} {L : List Int} {s : set} (h : WInv I L s) {k : Nat}
    (hk : k ∈ I) : left_child s (some k) ≠ Except.ok (some k) := by
  intro hl
  obtain ⟨T, N, hA, -, hI, -⟩ := h
  obtain ⟨n, h1, -, h0, -, h2, -, -⟩ := hA.node_info (hI.mem_iff.2 hk)
  simp only [left_child, h1, map_ok, Except.ok.injEq] at hl
  rcases h2 with h2 | ⟨k', -, h2, h3, -⟩
  · rw [hl] at h2; simp [nil_node] at h2; exact h0 h2
  · rw [hl] at h2; cases h2; exact h3 rfl

theorem WInv.right_ne_self {I : List Nat} {L : List Int} {s : set} (h : WInv I L s) {k : Nat}
    (hk : k ∈ I) : right_child s (some k) ≠ Except.ok (some k) := by
  intro hl
  obtain ⟨T, N, hA, -, hI, -⟩ := h
  obtain ⟨n, h1, -, h0, -, -, h2, -⟩ := hA.node_info (hI.mem_iff.2 hk)
  simp only [right_child, h1, map_ok, Except.ok.injEq] at hl
  rcases h2 with h2 | ⟨k', -, h2, h3, -⟩
  · rw [hl] at h2; simp [nil_node] at h2; exact h0 h2
  · rw [hl] at h2; cases h2; exact h3 rfl

/-- The red-brother step of the left branch of `balance_after_delete`. -/
theorem del_left_red {I : List Nat} {L : List Int} {s s1 : set} {q brother b1 : node_pointer}
    {j : Nat} {bred : Bool}
    (hW : WInv I L s) (hq : VP I q) (hj : j ∈ I) (hp : parent s q = Except.ok (some j))
    (hl : left_child s (some j) = Except.ok q)
    (hb : right_child s (some j) = Except.ok brother)
    (h : (if bred then do
            let s ← set_color s brother Color.Black
            let p ← parent s q
            let s ← set_color s p Color.Red
            let p ← parent s q
            let s ← rotate_left s p
            let p ← parent s q
            let brother ← right_child s p
            pure (s, brother)
          else pure (s, brother)) = Except.ok (s1, b1)) :
    WInv I L s1 ∧ ∃ j1 ∈ I, parent s1 q = Except.ok (some j1) ∧
      right_child s1 (some j1) = Except.ok b1 := by
  cases bred with
  | false =>
    simp only [Bool.false_eq_true, if_false] at h
    cases pure_ok_inv h
    exact ⟨hW, j, hj, hp, hb⟩
  | true =>
    simp only [if_true] at h
    obtain ⟨s2, w2, h⟩ := bind_ok_inv h
    obtain ⟨p2, e2, h⟩ := bind_ok_inv h
    obtain ⟨s3, w3, h⟩ := bind_ok_inv h
    obtain ⟨p3, e3, h⟩ := bind_ok_inv h
    obtain ⟨s4, w4, h⟩ := bind_ok_inv h
    obtain ⟨p4, e4, h⟩ := bind_ok_inv h
    obtain ⟨b4, e5, h⟩ := bind_ok_inv h
    cases pure_ok_inv h
    have l2 := set_color_links w2
    have l3 := set_color_links w3
    have W2 := hW.set_color w2
    have W3 := W2.set_color w3
    rw [(l3.2 q).1, (l2.2 q).1, hp] at e3
    cases e3
    have hP3 : HasPar I s3 q := ⟨j, hj, by rw [(l3.2 q).1, (l2.2 q).1]; exact hp⟩
    have hl3 : left_child s3 (some j) = Except.ok q := by
      rw [(l3.2 _).2.1, (l2.2 _).2.1]; exact hl
    obtain ⟨W4, hP4⟩ := W3.rotate_left hj w4
    obtain ⟨j4, hj4, hp4⟩ := hP4 q hq hP3 (fun hr => W3.children_ne hj hl3 hr)
    rw [hp4] at e4; cases e4
    exact ⟨W4, j4, hj4, hp4, e5⟩

/-- The near-nephew step of the left branch of `balance_after_delete`. -/
theorem del_left_near {I : List Nat} {L : List Int} {s s1 : set} {q b1 : node_pointer}
    {j k : Nat} {brb : Bool}
    (hW : WInv I L s) (hq : VP I q) (hj : j ∈ I) (hk : k ∈ I)
    (hp : parent s q = Except.ok (some j))
    (hb : right_child s (some j) = Except.ok (some k))
    (h : (if brb then do
            let bl ← left_child s (some k)
            let s ← set_color s bl Color.Black
            let s ← set_color s (some k) Color.Red
            let s ← rotate_right s (some k)
            let p ← parent s q
            let brother ← right_child s p
            pure (s, brother)
          else pure (s, some k)) = Except.ok (s1, b1)) :
    WInv I L s1 ∧ HasPar I s1 q := by
  cases brb with
  | false =>
    simp only [Bool.false_eq_true, if_false] at h
    cases pure_ok_inv h
    exact ⟨hW, j, hj, hp⟩
  | true =>
    simp only [if_true] at h
    obtain ⟨bl, e1, h⟩ := bind_ok_inv h
    obtain ⟨s2, w2, h⟩ := bind_ok_inv h
    obtain ⟨s3, w3, h⟩ := bind_ok_inv h
    obtain ⟨s4, w4, h⟩ := bind_ok_inv h
    obtain ⟨p4, e4, h⟩ := bind_ok_inv h
    obtain ⟨b4, e5, h⟩ := bind_ok_inv h
    cases pure_ok_inv h
    have l2 := set_color_links w2
    have l3 := set_color_links w3
    have W2 := hW.set_color w2
    have W3 := W2.set_color w3
    have hp3 : parent s3 q = Except.ok (some j) := by rw [(l3.2 q).1, (l2.2 q).1]; exact hp
    have hb3 : right_child s3 (some j) = Except.ok (some k) := by
      rw [(l3.2 _).2.2, (l2.2 _).2.2]; exact hb
    obtain ⟨W4, hP4⟩ := W3.rotate_right hk w4
    refine ⟨W4, hP4 q hq ⟨j, hj, hp3⟩ (fun hl => ?_)⟩
    rcases hq with rfl | ⟨i, hi, rfl⟩
    · rfl
    · exfalso
      have := W3.parent_of_left hk (W3.ne_zero hi) hl
      rw [hp3] at this
      simp only [Except.ok.injEq, Option.some.injEq] at this
      subst this
      exact W3.right_ne_self hj hb3

/-- The closing recolouring and rotation of the left branch. -/
theorem del_left_final {I : List Nat} {L : List Int} {s s' : set} {q brother q' : node_pointer}
    (hW : WInv I L s) (hP : HasPar I s q)
    (h : (do
            let p ← parent s q
            let pc ← color s p
            let s ← set_color s brother pc
            let p ← parent s q
            let s ← set_color s p Color.Black
            let br ← right_child s brother
            let s ← set_color s br Color.Black
            let p ← parent s q
            let s ← rotate_left s p
            pure (s, s.m_root)) = Except.ok (s', q')) :
    WInv I L s' ∧ q' = s'.m_root := by
  obtain ⟨p1, e1, h⟩ := bind_ok_inv h
  obtain ⟨pc, e2, h⟩ := bind_ok_inv h
  obtain ⟨s2, w2, h⟩ := bind_ok_inv h
  obtain ⟨p2, e3, h⟩ := bind_ok_inv h
  obtain ⟨s3, w3, h⟩ := bind_ok_inv h
  obtain ⟨br, e4, h⟩ := bind_ok_inv h
  obtain ⟨s4, w4, h⟩ := bind_ok_inv h
  obtain ⟨p4, e5, h⟩ := bind_ok_inv h
  obtain ⟨s5, w5, h⟩ := bind_ok_inv h
  cases pure_ok_inv h
  have W4 := ((hW.set_color w2).set_color w3).set_color w4
  obtain ⟨j, hj, hp4⟩ := ((hP.keep w2).keep w3).keep w4
  rw [hp4] at e5; cases e5
  exact ⟨(W4.rotate_left hj w5).1, rfl⟩

theorem is_left_child_inv {s : set} {q : node_pointer} {b : Bool}
    (h : is_left_child s q = Except.ok b) :
    ∃ p, parent s q = Except.ok p ∧ (p = none ∧ b = false ∨
      p ≠ none ∧ ∃ l, left_child s p = Except.ok l ∧ b = decide (l = q)) := by
  obtain ⟨p, e1, h⟩ := bind_ok_inv h
  refine ⟨p, e1, ?_⟩
  by_cases hp : p = none
  · simp only [hp, if_true] at h
    exact Or.inl ⟨hp, (pure_ok_inv h).symm⟩
  · simp only [hp, if_false] at h
    obtain ⟨l, e2, h⟩ := bind_ok_inv h
    exact Or.inr ⟨hp, l, e2, (pure_ok_inv h).symm⟩

theorem delete_left_weak {I : List Nat} {L : List Int} {s s' : set} {q q' : node_pointer}
    (hW : WInv I L s) (hq : VP I q) (hP : HasPar I s q)
    (hil : is_left_child s q = Except.ok true)
    (h : balance_after_delete_left s q = Except.ok (s', q')) :
    WInv I L s' ∧ (q' = s'.m_root ∨ ∃ k ∈ I, q' = some k) := by
  obtain ⟨j, hj, hp⟩ := hP
  have hl : left_child s (some j) = Except.ok q := by
    obtain ⟨p, e1, e2⟩ := is_left_child_inv hil
    rw [hp] at e1; cases e1
    rcases e2 with ⟨e2, -⟩ | ⟨-, l, e2, e3⟩
    · cases e2
    · have := of_decide_eq_true e3.symm
      rw [← this]; exact e2
  unfold balance_after_delete_left at h
  obtain ⟨p0, e0, h⟩ := bind_ok_inv h
  rw [hp] at e0; cases e0
  obtain ⟨brother, hb, h⟩ := bind_ok_inv h
  obtain ⟨bred, -, h⟩ := bind_ok_inv h
  obtain ⟨⟨s1, b1⟩, h1, h⟩ := bind_ok_inv h
  obtain ⟨W1, j1, hj1, hp1, hb1⟩ := del_left_red hW hq hj hp hl hb h1
  simp only [] at h
  obtain ⟨bl, e2, h⟩ := bind_ok_inv h
  obtain ⟨blb, e3, h⟩ := bind_ok_inv h
  have hk : ∃ k ∈ I, b1 = some k := by
    rcases W1.child_right hj1 hb1 with rfl | hk
    · exact absurd (W1.nil_left e2) (is_black_ne_none e3)
    · exact hk
  obtain ⟨k, hk, rfl⟩ := hk
  obtain ⟨both, -, h⟩ := bind_ok_inv h
  cases both with
  | true =>
    simp only [if_true] at h
    obtain ⟨s2, w2, h⟩ := bind_ok_inv h
    obtain ⟨p2, e4, h⟩ := bind_ok_inv h
    cases pure_ok_inv h
    rw [((set_color_links w2).2 q).1, hp1] at e4
    cases e4
    exact ⟨W1.set_color w2, Or.inr ⟨j1, hj1, rfl⟩⟩
  | false =>
    simp only [Bool.false_eq_true, if_false] at h
    obtain ⟨br, e4, h⟩ := bind_ok_inv h
    obtain ⟨brb, e5, h⟩ := bind_ok_inv h
    obtain ⟨⟨s2, b2⟩, h2, h⟩ := bind_ok_inv h
    obtain ⟨W2, hP2⟩ := del_left_near W1 hq hj1 hk hp1 hb1 h2
    simp only [] at h
    obtain ⟨W3, e⟩ := del_left_final W2 hP2 h
    exact ⟨W3, Or.inl e⟩

/-- The red-brother step of the right branch of `balance_after_delete`. -/
theorem del_right_red {I : List Nat} {L : List Int} {s s1 : set} {q brother b1 : node_pointer}
    {j : Nat} {bred : Bool}
    (hW : WInv I L s) (hq : VP I q) (hj : j ∈ I) (hp : parent s q = Except.ok (some j))
    (hl : left_child s (some j) ≠ Except.ok q)
    (hb : left_child s (some j) = Except.ok brother)
    (h : (if bred then do
            let s ← set_color s brother Color.Black
            let p ← parent s q
            let s ← set_color s p Color.Red
            let p ← parent s q
            let s ← rotate_right s p
            let p ← parent s q
            let brother ← left_child s p
            pure (s, brother)
          else pure (s, brother)) = Except.ok (s1, b1)) :
    WInv I L s1 ∧ ∃ j1 ∈ I, parent s1 q = Except.ok (some j1) ∧
      left_child s1 (some j1) = Except.ok b1 := by
  cases bred with
  | false =>
    simp only [Bool.false_eq_true, if_false] at h
    cases pure_ok_inv h
    exact ⟨hW, j, hj, hp, hb⟩
  | true =>
    simp only [if_true] at h
    obtain ⟨s2, w2, h⟩ := bind_ok_inv h
    obtain ⟨p2, e2, h⟩ := bind_ok_inv h
    obtain ⟨s3, w3, h⟩ := bind_ok_inv h
    obtain ⟨p3, e3, h⟩ := bind_ok_inv h
    obtain ⟨s4, w4, h⟩ := bind_ok_inv h
    obtain ⟨p4, e4, h⟩ := bind_ok_inv h
    obtain ⟨b4, e5, h⟩ := bind_ok_inv h
    cases pure_ok_inv h
    have l2 := set_color_links w2
    have l3 := set_color_links w3
    have W2 := hW.set_color w2
    have W3 := W2.set_color w3
    rw [(l3.2 q).1, (l2.2 q).1, hp] at e3
    cases e3
    have hP3 : HasPar I s3 q := ⟨j, hj, by rw [(l3.2 q).1, (l2.2 q).1]; exact hp⟩
    have hl3 : left_child s3 (some j) ≠ Except.ok q := by
      rw [(l3.2 _).2.1, (l2.2 _).2.1]; exact hl
    obtain ⟨W4, hP4⟩ := W3.rotate_right hj w4
    obtain ⟨j4, hj4, hp4⟩ := hP4 q hq hP3 (fun hr => absurd hr hl3)
    rw [hp4] at e4; cases e4
    exact ⟨W4, j4, hj4, hp4, e5⟩

/-- The near-nephew step of the right branch of `balance_after_delete`. -/
theorem del_right_near {I : List Nat} {L : List Int} {s s1 : set} {q b1 : node_pointer}
    {j k : Nat} {blb : Bool}
    (hW : WInv I L s) (hq : VP I q) (hj : j ∈ I) (hk : k ∈ I)
    (hp : parent s q = Except.ok (some j))
    (hb : left_child s (some j) = Except.ok (some k))
    (h : (if blb then do
            let br ← right_child s (some k)
            let s ← set_color s br Color.Black
            let s ← set_color s (some k) Color.Red
            let s ← rotate_left s (some k)
            let p ← parent s q
            let brother ← left_child s p
            pure (s, brother)
          else pure (s, some k)) = Except.ok (s1, b1)) :
    WInv I L s1 ∧ HasPar I s1 q := by
  cases blb with
  | false =>
    simp only [Bool.false_eq_true, if_false] at h
    cases pure_ok_inv h
    exact ⟨hW, j, hj, hp⟩
  | true =>
    simp only [if_true] at h
    obtain ⟨bl, e1, h⟩ := bind_ok_inv h
    obtain ⟨s2, w2, h⟩ := bind_ok_inv h
    obtain ⟨s3, w3, h⟩ := bind_ok_inv h
    obtain ⟨s4, w4, h⟩ := bind_ok_inv h
    obtain ⟨p4, e4, h⟩ := bind_ok_inv h
    obtain ⟨b4, e5, h⟩ := bind_ok_inv h
    cases pure_ok_inv h
    have l2 := set_color_links w2
    have l3 := set_color_links w3
    have W2 := hW.set_color w2
    have W3 := W2.set_color w3
    have hp3 : parent s3 q = Except.ok (some j) := by rw [(l3.2 q).1, (l2.2 q).1]; exact hp
    have hb3 : left_child s3 (some j) = Except.ok (some k) := by
      rw [(l3.2 _).2.1, (l2.2 _).2.1]; exact hb
    obtain ⟨W4, hP4⟩ := W3.rotate_left hk w4
    refine ⟨W4, hP4 q hq ⟨j, hj, hp3⟩ (fun hl => ?_)⟩
    rcases hq with rfl | ⟨i, hi, rfl⟩
    · rfl
    · exfalso
      have := W3.parent_of_right hk (W3.ne_zero hi) hl
      rw [hp3] at this
      simp only [Except.ok.injEq, Option.some.injEq] at this
      subst this
      exact W3.left_ne_self hj hb3

/-- The closing recolouring and rotation of the right branch. -/
theorem del_right_final {I : List Nat} {L : List Int} {s s' : set} {q brother q' : node_pointer}
    (hW : WInv I L s) (hP : HasPar I s q)
    (h : (do
            let p ← parent s q
            let pc ← color s p
            let s ← set_color s brother pc
            let p ← parent s q
            let s ← set_color s p Color.Black
            let bl ← left_child s brother
            let s ← set_color s bl Color.Black
            let p ← parent s q
            let s ← rotate_right s p
            pure (s, s.m_root)) = Except.ok (s', q')) :
    WInv I L s' ∧ q' = s'.m_root := by
  obtain ⟨p1, e1, h⟩ := bind_ok_inv h
  obtain ⟨pc, e2, h⟩ := bind_ok_inv h
  obtain ⟨s2, w2, h⟩ := bind_ok_inv h
  obtain ⟨p2, e3, h⟩ := bind_ok_inv h
  obtain ⟨s3, w3, h⟩ := bind_ok_inv h
  obtain ⟨br, e4, h⟩ := bind_ok_inv h
  obtain ⟨s4, w4, h⟩ := bind_ok_inv h
  obtain ⟨p4, e5, h⟩ := bind_ok_inv h
  obtain ⟨s5, w5, h⟩ := bind_ok_inv h
  cases pure_ok_inv h
  have W4 := ((hW.set_color w2).set_color w3).set_color w4
  obtain ⟨j, hj, hp4⟩ := ((hP.keep w2).keep w3).keep w4
  rw [hp4] at e5; cases e5
  exact ⟨(W4.rotate_right hj w5).1, rfl⟩

theorem delete_right_weak {I : List Nat} {L : List Int} {s s' : set} {q q' : node_pointer}
    (hW : WInv I L s) (hq : VP I q) (hP : HasPar I s q)
    (hil : is_left_child s q = Except.ok false)
    (h : balance_after_delete_right s q = Except.ok (s', q')) :
    WInv I L s' ∧ (q' = s'.m_root ∨ ∃ k ∈ I, q' = some k) := by
  obtain ⟨j, hj, hp⟩ := hP
  have hl : left_child s (some j) ≠ Except.ok q := by
    intro hl
    obtain ⟨p, e1, e2⟩ := is_left_child_inv hil
    rw [hp] at e1; cases e1
    rcases e2 with ⟨e2, -⟩ | ⟨-, l, e2, e3⟩
    · cases e2
    · rw [hl] at e2; cases e2
      simp at e3
  unfold balance_after_delete_right at h
  obtain ⟨p0, e0, h⟩ := bind_ok_inv h
  rw [hp] at e0; cases e0
  obtain ⟨brother, hb, h⟩ := bind_ok_inv h
  obtain ⟨bred, -, h⟩ := bind_ok_inv h
  obtain ⟨⟨s1, b1⟩, h1, h⟩ := bind_ok_inv h
  obtain ⟨W1, j1, hj1, hp1, hb1⟩ := del_right_red hW hq hj hp hl hb h1
  simp only [] at h
  obtain ⟨bl, e2, h⟩ := bind_ok_inv h
  obtain ⟨blb, e3, h⟩ := bind_ok_inv h
  have hk : ∃ k ∈ I, b1 = some k := by
    rcases W1.child_left hj1 hb1 with rfl | hk
    · exact absurd (W1.nil_left e2) (is_black_ne_none e3)
    · exact hk
  obtain ⟨k, hk, rfl⟩ := hk
  obtain ⟨both, -, h⟩ := bind_ok_inv h
  cases both with
  | true =>
    simp only [if_true] at h
    obtain ⟨s2, w2, h⟩ := bind_ok_inv h
    obtain ⟨p2, e4, h⟩ := bind_ok_inv h
    cases pure_ok_inv h
    rw [((set_color_links w2).2 q).1, hp1] at e4
    cases e4
    exact ⟨W1.set_color w2, Or.inr ⟨j1, hj1, rfl⟩⟩
  | false =>
    simp only [Bool.false_eq_true, if_false] at h
    obtain ⟨bl', e4, h⟩ := bind_ok_inv h
    obtain ⟨blb', e5, h⟩ := bind_ok_inv h
    obtain ⟨⟨s2, b2⟩, h2, h⟩ := bind_ok_inv h
    obtain ⟨W2, hP2⟩ := del_right_near W1 hq hj1 hk hp1 hb1 h2
    simp only [] at h
    obtain ⟨W3, e⟩ := del_right_final W2 hP2 h
    exact ⟨W3, Or.inl e⟩

theorem delete_loop_weak {I : List Nat} {L : List Int} : ∀ (fuel : Nat) (s : set)
    (q : node_pointer) (s' : set), WInv I L s →
    (is_root s q = false → VP I q ∧ HasPar I s q) →
    balance_after_delete_loop fuel s q = Except.ok s' → WInv I L s' := by
  intro fuel
  induction fuel with
  | zero => intro s q s' _ _ h; simp [balance_after_delete_loop] at h
  | succ fuel ih =>
    intro s q s' hW hq h
    unfold balance_after_delete_loop at h
    by_cases hr : is_root s q = true
    · simp only [hr, if_true] at h
      cases pure_ok_inv h
      exact hW
    · simp only [hr, Bool.false_eq_true, if_false] at h
      obtain ⟨hq1, hq2⟩ := hq (by simpa using hr)
      obtain ⟨nb, -, h⟩ := bind_ok_inv h
      cases nb with
      | false =>
        simp only [Bool.false_eq_true, if_false] at h
        cases pure_ok_inv h
        exact hW
      | true =>
        simp only [if_true] at h
        obtain ⟨il, hil, h⟩ := bind_ok_inv h
        obtain ⟨⟨s1, q1⟩, h1, h⟩ := bind_ok_inv h
        simp only [] at h
        have key : WInv I L s1 ∧ (q1 = s1.m_root ∨ ∃ k ∈ I, q1 = some k) := by
          cases il with
          | true =>
            simp only [if_true] at h1
            exact delete_left_weak hW hq1 hq2 hil h1
          | false =>
            simp only [Bool.false_eq_true, if_false] at h1
            exact delete_right_weak hW hq1 hq2 hil h1
        refine ih s1 q1 s' key.1 (fun hnr => ?_) h
        rcases key.2 with e | ⟨k, hk, rfl⟩
        · simp [is_root, e] at hnr
        · obtain ⟨T, N, hA, -, hI, -⟩ := key.1
          exact ⟨Or.inr ⟨k, hk, rfl⟩, hasPar_of_not_root hA hI hk
            (by simpa [is_root, eq_comm] using hnr)⟩

theorem WInv.blacken_root {I : List Nat} {L : List Int} {s s' : set} (h : WInv I L s)
    (hs : custom.set_color s s.m_root Color.Black = Except.ok s') : RInv I L s' := by
  obtain ⟨T, N, hA, hN, hI, hL⟩ := h
  have hA' : Abs s (plug [] T) N := hA
  obtain ⟨s'', N', w, h', hN', -⟩ := hA'.set_color_sub Color.Black
  rw [← hA.root, hs] at w
  cases w
  refine ⟨_, N', h', ?_, ?_, ?_, rootColor_setRootCol_black T⟩
  · rw [hN']; split <;> exact hN
  · cases T <;> exact hI
  · rw [← hL]; exact toList_setRootCol _ _

theorem balance_after_delete_weak {I : List Nat} {L : List Int} {fuel : Nat} {s s' : set}
    {q : node_pointer} (hW : WInv I L s) (hq : is_root s q = false → VP I q ∧ HasPar I s q)
    (h : balance_after_delete fuel s q = Except.ok s') : RInv I L s' := by
  unfold balance_after_delete at h
  obtain ⟨s1, h1, h⟩ := bind_ok_inv h
  exact (delete_loop_weak fuel s q s1 hW hq h1).blacken_root h

/-- Splice the node `m` out of its slot below the frame `f`, putting the
subtree `t'` (a sentinel link or the right subtree of `m`) there. -/
theorem splice_spec {s : set} {N : SetNode} {f : Frame} {fs : List Frame} {m : Nat}
    {mc : Color} {ml mr t' : PTree} {mv : Int}
    (h : Abs s (plug (f :: fs) (node m mc ml mv mr)) N)
    (hrep' : Rep s.store t' (some m)) (hsub : ∀ k ∈ t'.ids, k ∈ mr.ids) (hnd' : t'.ids.Nodup) :
    ∃ s1 s2 N', set_parent s t'.ptr (some f.id) = Except.ok s1 ∧
      s1.m_root = s.m_root ∧ slot s1.store m = slot s.store m ∧
      slot s1.store f.id = slot s.store f.id ∧
      (if f.isL then set_left_child s1 (some f.id) t'.ptr
        else set_right_child s1 (some f.id) t'.ptr) = Except.ok s2 ∧
      Abs s2 (plug (f :: fs) t') N' ∧ N'.m_left_child = N.m_left_child ∧
      (t'.isNil = true → N'.m_parent = some f.id) ∧ slot s2.store m = slot s.store m := by
  have hm0 := h.focus_ne_zero
  obtain ⟨hrep, hroot, hnd, hnil, hisnil⟩ := h
  have hroot' : s.m_root = (plug (f :: fs) t').ptr := hroot.trans (ptr_plug_cons _ _ _ _)
  rw [Rep_plug] at hrep
  obtain ⟨hctx, -, hms, -, hmr⟩ := hrep
  rw [nodup_plug'] at hnd
  obtain ⟨hnd1, hnd2, hnd3⟩ := hnd
  simp only [PTree.ids, List.nodup_append, List.nodup_cons, List.mem_append, List.mem_cons,
    List.disjoint_cons_right, forall_eq_or_imp, or_imp, forall_and, forall_eq, not_or] at hnd1 hnd3
  have hmf : m ≠ f.id := fun e => hnd3.2.1 (by simp [ctxIds, Frame.ids, e])
  have hf0 : f.id ≠ 0 := RepCtx.ctx_ne_zero hctx _ (by simp [ctxIds, Frame.ids])
  have h0l := slot_lt hnil
  have hnd'' : (plug (f :: fs) t').ids.Nodup := by
    rw [nodup_plug']
    exact ⟨hnd', hnd2, fun i hi => hnd3.2.2 i (hsub i hi)⟩
  have hctxz := fun i hi => RepCtx.ctx_ne_zero hctx i hi
  cases f with
  | L g cg vg sib =>
    have hG := hctx.2.1
    have hGl := slot_lt hG
    simp only [Frame.id] at hmf hf0 ⊢
    cases t' with
    | nil =>
      simp [set_parent, set_left_child, modify_eq, hnil, hG, Frame.isL, slot_set_ne, slot_set_self,
        hf0, Ne.symm hf0, hm0, hmf, h0l, hGl, nil_node]
      refine ⟨{ N with m_parent := some g }, ⟨Rep_plug.2 ⟨?_, trivial⟩, hroot', hnd'', ?_, hisnil⟩, rfl, fun _ => rfl⟩
      · refine RepCtx.relink hctx hnd2 (fun f' rest e => ?_) (fun i hi hne => ?_)
        · cases e
          simp [Frame.id, slot_set_self, slot_set_ne, hGl, hG]
        · have h2 : i ≠ g := by simpa [ctxPar, Frame.id] using hne
          simp [slot_set_ne, hctxz i hi, h2]
      · simp [slot_set_self, slot_set_ne, h0l, Ne.symm hf0]
    | node k kc kl kv kr =>
      have hk : k ∈ mr.ids := hsub k (by simp [PTree.ids])
      have hk0 : k ≠ 0 := hrep'.1
      have hkm : k ≠ m := fun e => hnd1.2.1.1 (e ▸ hk)
      have hkf : k ≠ g := fun e => hnd3.2.2 k hk (by simp [ctxIds, Frame.ids, Frame.id, e])
      have hK := hrep'.2.1
      have hKl := slot_lt hK
      simp [set_parent, set_left_child, modify_eq, hnil, hG, hK, Frame.isL, slot_set_ne,
        slot_set_self, hf0, Ne.symm hf0, hm0, hmf, h0l, hGl, hKl, hkf, Ne.symm hkf, hkm,
        Ne.symm hkm, PTree.isNil]
      refine ⟨N, ⟨Rep_plug.2 ⟨?_, ?_⟩, hroot', hnd'', ?_, hisnil⟩, rfl⟩
      · refine RepCtx.relink hctx hnd2 (fun f' rest e => ?_) (fun i hi hne => ?_)
        · cases e
          simp [Frame.id, slot_set_self, slot_set_ne, hGl, hG]
        · have h2 : i ≠ g := by simpa [ctxPar, Frame.id] using hne
          have h3 : i ≠ k := by rintro rfl; exact hnd3.2.2 _ hk hi
          simp [slot_set_ne, h3, h2]
      · refine Rep.reparent hrep' hnd' (fun i hi _ => ?_) (fun i hi hne => ?_)
        · simp only [ptr_node, Option.some.injEq] at hi; subst hi
          simp [slot_set_self, slot_set_ne, hKl, hK, hkf, ctxPar, Frame.id]
        · have h2 : i ≠ k := by simpa using hne
          have h3 : i ≠ g := by
            rintro rfl; exact hnd3.2.2 _ (hsub _ hi) (by simp [ctxIds, Frame.ids, Frame.id])
          simp [slot_set_ne, h2, h3]
      · simp [slot_set_ne, Ne.symm hf0, Ne.symm hk0, hnil]
  | R g cg sib vg =>
    have hG := hctx.2.1
    have hGl := slot_lt hG
    simp only [Frame.id] at hmf hf0 ⊢
    cases t' with
    | nil =>
      simp [set_parent, set_right_child, modify_eq, hnil, hG, Frame.isL, slot_set_ne, slot_set_self,
        hf0, Ne.symm hf0, hm0, hmf, h0l, hGl, nil_node]
      refine ⟨{ N with m_parent := some g }, ⟨Rep_plug.2 ⟨?_, trivial⟩, hroot', hnd'', ?_, hisnil⟩, rfl, fun _ => rfl⟩
      · refine RepCtx.relink hctx hnd2 (fun f' rest e => ?_) (fun i hi hne => ?_)
        · cases e
          simp [Frame.id, slot_set_self, slot_set_ne, hGl, hG]
        · have h2 : i ≠ g := by simpa [ctxPar, Frame.id] using hne
          simp [slot_set_ne, hctxz i hi, h2]
      · simp [slot_set_self, slot_set_ne, h0l, Ne.symm hf0]
    | node k kc kl kv kr =>
      have hk : k ∈ mr.ids := hsub k (by simp [PTree.ids])
      have hk0 : k ≠ 0 := hrep'.1
      have hkm : k ≠ m := fun e => hnd1.2.1.1 (e ▸ hk)
      have hkf : k ≠ g := fun e => hnd3.2.2 k hk (by simp [ctxIds, Frame.ids, Frame.id, e])
      have hK := hrep'.2.1
      have hKl := slot_lt hK
      simp [set_parent, set_right_child, modify_eq, hnil, hG, hK, Frame.isL, slot_set_ne,
        slot_set_self, hf0, Ne.symm hf0, hm0, hmf, h0l, hGl, hKl, hkf, Ne.symm hkf, hkm,
        Ne.symm hkm, PTree.isNil]
      refine ⟨N, ⟨Rep_plug.2 ⟨?_, ?_⟩, hroot', hnd'', ?_, hisnil⟩, rfl⟩
      · refine RepCtx.relink hctx hnd2 (fun f' rest e => ?_) (fun i hi hne => ?_)
        · cases e
          simp [Frame.id, slot_set_self, slot_set_ne, hGl, hG]
        · have h2 : i ≠ g := by simpa [ctxPar, Frame.id] using hne
          have h3 : i ≠ k := by rintro rfl; exact hnd3.2.2 _ hk hi
          simp [slot_set_ne, h3, h2]
      · refine Rep.reparent hrep' hnd' (fun i hi _ => ?_) (fun i hi hne => ?_)
        · simp only [ptr_node, Option.some.injEq] at hi; subst hi
          simp [slot_set_self, slot_set_ne, hKl, hK, hkf, ctxPar, Frame.id]
        · have h2 : i ≠ k := by simpa using hne
          have h3 : i ≠ g := by
            rintro rfl; exact hnd3.2.2 _ (hsub _ hi) (by simp [ctxIds, Frame.ids, Frame.id])
          simp [slot_set_ne, h2, h3]
      · simp [slot_set_ne, Ne.symm hf0, Ne.symm hk0, hnil]

theorem rootColor_plug_congr (nc : Color) : ∀ (fs : List Frame) (t1 t2 : PTree),
    t1.rootColor nc = t2.rootColor nc → (plug fs t1).rootColor nc = (plug fs t2).rootColor nc
  | [], _, _, h => h
  | f :: fs, t1, t2, _ => by
    show (plug fs (f.fill t1)).rootColor nc = (plug fs (f.fill t2)).rootColor nc
    exact rootColor_plug_congr nc fs _ _ (by cases f <;> rfl)

theorem ctxLeft_append : ∀ (fs gs : List Frame), ctxLeft (fs ++ gs) = ctxLeft gs ++ ctxLeft fs
  | [], gs => by simp [ctxLeft]
  | Frame.L _ _ _ _ :: fs, gs => by simp [ctxLeft, ctxLeft_append fs gs]
  | Frame.R _ _ _ _ :: fs, gs => by simp [ctxLeft, ctxLeft_append fs gs]

theorem ctxLeft_allL : ∀ (fs : List Frame), (∀ f ∈ fs, f.isL = true) → ctxLeft fs = []
  | [], _ => rfl
  | Frame.L _ _ _ _ :: fs, h => by
    simp only [ctxLeft]
    exact ctxLeft_allL fs (fun f hf => h f (List.mem_cons_of_mem _ hf))
  | Frame.R _ _ _ _ :: fs, h => by
    have := h _ (List.mem_cons_self _ _)
    simp [Frame.isL] at this

/-- The loop of `_btree_left_most` stops at the end of the left spine. -/
theorem left_most_loop_inv : ∀ (fuel : Nat) (acc : List Frame) (s : set) (N : SetNode) (i : Nat)
    (c : Color) (l : PTree) (v : Int) (r : PTree) (q : node_pointer),
    Abs s (plug acc (node i c l v r)) N →
    _btree_left_most_loop fuel s (some i) = Except.ok q →
    ∃ fsm m mc mv mr, q = some m ∧ node i c l v r = plug fsm (node m mc nil mv mr) ∧
      ∀ f ∈ fsm, f.isL = true
  | 0, _, _, _, _, _, _, _, _, _, _, h => by simp [_btree_left_most_loop] at h
  | fuel + 1, acc, s, N, i, c, l, v, r, q, hA, h => by
    have hA' : Abs s (plug (Frame.L i c v r :: acc) l) N := hA
    simp only [_btree_left_most_loop, hA.left_focus, hA'.is_nil_sub, bind_ok] at h
    cases l with
    | nil =>
      simp only [PTree.isNil, if_true] at h
      cases h
      exact ⟨[], i, c, v, r, rfl, rfl, by simp⟩
    | node k kc kl kv kr =>
      simp only [PTree.isNil, Bool.false_eq_true, if_false, ptr_node] at h
      obtain ⟨fsm, m, mc, mv, mr, hq, he, hL⟩ :=
        left_most_loop_inv fuel (Frame.L i c v r :: acc) s N k kc kl kv kr q hA' h
      refine ⟨fsm ++ [Frame.L i c v r], m, mc, mv, mr, hq, ?_, ?_⟩
      · rw [plug_append, ← he]; rfl
      · intro f hf
        rcases List.mem_append.1 hf with hf | hf
        · exact hL f hf
        · simp only [List.mem_singleton] at hf; subst hf; rfl

/-- Overwrite the link under which a subtree hangs with the sentinel. -/
theorem detach_spec {s : set} {N : SetNode} {f : Frame} {fs : List Frame} {t : PTree}
    (h : Abs s (plug (f :: fs) t) N) :
    ∃ s', (if f.isL then set_left_child s (some f.id) nil_node
        else set_right_child s (some f.id) nil_node) = Except.ok s' ∧
      Abs s' (plug (f :: fs) nil) N := by
  obtain ⟨hrep, hroot, hnd, hnil, hisnil⟩ := h
  have hroot' : s.m_root = (plug (f :: fs) nil).ptr :=
    hroot.trans (ptr_plug_cons _ _ _ _)
  rw [Rep_plug] at hrep
  obtain ⟨hctx, -⟩ := hrep
  rw [nodup_plug'] at hnd
  obtain ⟨-, hnd2, -⟩ := hnd
  have hf0 : f.id ≠ 0 := RepCtx.ctx_ne_zero hctx _ (by simp [ctxIds, Frame.ids])
  have hnd'' : (plug (f :: fs) nil).ids.Nodup := by
    rw [nodup_plug']
    exact ⟨by simp [PTree.ids], hnd2, fun i hi => by simp [PTree.ids] at hi⟩
  cases f with
  | L g cg vg sib =>
    have hG := hctx.2.1
    have hGl := slot_lt hG
    simp only [Frame.id] at hf0 ⊢
    simp [set_left_child, modify_eq, hG, Frame.isL]
    refine ⟨Rep_plug.2 ⟨?_, trivial⟩, hroot', hnd'', ?_, hisnil⟩
    · refine RepCtx.relink hctx hnd2 (fun f' rest e => ?_) (fun i hi hne => ?_)
      · cases e
        simp [Frame.id, slot_set_self, hGl, hG, nil_node]
      · have h2 : i ≠ g := by simpa [ctxPar, Frame.id] using hne
        simp [slot_set_ne, h2]
    · simp [slot_set_ne, Ne.symm hf0, hnil]
  | R g cg sib vg =>
    have hG := hctx.2.1
    have hGl := slot_lt hG
    simp only [Frame.id] at hf0 ⊢
    simp [set_right_child, modify_eq, hG, Frame.isL]
    refine ⟨Rep_plug.2 ⟨?_, trivial⟩, hroot', hnd'', ?_, hisnil⟩
    · refine RepCtx.relink hctx hnd2 (fun f' rest e => ?_) (fun i hi hne => ?_)
      · cases e
        simp [Frame.id, slot_set_self, hGl, hG, nil_node]
      · have h2 : i ≠ g := by simpa [ctxPar, Frame.id] using hne
        simp [slot_set_ne, h2]
    · simp [slot_set_ne, Ne.symm hf0, hnil]

/-- What the spliced-out node and its parent read after the child's parent
link was written. -/
theorem splice_reads {s s1 : set} {N : SetNode} {f : Frame} {fs : List Frame} {m : Nat}
    {mc : Color} {ml mr : PTree} {mv : Int}
    (h : Abs s (plug (f :: fs) (node m mc ml mv mr)) N)
    (hroot : s1.m_root = s.m_root) (hm : slot s1.store m = slot s.store m)
    (hf : slot s1.store f.id = slot s.store f.id) :
    is_root s1 (some m) = false ∧ is_left_child s1 (some m) = Except.ok f.isL ∧
      parent s1 (some m) = Except.ok (some f.id) := by
  have h1 := h.root_ne_hole
  have h2 := h.slot_focus
  have h3 := h.load_frame
  have h4 := h.sib_ptr_ne
  rw [load_eq] at h3
  cases hs : slot s.store f.id with
  | none => rw [hs] at h3; cases h3
  | some n =>
    rw [hs] at h3
    simp only [Except.ok.injEq] at h3
    subst h3
    refine ⟨?_, ?_, ?_⟩
    · simpa [is_root, hroot] using h1
    · cases f with
      | L g cg vg sib =>
        simp only [Frame.id] at hf hs
        rw [hs] at hf
        simp [is_left_child, parent, left_child, load_eq, hm, hf, h2, ctxPar, Frame.id,
          Frame.leftPtr, Frame.isL, map_ok, bind_ok, bind, Except.bind, Except.map, pure,
          Except.pure]
      | R g cg sib vg =>
        simp only [Frame.sib] at h4
        simp only [Frame.id] at hf hs
        rw [hs] at hf
        simp [is_left_child, parent, left_child, load_eq, hm, hf, h2, ctxPar, Frame.id,
          Frame.leftPtr, Frame.isL, map_ok, bind_ok, bind, Except.bind, Except.map, pure,
          Except.pure, h4]
    · simp [parent, load_eq, hm, h2, ctxPar, map_ok, Except.map]

/-- The part of `erase` after the node to splice out and its replacement
have been chosen. -/
theorem erase_tail {s s' : set} {N : SetNode} {f : Frame} {fs fsd : List Frame} {m d : Nat}
    {mc dc : Color} {ml mr t' dl dr : PTree} {mv dv : Int} {fuel n : Nat}
    (hA : Abs s (plug (f :: fs) (node m mc ml mv mr)) N) (hN : N.m_left_child = none)
    (hrep' : Rep s.store t' (some m)) (hsub : ∀ k ∈ t'.ids, k ∈ mr.ids) (hnd' : t'.ids.Nodup)
    (hT3 : plug (f :: fs) t' = plug fsd (node d dc dl dv dr)) (hdm : d ≠ m)
    (hrb : (plug (f :: fs) t').rootColor Color.Black = Color.Black)
    (he : (do
        let lp ← parent s (some m)
        let s ← set_parent s t'.ptr lp
        let s ←
          (if is_root s (some m) then
            pure { s with m_root := t'.ptr }
          else do
            let il ← is_left_child s (some m)
            let lp ← parent s (some m)
            if il then set_left_child s lp t'.ptr else set_right_child s lp t'.ptr)
        let s ←
          (if some d ≠ some m then do
            let lv ← value s (some m)
            set_value s (some d) lv
          else pure s)
        let lb ← is_black s (some m)
        let s ← (if lb then balance_after_delete fuel s t'.ptr else pure s)
        let s ← destroy_node s (some m)
        pure (1, s) : Except Fault (Nat × set)) = Except.ok (n, s')) :
    n = 1 ∧ ∃ T' N', Abs s' T' N' ∧ N'.m_left_child = none ∧
      T'.rootColor Color.Black = Color.Black ∧
      T'.toList = (plug fsd (node d dc dl mv dr)).toList := by
  have hm0 := hA.focus_ne_zero
  have hmslot := hA.slot_focus
  have hmnot : m ∉ (plug (f :: fs) t').ids := by
    have hnd := hA.nodup
    rw [nodup_plug'] at hnd
    obtain ⟨hnd1, -, hnd3⟩ := hnd
    simp only [PTree.ids, List.nodup_append, List.nodup_cons, List.mem_append, List.mem_cons,
      List.disjoint_cons_right, forall_eq_or_imp, or_imp, forall_and, forall_eq, not_or]
      at hnd1 hnd3
    rw [mem_ids_plug]
    rintro (hc | hc)
    · exact hnd1.2.1.1 (hsub m hc)
    · exact hnd3.2.1 hc
  have hfmem : f.id ∈ (plug (f :: fs) t').ids := by
    rw [mem_ids_plug]; right; simp [ctxIds, Frame.ids]
  obtain ⟨s1, s2, N2, e1, hr1, hm1, hf1, e2, hA2, hN2, hNp, hm2⟩ :=
    splice_spec hA hrep' hsub hnd'
  obtain ⟨r1, r2, r3⟩ := splice_reads hA hr1 hm1 hf1
  obtain ⟨lp, h1, he⟩ := bind_ok_inv he
  rw [hA.parent_hole] at h1
  cases h1
  obtain ⟨sa, h1, he⟩ := bind_ok_inv he
  simp only [ctxPar] at h1
  rw [e1] at h1
  cases h1
  obtain ⟨sb, h1, he⟩ := bind_ok_inv he
  simp only [r1, Bool.false_eq_true, if_false, r2, r3, bind_ok] at h1
  rw [e2] at h1
  cases h1
  obtain ⟨sc, h1, he⟩ := bind_ok_inv he
  have hne : (some d : node_pointer) ≠ some m := by simpa using hdm
  rw [if_pos hne] at h1
  obtain ⟨lv, h0, h1⟩ := bind_ok_inv h1
  have hlv : lv = mv := by
    simp [value, load_eq, hm2, hmslot, map_ok, Except.map] at h0
    exact h0.symm
  subst hlv
  rw [hT3] at hA2
  obtain ⟨s3, w, hA3, -, -, -, hfr3⟩ := hA2.set_value_focus lv
  rw [w] at h1
  cases h1
  have hperm : (plug fsd (node d dc dl lv dr)).ids.Perm (plug (f :: fs) t').ids := by
    rw [hT3]
    exact ids_plug_congr fsd (by simp only [PTree.ids]; exact List.Perm.refl _)
  have hrb3 : (plug fsd (node d dc dl lv dr)).rootColor Color.Black = Color.Black := by
    rw [hT3] at hrb
    exact (rootColor_plug_congr Color.Black fsd (node d dc dl lv dr) (node d dc dl dv dr)
      rfl).trans hrb
  obtain ⟨lb, -, he⟩ := bind_ok_inv he
  obtain ⟨sd, h1, he⟩ := bind_ok_inv he
  have key : ∃ T4 N4, Abs sd T4 N4 ∧ N4.m_left_child = none ∧
      T4.ids.Perm (plug fsd (node d dc dl lv dr)).ids ∧
      T4.toList = (plug fsd (node d dc dl lv dr)).toList ∧
      T4.rootColor Color.Black = Color.Black := by
    cases lb with
    | false =>
      simp only [Bool.false_eq_true, if_false] at h1
      cases h1
      exact ⟨_, N2, hA3, hN2.trans hN, List.Perm.refl _, rfl, hrb3⟩
    | true =>
      simp only [if_true] at h1
      refine balance_after_delete_weak ⟨_, N2, hA3, hN2.trans hN, List.Perm.refl _, rfl⟩
        (fun hnr => ?_) h1
      cases t' with
      | nil =>
        refine ⟨Or.inl rfl, f.id, hperm.mem_iff.2 hfmem, ?_⟩
        simp [parent, ptr_nil, nil_node, hA3.load_nil, map_ok, hNp rfl]
      | node k kc kl kv kr =>
        have hk : k ∈ (plug fsd (node d dc dl lv dr)).ids := by
          rw [hperm.mem_iff, mem_ids_plug]; left; simp [PTree.ids]
        exact ⟨Or.inr ⟨k, hk, rfl⟩, hasPar_of_not_root hA3 (List.Perm.refl _) hk
          (by simpa [is_root, eq_comm] using hnr)⟩
  obtain ⟨T4, N4, hA4, hN4, hI4, hL4, hrb4⟩ := key
  obtain ⟨se, h1, he⟩ := bind_ok_inv he
  have he' := pure_ok_inv he
  simp only [Prod.mk.injEq] at he'
  obtain ⟨hn, rfl⟩ := he'
  refine ⟨hn.symm, T4, N4, ?_, hN4, hrb4, hL4⟩
  unfold destroy_node at h1
  obtain ⟨b, -, h1⟩ := bind_ok_inv h1
  cases b with
  | true =>
    simp only [if_true] at h1
    cases h1
    exact hA4
  | false =>
    simp only [Bool.false_eq_true, if_false] at h1
    cases h1
    refine hA4.frame (fun i hi => slot_set_ne _ ?_) (slot_set_ne _ (Ne.symm hm0)) rfl
    rintro rfl
    exact hmnot (hperm.mem_iff.1 (hI4.mem_iff.1 hi))

theorem sublist_plug (fs : List Frame) {t t' : PTree} (h : t'.toList.Sublist t.toList) :
    (plug fs t').toList.Sublist (plug fs t).toList := by
  rw [toList_plug, toList_plug]
  exact ((List.Sublist.refl _).append h).append (List.Sublist.refl _)

theorem append_cons_exists (fsm : List Frame) (x : Frame) (fsd : List Frame) :
    ∃ f fs, fsm ++ x :: fsd = f :: fs := by
  cases fsm with
  | nil => exact ⟨x, fsd, rfl⟩
  | cons f0 rest => exact ⟨f0, rest ++ x :: fsd, rfl⟩

theorem split_plug (fs : List Frame) {t t' : PTree} {a b : List Int} {v : Int}
    (h1 : t.toList = a ++ v :: b) (h2 : t'.toList.Sublist (a ++ b)) :
    ∃ l1 l2, (plug fs t).toList = l1 ++ v :: l2 ∧ (plug fs t').toList.Sublist (l1 ++ l2) := by
  refine ⟨ctxLeft fs ++ a, b ++ ctxRight fs, ?_, ?_⟩
  · rw [toList_plug, h1]; simp
  · rw [toList_plug]
    have := ((List.Sublist.refl (ctxLeft fs)).append h2).append (List.Sublist.refl (ctxRight fs))
    simpa using this

/-- A completed `erase` leaves a well-formed tree with the sentinel's left link
still `nullptr` and a Black root.  Either the value was not met and nothing
changed, or the call returns 1 and the in-order values afterwards are among
the values before with one occurrence of the erased value taken out. -/
theorem erase_spec_weak {s s' : set} {T : PTree} {N : SetNode} {fuel : Nat} {val : Int}
    {n : Nat} (hA : Abs s T N) (hN : N.m_left_child = none)
    (hrb : T.rootColor Color.Black = Color.Black)
    (he : erase fuel s val = Except.ok (n, s')) :
    ∃ T' N', Abs s' T' N' ∧ N'.m_left_child = none ∧
      T'.rootColor Color.Black = Color.Black ∧
      ((findT val T = none ∧ n = 0 ∧ s' = s ∧ T' = T) ∨
        (n = 1 ∧ ∃ l1 l2, T.toList = l1 ++ val :: l2 ∧ T'.toList.Sublist (l1 ++ l2))) := by
  unfold erase at he
  obtain ⟨q, h1, he⟩ := bind_ok_inv he
  have hq := (find_spec val fuel hA).2 q h1
  cases hf : findT val T with
  | none =>
    rw [hf] at hq; subst hq
    rw [if_pos rfl] at he
    have he' := pure_ok_inv he
    simp only [Prod.mk.injEq] at he'
    obtain ⟨hn, rfl⟩ := he'
    exact ⟨T, N, hA, hN, hrb, Or.inl ⟨rfl, hn.symm, rfl, rfl⟩⟩
  | some d =>
    rw [hf] at hq; subst hq
    obtain ⟨fsd, dc, dl, dr, rfl⟩ := findT_focus val T d hf
    have hAl : Abs s (plug (Frame.L d dc val dr :: fsd) dl) N := hA
    have hAr : Abs s (plug (Frame.R d dc dl val :: fsd) dr) N := hA
    have hdnil : is_nil_node s (some d) = Except.ok false := hA.is_nil_sub
    rw [if_neg (by simp)] at he
    obtain ⟨dnil, h2, he⟩ := bind_ok_inv he
    rw [hdnil] at h2; cases h2
    simp only [Bool.false_eq_true, if_false] at he
    obtain ⟨cc, h3, he⟩ := bind_ok_inv he
    have hcc : children_count s (some d) =
        Except.ok ((if dl.isNil then 0 else 1) + (if dr.isNil then 0 else 1)) := by
      simp only [children_count, hA.left_focus, hA.right_focus, hAl.is_nil_sub, hAr.is_nil_sub,
        bind_ok]
      rfl
    rw [hcc] at h3; cases h3
    cases dr with
    | nil =>
      cases dl with
      | nil =>
        rw [if_pos (by simp [PTree.isNil])] at he
        cases fsd with
        | nil =>
          rw [if_pos hA.root_hole] at he
          have he' := pure_ok_inv he
          simp only [Prod.mk.injEq] at he'
          obtain ⟨hn, rfl⟩ := he'
          exact ⟨nil, N, ⟨trivial, rfl, by simp [PTree.ids], hA.nil, hA.isnil⟩, hN, rfl,
            Or.inr ⟨hn.symm, [], [], rfl, List.nil_sublist _⟩⟩
        | cons f fs =>
          rw [if_neg (by simp [hA.root_ne_hole])] at he
          obtain ⟨il, h4, he⟩ := bind_ok_inv he
          rw [hA.is_left_child_hole] at h4; cases h4
          obtain ⟨p, h4, he⟩ := bind_ok_inv he
          rw [hA.parent_hole] at h4; cases h4
          obtain ⟨s2, e2, hA2⟩ := detach_spec hA
          simp only [ctxPar] at he
          have hres : n = 1 ∧ s' = s2 := by
            cases hL : f.isL with
            | true =>
              rw [hL] at he e2
              simp only [if_true] at he e2
              obtain ⟨s3, h5, he⟩ := bind_ok_inv he
              rw [e2] at h5; cases h5
              have he' := pure_ok_inv he
              simp only [Prod.mk.injEq] at he'
              exact ⟨he'.1.symm, he'.2.symm⟩
            | false =>
              rw [hL] at he e2
              simp only [Bool.false_eq_true, if_false] at he e2
              obtain ⟨s3, h5, he⟩ := bind_ok_inv he
              rw [e2] at h5; cases h5
              have he' := pure_ok_inv he
              simp only [Prod.mk.injEq] at he'
              exact ⟨he'.1.symm, he'.2.symm⟩
          obtain ⟨hn, rfl⟩ := hres
          refine ⟨_, N, hA2, hN, ?_, Or.inr ⟨hn, split_plug (f :: fs)
            (show (node d dc nil val nil).toList = [] ++ val :: [] from rfl)
            (List.nil_sublist _)⟩⟩
          exact (rootColor_plug_congr Color.Black fs (f.fill nil)
            (f.fill (node d dc nil val nil)) (by cases f <;> rfl)).trans hrb
      | node l lc ll lv lr =>
        rw [if_neg (by simp [PTree.isNil])] at he
        obtain ⟨r, h4, he⟩ := bind_ok_inv he
        rw [hA.right_focus] at h4; cases h4
        obtain ⟨lm, h5, he⟩ := bind_ok_inv he
        rw [_btree_left_most, if_neg (PTree.ptr_ne_none _), hAr.is_nil_sub, bind_ok] at h5
        simp only [PTree.isNil, if_true] at h5
        cases pure_ok_inv h5
        obtain ⟨child, -, he⟩ := bind_ok_inv he
        obtain ⟨⟨child', lm'⟩, h7, he⟩ := bind_ok_inv he
        rw [if_pos rfl, hA.left_focus, bind_ok] at h7
        have h7' := pure_ok_inv h7
        simp only [Prod.mk.injEq] at h7'
        obtain ⟨rfl, rfl⟩ := h7'
        dsimp only at he
        have hdl : d ≠ l := by
          have hnd := hA.nodup
          rw [nodup_plug'] at hnd
          have h1 := hnd.1
          intro e
          subst e
          simp [PTree.ids, List.nodup_append] at h1
        obtain ⟨hn, T', N', hA', hN', hrb', hL'⟩ := @erase_tail _ _ _
          (Frame.L d dc val nil) fsd fsd _ d _ dc _ _ nil nil nil _ val _ _ hAl hN trivial
          (fun k hk => absurd hk (List.not_mem_nil k)) List.nodup_nil rfl hdl
          ((rootColor_plug_congr Color.Black fsd (node d dc nil val nil)
            (node d dc (node l lc ll lv lr) val nil) rfl).trans hrb) he
        refine ⟨T', N', hA', hN', hrb', Or.inr ⟨hn, ?_⟩⟩
        rw [hL']
        refine split_plug fsd (a := (node l lc ll lv lr).toList) (b := []) rfl ?_
        simp [PTree.toList]
    | node r0 rc rl rv rr =>
      rw [if_neg (by simp [PTree.isNil])] at he
      obtain ⟨r, h4, he⟩ := bind_ok_inv he
      rw [hA.right_focus] at h4; cases h4
      obtain ⟨lm, h5, he⟩ := bind_ok_inv he
      rw [_btree_left_most, if_neg (PTree.ptr_ne_none _), hAr.is_nil_sub, bind_ok] at h5
      simp only [PTree.isNil, Bool.false_eq_true, if_false, ptr_node] at h5
      obtain ⟨fsm, m, mc, mv, mr, rfl, hdr, hL⟩ :=
        left_most_loop_inv fuel (Frame.R d dc dl val :: fsd) s N r0 rc rl rv rr lm hAr h5
      have hplug : ∀ t, plug fsd (node d dc dl val (plug fsm t)) =
          plug (fsm ++ Frame.R d dc dl val :: fsd) t := fun t => by
        rw [plug_append]; rfl
      rw [hdr, hplug] at hA
      have hdm : d ≠ m := by
        have hnd := hAr.nodup
        rw [nodup_plug'] at hnd
        have h1 := hnd.2.2 m (by rw [hdr, mem_ids_plug]; left; simp [PTree.ids])
        intro e
        exact h1 (by simp [ctxIds, Frame.ids, Frame.id, e])
      have hrb2 : (plug (fsm ++ Frame.R d dc dl val :: fsd) mr).rootColor Color.Black =
          Color.Black := by
        rw [← hplug]
        exact (rootColor_plug_congr Color.Black fsd (node d dc dl val (plug fsm mr))
          (node d dc dl val (node r0 rc rl rv rr)) rfl).trans hrb
      have hT3 := (hplug mr).symm
      have hm0 := hA.focus_ne_zero
      obtain ⟨child, h6, he⟩ := bind_ok_inv he
      rw [hA.right_focus] at h6; cases h6
      obtain ⟨⟨child', lm'⟩, h7, he⟩ := bind_ok_inv he
      rw [if_neg (by simpa [nil_node] using hm0)] at h7
      have h7' := pure_ok_inv h7
      simp only [Prod.mk.injEq] at h7'
      obtain ⟨rfl, rfl⟩ := h7'
      dsimp only at he
      have hrep := hA.rep
      rw [Rep_plug] at hrep
      obtain ⟨-, -, -, -, hmr⟩ := hrep
      have hndm : mr.ids.Nodup := by
        have hnd := hA.nodup
        rw [nodup_plug'] at hnd
        have h1 := hnd.1
        simp only [PTree.ids, List.nodup_append, List.nodup_cons] at h1
        exact h1.2.1.2
      obtain ⟨f, fs, hfs⟩ := append_cons_exists fsm (Frame.R d dc dl val) fsd
      rw [hfs] at hA hT3 hrb2
      obtain ⟨hn, T', N', hA', hN', hrb', hL'⟩ := erase_tail hA hN hmr (fun k hk => hk) hndm hT3
        hdm hrb2 he
      refine ⟨T', N', hA', hN', hrb', Or.inr ⟨hn, ?_⟩⟩
      rw [hL', hdr]
      refine split_plug fsd (a := dl.toList) (b := (plug fsm (node m mc nil mv mr)).toList)
        rfl ?_
      simp only [PTree.toList, toList_plug, ctxLeft_allL fsm hL, List.nil_append,
        List.append_assoc, List.cons_append]
      exact List.Sublist.refl _

/-- A completed `erase` keeps the invariants and adds no value. -/
theorem erase_inv {s s' : set} {T : PTree} {N : SetNode} {fuel : Nat} {val : Int} {n : Nat}
    (hA : Abs s T N) (hN : N.m_left_child = none) (hrb : T.rootColor Color.Black = Color.Black)
    (he : erase fuel s val = Except.ok (n, s')) :
    ∃ T' N', Abs s' T' N' ∧ N'.m_left_child = none ∧
      T'.rootColor Color.Black = Color.Black ∧ T'.toList.Sublist T.toList := by
  obtain ⟨T', N', hA', hN', hrb', h⟩ := erase_spec_weak hA hN hrb he
  refine ⟨T', N', hA', hN', hrb', ?_⟩
  rcases h with ⟨-, -, -, rfl⟩ | ⟨-, l1, l2, e, hs⟩
  · exact List.Sublist.refl _
  · rw [e]
    exact hs.trans ((List.Sublist.refl l1).append (List.sublist_cons_self val l2))

theorem PTree.height_le_ids : ∀ (t : PTree), t.height ≤ t.ids.length
  | nil => Nat.le_refl _
  | node _ _ l _ r => by
    have h1 := PTree.height_le_ids l
    have h2 := PTree.height_le_ids r
    simp only [PTree.height, PTree.ids, List.length_append, List.length_cons]
    omega

theorem nodup_length_lt {l : List Nat} {n : Nat} (hnd : l.Nodup) (h0 : ∀ i ∈ l, i ≠ 0)
    (hlt : ∀ i ∈ l, i < n) (hn : 0 < n) : l.length < n := by
  have h1 : (0 :: l).Nodup := List.nodup_cons.2 ⟨fun h => h0 0 h rfl, hnd⟩
  have h2 : (0 :: l).toFinset ⊆ Finset.range n := by
    intro x hx
    simp only [List.toFinset_cons, Finset.mem_insert, List.mem_toFinset] at hx
    rcases hx with rfl | hx
    · exact Finset.mem_range.2 hn
    · exact Finset.mem_range.2 (hlt x hx)
  have h3 := Finset.card_le_card h2
  rw [List.toFinset_card_of_nodup h1, Finset.card_range] at h3
  simpa using h3

/-- No path of a stored tree is longer than the store. -/
theorem Abs.height_lt {s : set} {T : PTree} {N : SetNode} (h : Abs s T N) :
    T.height < s.store.length :=
  Nat.lt_of_le_of_lt (PTree.height_le_ids T)
    (nodup_length_lt h.nodup (Rep.ids_ne_zero h.rep) (Rep.ids_lt h.rep) (slot_lt h.nil))

theorem in_order_walk_spec : ∀ (fuel : Nat) (fs : List Frame) (t : PTree) (s : set)
    (N : SetNode), Abs s (plug fs t) N → t.height < fuel →
    in_order_walk fuel s t.ptr = t.toList
  | 0, _, _, _, _, _, h => absurd h (Nat.not_lt_zero _)
  | fuel + 1, fs, nil, s, N, hA, _ => by
    simp [in_order_walk, ptr_nil, nil_node, hA.load_nil, hA.isnil, PTree.toList]
  | fuel + 1, fs, node i c l v r, s, N, hA, h => by
    have hl : Abs s (plug (Frame.L i c v r :: fs) l) N := hA
    have hr : Abs s (plug (Frame.R i c l v :: fs) r) N := hA
    simp only [PTree.height] at h
    simp only [in_order_walk, ptr_node, hA.load_focus, PTree.toList]
    rw [in_order_walk_spec fuel _ l s N hl (by omega),
      in_order_walk_spec fuel _ r s N hr (by omega)]
    simp

theorem Abs.in_order_eq {s : set} {T : PTree} {N : SetNode} (h : Abs s T N) :
    in_order s = T.toList := by
  have h' : Abs s (plug [] T) N := h
  rw [in_order, h.root]
  exact in_order_walk_spec _ [] T s N h' h.height_lt

theorem bind_mono {α β : Type} {x : Except Fault α} {f g : α → Except Fault β} {b : β}
    (h : (x >>= f) = Except.ok b) (hfg : ∀ a, f a = Except.ok b → g a = Except.ok b) :
    (x >>= g) = Except.ok b := by
  cases x with
  | error e => cases h
  | ok a => exact hfg a h

theorem btree_insert_loop_mono : ∀ (fuel : Nat) (s : set) (n c : node_pointer)
    (r : set × node_pointer), _btree_insert_loop fuel s n c = Except.ok r →
    _btree_insert_loop (fuel + 1) s n c = Except.ok r
  | 0, _, _, _, _, h => by simp [_btree_insert_loop] at h
  | fuel + 1, s, n, c, r, h => by
    rw [_btree_insert_loop] at h ⊢
    by_cases hc : c = none
    · rw [if_pos hc] at h ⊢; exact h
    · rw [if_neg hc] at h ⊢
      refine bind_mono h (fun nv h => bind_mono h (fun cv h => ?_))
      by_cases hlt : nv < cv
      · rw [if_pos hlt] at h ⊢
        refine bind_mono h (fun l h => bind_mono h (fun lnil h => ?_))
        cases lnil with
        | true => exact h
        | false =>
          simp only [Bool.false_eq_true, if_false] at h ⊢
          exact btree_insert_loop_mono fuel s n l r h
      · rw [if_neg hlt] at h ⊢
        refine bind_mono h (fun l h => bind_mono h (fun lnil h => ?_))
        cases lnil with
        | true => exact h
        | false =>
          simp only [Bool.false_eq_true, if_false] at h ⊢
          exact btree_insert_loop_mono fuel s n l r h

theorem balance_after_insert_loop_mono : ∀ (fuel : Nat) (s : set) (n : node_pointer)
    (r : set), balance_after_insert_loop fuel s n = Except.ok r →
    balance_after_insert_loop (fuel + 1) s n = Except.ok r
  | 0, _, _, _, h => by simp [balance_after_insert_loop] at h
  | fuel + 1, s, n, r, h => by
    rw [balance_after_insert_loop] at h ⊢
    by_cases hc : is_root s n = true
    · rw [if_pos hc] at h ⊢; exact h
    · rw [if_neg hc] at h ⊢
      refine bind_mono h (fun p h => bind_mono h (fun pred h => ?_))
      cases pred with
      | false => exact h
      | true =>
        simp only [if_true] at h ⊢
        refine bind_mono h (fun x h => ?_)
        exact balance_after_insert_loop_mono fuel x.1 x.2 r h

theorem insert_mono_succ {fuel : Nat} {s : set} {v : Int} {r : Bool × set}
    (h : insert fuel s v = Except.ok r) : insert (fuel + 1) s v = Except.ok r := by
  unfold insert at h ⊢
  obtain ⟨⟨s1, nn⟩, h1, h⟩ := bind_ok_inv h
  have h1' : _btree_insert (fuel + 1) s v = Except.ok (s1, nn) := by
    unfold _btree_insert at h1 ⊢
    refine bind_mono h1 (fun rnil h => ?_)
    cases rnil with
    | true => exact h
    | false =>
      simp only [Bool.false_eq_true, if_false] at h ⊢
      exact btree_insert_loop_mono fuel _ _ _ _ h
  rw [h1', bind_ok]
  dsimp only at h ⊢
  by_cases hn : nn = none
  · rw [if_pos hn] at h ⊢; exact h
  · rw [if_neg hn] at h ⊢
    obtain ⟨s2, h2, h⟩ := bind_ok_inv h
    have h2' : balance_after_insert (fuel + 1) s1 nn = Except.ok s2 := by
      unfold balance_after_insert at h2 ⊢
      obtain ⟨s3, h3, h2⟩ := bind_ok_inv h2
      rw [balance_after_insert_loop_mono fuel _ _ _ h3, bind_ok]
      exact h2
    rw [h2', bind_ok]
    exact h

theorem insert_mono {fuel fuel' : Nat} {s : set} {v : Int} {r : Bool × set}
    (hle : fuel ≤ fuel') (h : insert fuel s v = Except.ok r) :
    insert fuel' s v = Except.ok r := by
  induction hle with
  | refl => exact h
  | step _ ih => exact insert_mono_succ ih

/-- What a completed `insert` returns, whatever bound its loops ran under. -/
theorem insert_any {s s' : set} {T : PTree} {N : SetNode} {v : Int} {fuel : Nat} {b : Bool}
    (hA : Abs s T N) (hrb : T.rootColor Color.Black = Color.Black)
    (h : insert fuel s v = Except.ok (b, s')) :
    b = true ∧ ∃ N', Abs s' (insertT N.m_color v s.store.length T) N' ∧
      N'.m_color = insertNilColor N.m_color v s.store.length T ∧
      (N.m_left_child = none → N'.m_left_child = none) ∧
      s'.m_size = s.m_size ∧ s'.store.length = s.store.length + 1 := by
  obtain ⟨s2, N', h2, rest⟩ := insert_spec v hA hrb (Nat.lt_of_lt_of_le (Nat.lt_succ_self _)
    (Nat.le_max_right fuel (T.height + 1)))
  have h3 := insert_mono (Nat.le_max_left fuel (T.height + 1)) h
  rw [h2] at h3
  simp only [Except.ok.injEq, Prod.mk.injEq] at h3
  obtain ⟨rfl, rfl⟩ := h3
  exact ⟨rfl, N', rest⟩

theorem Inv.init : Inv set.init :=
  ⟨nil, nil_SetNode, ⟨trivial, rfl, List.nodup_nil, rfl, rfl⟩, rfl, rfl, List.Pairwise.nil⟩

theorem Reachable.inv {s : set} (h : Reachable s) : Inv s := by
  induction h with
  | init => exact Inv.init
  | insert fuel v b _ hi ih =>
    obtain ⟨T, N, hA, hN, hrb, hs⟩ := ih
    obtain ⟨-, N', hA', -, hN', -, -⟩ := insert_any hA hrb hi
    exact ⟨_, N', hA', hN' hN, rootColor_insertT _ _ _ _, sorted_insertT _ _ _ _ hs⟩
  | erase fuel v n _ he ih =>
    obtain ⟨T, N, hA, hN, hrb, hs⟩ := ih
    obtain ⟨T', N', hA', hN', hrb', hsub⟩ := erase_inv hA hN hrb he
    exact ⟨T', N', hA', hN', hrb', hs.sublist hsub⟩

end custom

namespace custom

theorem modify_size {s s' : set} {p : node_pointer} {f : SetNode → SetNode}
    (h : modify s p f = Except.ok s') : s'.m_size = s.m_size := by
  cases p with
  | none => simp [modify] at h
  | some i =>
    rw [modify_eq] at h
    split at h
    · cases h; rfl
    · cases h

theorem rotate_left_size {s s' : set} {p : node_pointer}
    (h : rotate_left s p = Except.ok s') : s'.m_size = s.m_size := by
  unfold rotate_left at h
  repeat (first
    | (have h' := pure_ok_inv h; subst h'; first | rfl | (dsimp only; omega) | omega)
    | (obtain ⟨x, h1, h2⟩ := bind_ok_inv h
       clear h
       try dsimp only at h2
       first
       | (have hz := modify_size h1; clear h1)
       | (have hz := pure_ok_inv h1; subst hz)
       | clear h1
       rename' h2 => h)
    | split at h)

theorem rotate_right_size {s s' : set} {p : node_pointer}
    (h : rotate_right s p = Except.ok s') : s'.m_size = s.m_size := by
  unfold rotate_right at h
  repeat (first
    | (have h' := pure_ok_inv h; subst h'; first | rfl | (dsimp only; omega) | omega)
    | (obtain ⟨x, h1, h2⟩ := bind_ok_inv h
       clear h
       try dsimp only at h2
       first
       | (have hz := modify_size h1; clear h1)
       | (have hz := pure_ok_inv h1; subst hz)
       | clear h1
       rename' h2 => h)
    | split at h)

theorem balance_after_delete_left_size {s : set} {q : node_pointer} {r : set × node_pointer}
    (h : balance_after_delete_left s q = Except.ok r) : r.1.m_size = s.m_size := by
  unfold balance_after_delete_left at h
  repeat (first
    | (have h' := pure_ok_inv h; subst h'; first | rfl | (dsimp only; omega) | omega)
    | (obtain ⟨x, h1, h2⟩ := bind_ok_inv h
       clear h
       try dsimp only at h2
       first
       | (have hz := modify_size h1; clear h1)
       | (have hz := rotate_left_size h1; clear h1)
       | (have hz := rotate_right_size h1; clear h1)
       | (have hz := pure_ok_inv h1; subst hz)
       | (have hz : x.m_size = s.m_size := by
            rename' h1 => h
            (repeat (first
        | (have h' := pure_ok_inv h; subst h'; first | rfl | (dsimp only; omega) | omega)
        | (have hw := modify_size h; omega)
        | (obtain ⟨y, h1, h2⟩ := bind_ok_inv h
           clear h
           try dsimp only at h2
           first
             | (have hy := modify_size h1; clear h1)
             | (have hy := rotate_left_size h1; clear h1)
             | (have hy := rotate_right_size h1; clear h1)
             | (have hy := pure_ok_inv h1; subst hy)
             | clear h1
           rename' h2 => h)
        | split at h))
          clear h1)
       | (have hz : x.1.m_size = s.m_size := by
            rename' h1 => h
            (repeat (first
        | (have h' := pure_ok_inv h; subst h'; first | rfl | (dsimp only; omega) | omega)
        | (have hw := modify_size h; omega)
        | (obtain ⟨y, h1, h2⟩ := bind_ok_inv h
           clear h
           try dsimp only at h2
           first
             | (have hy := modify_size h1; clear h1)
             | (have hy := rotate_left_size h1; clear h1)
             | (have hy := rotate_right_size h1; clear h1)
             | (have hy := pure_ok_inv h1; subst hy)
             | clear h1
           rename' h2 => h)
        | split at h))
          clear h1)
       | clear h1
       try (have hx : x = (x.1, x.2) := rfl
            clear hx
            obtain ⟨xa, xb⟩ := x
            try dsimp only at h2
            try dsimp only at hz)
       rename' h2 => h)
    | split at h)

theorem balance_after_delete_right_size {s : set} {q : node_pointer} {r : set × node_pointer}
    (h : balance_after_delete_right s q = Except.ok r) : r.1.m_size = s.m_size := by
  unfold balance_after_delete_right at h
  repeat (first
    | (have h' := pure_ok_inv h; subst h'; first | rfl | (dsimp only; omega) | omega)
    | (obtain ⟨x, h1, h2⟩ := bind_ok_inv h
       clear h
       try dsimp only at h2
       first
       | (have hz := modify_size h1; clear h1)
       | (have hz := rotate_left_size h1; clear h1)
       | (have hz := rotate_right_size h1; clear h1)
       | (have hz := pure_ok_inv h1; subst hz)
       | (have hz : x.m_size = s.m_size := by
            rename' h1 => h
            (repeat (first
        | (have h' := pure_ok_inv h; subst h'; first | rfl | (dsimp only; omega) | omega)
        | (have hw := modify_size h; omega)
        | (obtain ⟨y, h1, h2⟩ := bind_ok_inv h
           clear h
           try dsimp only at h2
           first
             | (have hy := modify_size h1; clear h1)
             | (have hy := rotate_left_size h1; clear h1)
             | (have hy := rotate_right_size h1; clear h1)
             | (have hy := pure_ok_inv h1; subst hy)
             | clear h1
           rename' h2 => h)
        | split at h))
          clear h1)
       | (have hz : x.1.m_size = s.m_size := by
            rename' h1 => h
            (repeat (first
        | (have h' := pure_ok_inv h; subst h'; first | rfl | (dsimp only; omega) | omega)
        | (have hw := modify_size h; omega)
        | (obtain ⟨y, h1, h2⟩ := bind_ok_inv h
           clear h
           try dsimp only at h2
           first
             | (have hy := modify_size h1; clear h1)
             | (have hy := rotate_left_size h1; clear h1)
             | (have hy := rotate_right_size h1; clear h1)
             | (have hy := pure_ok_inv h1; subst hy)
             | clear h1
           rename' h2 => h)
        | split at h))
          clear h1)
       | clear h1
       try (have hx : x = (x.1, x.2) := rfl
            clear hx
            obtain ⟨xa, xb⟩ := x
            try dsimp only at h2
            try dsimp only at hz)
       rename' h2 => h)
    | split at h)

theorem balance_after_delete_loop_size : ∀ (fuel : Nat) (s : set) (q : node_pointer) (s' : set),
    balance_after_delete_loop fuel s q = Except.ok s' → s'.m_size = s.m_size
  | 0, _, _, _, h => by simp [balance_after_delete_loop] at h
  | fuel + 1, s, q, s', h => by
    rw [balance_after_delete_loop] at h
    split at h
    · cases pure_ok_inv h; rfl
    · obtain ⟨nb, -, h⟩ := bind_ok_inv h
      split at h
      · obtain ⟨il, -, h⟩ := bind_ok_inv h
        obtain ⟨⟨s1, q1⟩, h1, h⟩ := bind_ok_inv h
        have h2 := balance_after_delete_loop_size fuel s1 q1 s' h
        have h3 : s1.m_size = s.m_size := by
          split at h1
          · exact balance_after_delete_left_size h1
          · exact balance_after_delete_right_size h1
        omega
      · cases pure_ok_inv h; rfl

theorem balance_after_delete_size {fuel : Nat} {s s' : set} {q : node_pointer}
    (h : balance_after_delete fuel s q = Except.ok s') : s'.m_size = s.m_size := by
  unfold balance_after_delete at h
  obtain ⟨s1, h1, h⟩ := bind_ok_inv h
  have := balance_after_delete_loop_size fuel s q s1 h1
  have := modify_size h
  omega

theorem destroy_node_size {s s' : set} {q : node_pointer}
    (h : destroy_node s q = Except.ok s') : s'.m_size = s.m_size := by
  unfold destroy_node at h
  split at h
  · cases h
  · obtain ⟨b, -, h⟩ := bind_ok_inv h
    split at h <;> cases pure_ok_inv h <;> rfl

/-- No path through `erase` writes `m_size`. -/
theorem erase_size {fuel : Nat} {s s' : set} {v : Int} {n : Nat}
    (h : erase fuel s v = Except.ok (n, s')) : s'.m_size = s.m_size := by
  have key : ∀ r : Nat × set, erase fuel s v = Except.ok r → r.2.m_size = s.m_size := by
    intro r h
    unfold erase at h
    repeat (first
      | (have h' := pure_ok_inv h; subst h'; first | rfl | (dsimp only; omega) | omega)
      | (obtain ⟨x, h1, h2⟩ := bind_ok_inv h
         clear h
         try dsimp only at h2
         first
         | (have hz := modify_size h1; clear h1)
         | (have hz := balance_after_delete_size h1; clear h1)
         | (have hz := destroy_node_size h1; clear h1)
         | (have hz := pure_ok_inv h1; subst hz)
         | (have hz : x.m_size = s.m_size := by
              rename' h1 => h
              (repeat (first
          | (have h' := pure_ok_inv h; subst h'; first | rfl | (dsimp only; omega) | omega)
          | (have hw := modify_size h; omega)
          | (have hw := balance_after_delete_size h; omega)
          | (obtain ⟨y, h1, h2⟩ := bind_ok_inv h
             clear h
             try dsimp only at h2
             first
               | (have hy := modify_size h1; clear h1)
               | (have hy := rotate_left_size h1; clear h1)
               | (have hy := rotate_right_size h1; clear h1)
               | (have hy := pure_ok_inv h1; subst hy)
               | clear h1
             rename' h2 => h)
          | split at h))
            clear h1)
         | (have hz : x.1.m_size = s.m_size := by
              rename' h1 => h
              (repeat (first
          | (have h' := pure_ok_inv h; subst h'; first | rfl | (dsimp only; omega) | omega)
          | (have hw := modify_size h; omega)
          | (have hw := balance_after_delete_size h; omega)
          | (obtain ⟨y, h1, h2⟩ := bind_ok_inv h
             clear h
             try dsimp only at h2
             first
               | (have hy := modify_size h1; clear h1)
               | (have hy := rotate_left_size h1; clear h1)
               | (have hy := rotate_right_size h1; clear h1)
               | (have hy := pure_ok_inv h1; subst hy)
               | clear h1
             rename' h2 => h)
          | split at h))
            clear h1)
         | clear h1
         try (have hx : x = (x.1, x.2) := rfl
              clear hx
              obtain ⟨xa, xb⟩ := x
              try dsimp only at h2
              try dsimp only at hz)
         rename' h2 => h)
      | split at h)

  exact key _ h

end custom

namespace custom

open PTree

theorem isBST_iff_pairwise : ∀ (t : PTree), t.isBST ↔ t.toList.Pairwise (· < ·)
  | nil => by simp [PTree.isBST, PTree.toList]
  | node _ _ l v r => by
    simp only [PTree.isBST, PTree.toList, List.pairwise_append, List.pairwise_cons,
      List.mem_cons, isBST_iff_pairwise l, isBST_iff_pairwise r]
    constructor
    · rintro ⟨h1, h2, h3, h4⟩
      refine ⟨h3, ⟨h2, h4⟩, ?_⟩
      rintro a ha b (rfl | hb)
      · exact h1 a ha
      · exact lt_trans (h1 a ha) (h2 b hb)
    · rintro ⟨h3, ⟨h2, h4⟩, h5⟩
      exact ⟨fun x hx => h5 x hx v (Or.inl rfl), h2, h3, h4⟩

theorem Reachable.run_calls {fuel : Nat} : ∀ (cs : List Call) {s s' : set}, Reachable s →
    run_calls fuel s cs = Except.ok s' → Reachable s'
  | [], s, s', hs, h => by
    simp only [custom.run_calls, Except.ok.injEq] at h
    exact h ▸ hs
  | c :: cs, s, s', hs, h => by
    simp only [custom.run_calls] at h
    split at h
    · next s1 h1 =>
      refine Reachable.run_calls cs ?_ h
      cases c with
      | insert v =>
        simp only [call] at h1
        cases hi : custom.insert fuel s v with
        | error e => rw [hi] at h1; cases h1
        | ok r =>
          rw [hi, map_ok] at h1
          cases h1
          exact Reachable.insert fuel v r.1 hs hi
      | erase v =>
        simp only [call] at h1
        cases hi : custom.erase fuel s v with
        | error e => rw [hi] at h1; cases h1
        | ok r =>
          rw [hi, map_ok] at h1
          cases h1
          exact Reachable.erase fuel v r.1 hs hi
    · cases h

/-- Counterexample to C1 as stated: with 1 stored, `insert(1)` returns `true`
and links a second node holding 1, instead of returning `false` and leaving
the tree alone. -/
theorem insert_duplicate_returns_true :
    ∃ s1 s2, insert 100 set.init 1 = Except.ok (true, s1) ∧ in_order s1 = [1] ∧
      insert 100 s1 1 = Except.ok (true, s2) ∧ in_order s2 = [1, 1] ∧
      s2.store.length = s1.store.length + 1 :=
  ⟨_, _, rfl, by decide, rfl, by decide, by decide⟩

/-- C1, amended: in every state reachable from the empty set, `insert(v)`
returns `true` whether or not `v` is stored (for every loop bound of at least
the store size); it adds one node holding `v`, so the values stored afterwards
are `v` and the values stored before, and it leaves `size()` unchanged. -/
theorem insert_always_true (s : set) (hs : Reachable s) (v : Int) :
    ∃ s', (∀ fuel, s.store.length ≤ fuel → insert fuel s v = Except.ok (true, s')) ∧
      (in_order s').Perm (v :: in_order s) ∧ size s' = size s := by
  obtain ⟨T, N, hA, -, hrb, -⟩ := hs.inv
  obtain ⟨s', N', h1, hA', -, -, hsz, -⟩ := insert_spec v hA hrb (Nat.lt_succ_self T.height)
  refine ⟨s', fun fuel hf => insert_mono (Nat.le_trans hA.height_lt hf) h1, ?_, hsz⟩
  rw [hA'.in_order_eq, hA.in_order_eq, toList_insertT, toList_eq_insPath v T]
  simp

/-- Witness for C1: the state after `insert(1)` on the empty set, and a second `insert(1)`. -/
theorem insert_always_true_witness :
    Reachable one_node ∧
    ∃ s', (∀ fuel, one_node.store.length ≤ fuel →
        insert fuel one_node 1 = Except.ok (true, s')) ∧
      (in_order s').Perm (1 :: in_order one_node) ∧ size s' = size one_node :=
  ⟨Reachable.insert 5 1 true Reachable.init rfl,
    insert_always_true _ (Reachable.insert 5 1 true Reachable.init rfl) 1⟩

/-- Counterexample to C3 as stated: `size()` is 0 after an `insert` that
returned `true`, and it is 0, not 7, at the end of the calls of `main`, where
seven values are stored. -/
theorem size_stays_zero :
    (∃ s, insert 100 set.init 1 = Except.ok (true, s) ∧ size s = 0) ∧
    ∃ s, run_calls 100 set.init demo_calls = Except.ok s ∧ size s = 0 ∧
      in_order s = [7, 8, 10, 20, 33, 40, 100] :=
  ⟨⟨_, rfl, by decide⟩, ⟨_, rfl, by decide, by decide⟩⟩

/-- C3, amended: in every state reachable from the empty set by `insert` and
`erase` calls, `size()` is 0 and `empty()` is true: `m_size` starts at 0 and
no operation writes it. -/
theorem size_always_zero (s : set) (hs : Reachable s) : size s = 0 ∧ empty s = true := by
  have key : s.m_size = 0 := by
    induction hs with
    | init => rfl
    | insert fuel v b hr hi ih =>
      obtain ⟨T, N, hA, -, hrb, -⟩ := hr.inv
      obtain ⟨-, N', -, -, -, hsz, -⟩ := insert_any hA hrb hi
      rw [hsz]; exact ih
    | erase fuel v n _ he ih =>
      rw [erase_size he]; exact ih
  exact ⟨key, by simp [empty, size, key]⟩

/-- Witness for C3: the state after `insert(1)` on the empty set. -/
theorem size_always_zero_witness :
    Reachable one_node ∧ (size one_node = 0 ∧ empty one_node = true) :=
  ⟨Reachable.insert 5 1 true Reachable.init rfl,
    size_always_zero _ (Reachable.insert 5 1 true Reachable.init rfl)⟩

/-- C4: after insert 2, 1, 3, 4 and erase 1 the root has an empty left subtree
and a Black node in its right subtree, so invariant 4 fails. -/
theorem erase_leaf_breaks_black_height :
    ∃ s N, run_calls 100 set.init [Call.insert 2, Call.insert 1, Call.insert 3,
        Call.insert 4, Call.erase 1] = Except.ok s ∧
      Abs s (node 1 Color.Black nil 2
        (node 3 Color.Black nil 3 (node 4 Color.Red nil 4 nil))) N ∧
      ¬ (node 1 Color.Black nil 2
        (node 3 Color.Black nil 3 (node 4 Color.Red nil 4 nil))).bhOk :=
  ⟨_, _, rfl, ⟨by decide, by decide, by decide, rfl, by decide⟩, by decide⟩

/-- C5: after insert 0, 1, 2, 3, 4, 5 and erase 3 a Red node has a Red child,
so invariant 3 fails. -/
theorem erase_makes_red_red :
    ∃ s N, run_calls 100 set.init [Call.insert 0, Call.insert 1, Call.insert 2,
        Call.insert 3, Call.insert 4, Call.insert 5, Call.erase 3] = Except.ok s ∧
      Abs s (node 2 Color.Black (node 1 Color.Black nil 0 nil) 1
        (node 4 Color.Red (node 3 Color.Black nil 2 nil) 4 (node 6 Color.Red nil 5 nil))) N ∧
      ¬ (node 2 Color.Black (node 1 Color.Black nil 0 nil) 1
        (node 4 Color.Red (node 3 Color.Black nil 2 nil) 4
          (node 6 Color.Red nil 5 nil))).noRedRed :=
  ⟨_, _, rfl, ⟨by decide, by decide, by decide, rfl, by decide⟩, by decide⟩

/-- Counterexample to C6 as stated: after insert 2, 1, 2 the in-order walk is
1, 2, 2: the value 2 occurs twice and the walk is not strictly increasing. -/
theorem in_order_not_strict :
    ∃ s, run_calls 100 set.init [Call.insert 2, Call.insert 1, Call.insert 2] = Except.ok s ∧
      in_order s = [1, 2, 2] ∧ ¬ (in_order s).Pairwise (· < ·) :=
  ⟨_, rfl, by decide, by decide⟩

/-- C7: on a well-formed tree with a Black sentinel, a Black root, no Red node
with a Red child, uniform black-height and strict search-tree order, `insert`
of a value that is not stored returns `true` (for every loop bound above the
height) and the resulting tree satisfies the same five invariants and holds
the old values and the new one. -/
theorem insert_preserves_invariants (s : set) (T : PTree) (N : SetNode) (v : Int)
    (hA : Abs s T N) (hnil : N.m_color = Color.Black)
    (hroot : T.rootColor N.m_color = Color.Black) (hrr : T.noRedRed) (hbh : T.bhOk)
    (hbst : T.isBST) (hv : v ∉ T.toList) :
    ∃ s' T' N', (∀ fuel, T.height < fuel → insert fuel s v = Except.ok (true, s')) ∧
      Abs s' T' N' ∧ N'.m_color = Color.Black ∧ T'.rootColor N'.m_color = Color.Black ∧
      T'.noRedRed ∧ T'.bhOk ∧ T'.isBST ∧ ∀ w, w ∈ T'.toList ↔ w = v ∨ w ∈ T.toList := by
  rw [hnil] at hroot
  obtain ⟨s', N', h1, hA', hc, -, -, -⟩ := insert_spec v hA hroot (Nat.lt_succ_self T.height)
  rw [hnil] at hA' hc
  obtain ⟨v1, v2, v3, v4⟩ := insertT_valid v s.store.length T hbh hrr hroot
  have hN' : N'.m_color = Color.Black := hc.trans v1
  refine ⟨s', _, N', fun fuel hf => insert_mono hf h1, hA', hN', by rw [hN']; exact v2, v3, v4,
    ?_, mem_insertT _ _ _ _⟩
  rw [isBST_iff_pairwise] at hbst ⊢
  exact strictSorted_insertT _ _ _ _ hbst hv

/-- Witness for C7: the one-node tree after `insert(1)`, and `insert(5)`. -/
theorem insert_preserves_invariants_witness :
    Abs one_node (node 1 Color.Black nil 1 nil) nil_SetNode ∧
    (node 1 Color.Black nil 1 nil).noRedRed ∧ (node 1 Color.Black nil 1 nil).bhOk ∧
    (node 1 Color.Black nil 1 nil).isBST ∧ (5 : Int) ∉ (node 1 Color.Black nil 1 nil).toList ∧
    ∃ s' T' N', (∀ fuel, (node 1 Color.Black nil 1 nil).height < fuel →
        insert fuel one_node 5 = Except.ok (true, s')) ∧
      Abs s' T' N' ∧ N'.m_color = Color.Black ∧ T'.rootColor N'.m_color = Color.Black ∧
      T'.noRedRed ∧ T'.bhOk ∧ T'.isBST ∧
      ∀ w, w ∈ T'.toList ↔ w = 5 ∨ w ∈ (node 1 Color.Black nil 1 nil).toList :=
  ⟨⟨by decide, rfl, by decide, rfl, rfl⟩, by decide, by decide,
    by simp [PTree.isBST, PTree.toList], by decide,
    insert_preserves_invariants one_node (node 1 Color.Black nil 1 nil) nil_SetNode 5
      ⟨by decide, rfl, by decide, rfl, rfl⟩ rfl rfl (by decide) (by decide)
      (by simp [PTree.isBST, PTree.toList]) (by decide)⟩

/-- C8: in every state reachable from the empty set, `insert(v)` completes
(for every loop bound of at least the store size, always with the same
resulting state) and afterwards `_btree_find` returns a node holding `w` for
`w = v` and for every `w` that was stored before the call. -/
theorem insert_keeps_values (s : set) (hs : Reachable s) (v : Int) :
    ∃ s', (∀ fuel, s.store.length ≤ fuel → insert fuel s v = Except.ok (true, s')) ∧
      (∀ fuel b s'', insert fuel s v = Except.ok (b, s'') → s'' = s') ∧
      ∀ w, w = v ∨ w ∈ in_order s → ∀ fuel, s'.store.length ≤ fuel →
        ∃ i, _btree_find fuel s' w = Except.ok (some i) ∧
          value s' (some i) = Except.ok w := by
  obtain ⟨T, N, hA, hN, hrb, hsorted⟩ := hs.inv
  obtain ⟨s', N', h1, hA', -⟩ := insert_spec v hA hrb (Nat.lt_succ_self T.height)
  refine ⟨s', fun fuel hf => insert_mono (Nat.le_trans hA.height_lt hf) h1,
    fun fuel b s'' h => ?_, fun w hw fuel hf => ?_⟩
  · have h2 := insert_mono (Nat.le_max_left fuel (T.height + 1)) h
    have h3 := insert_mono (Nat.le_max_right fuel (T.height + 1)) h1
    rw [h2] at h3
    simp only [Except.ok.injEq, Prod.mk.injEq] at h3
    exact h3.2
  · rw [hA.in_order_eq] at hw
    have hmem := (mem_insertT N.m_color v s.store.length T w).2 hw
    obtain ⟨d, hd⟩ := findT_some_of_mem w _ (sorted_insertT N.m_color v s.store.length T hsorted)
      hmem
    obtain ⟨fs, c, l, r, e⟩ := findT_focus w _ d hd
    refine ⟨d, ?_, ?_⟩
    · rw [← hd]
      exact (find_spec w fuel hA').1 (Nat.lt_of_lt_of_le hA'.height_lt hf)
    · rw [e] at hA'
      exact hA'.value_focus

/-- Witness for C8: the state after `insert(1)` on the empty set, and `insert(3)`. -/
theorem insert_keeps_values_witness :
    Reachable one_node ∧
    ∃ s', (∀ fuel, one_node.store.length ≤ fuel →
        insert fuel one_node 3 = Except.ok (true, s')) ∧
      (∀ fuel b s'', insert fuel one_node 3 = Except.ok (b, s'') → s'' = s') ∧
      ∀ w, w = 3 ∨ w ∈ in_order one_node → ∀ fuel, s'.store.length ≤ fuel →
        ∃ i, _btree_find fuel s' w = Except.ok (some i) ∧
          value s' (some i) = Except.ok w :=
  ⟨Reachable.insert 5 1 true Reachable.init rfl,
    insert_keeps_values _ (Reachable.insert 5 1 true Reachable.init rfl) 3⟩

/-- C9: in every state reachable from the empty set, `erase` of a value that
the in-order walk does not meet returns 0 and the state it returns is the
state it was called on; it completes for every loop bound of at least the
store size. -/
theorem erase_absent_is_noop (s : set) (hs : Reachable s) (v : Int) (hv : v ∉ in_order s) :
    (∀ fuel, s.store.length ≤ fuel → erase fuel s v = Except.ok (0, s)) ∧
      ∀ fuel n s', erase fuel s v = Except.ok (n, s') → n = 0 ∧ s' = s := by
  obtain ⟨T, N, hA, -⟩ := hs.inv
  rw [hA.in_order_eq] at hv
  have hnone := findT_none_of_not_mem v T hv
  constructor
  · intro fuel hf
    have h1 := (find_spec v fuel hA).1 (Nat.lt_of_lt_of_le hA.height_lt hf)
    rw [hnone] at h1
    unfold erase
    rw [h1, bind_ok, if_pos rfl]
    rfl
  · intro fuel n s' h
    unfold erase at h
    obtain ⟨q, h1, h⟩ := bind_ok_inv h
    have hq := (find_spec v fuel hA).2 q h1
    rw [hnone] at hq
    subst hq
    rw [if_pos rfl] at h
    have h' := pure_ok_inv h
    simp only [Prod.mk.injEq] at h'
    exact ⟨h'.1.symm, h'.2.symm⟩

/-- Witness for C9: the state after `insert(1)` on the empty set, and `erase(4)`. -/
theorem erase_absent_is_noop_witness :
    Reachable one_node ∧ (4 : Int) ∉ in_order one_node ∧
    ((∀ fuel, one_node.store.length ≤ fuel → erase fuel one_node 4 = Except.ok (0, one_node)) ∧
      ∀ fuel n s', erase fuel one_node 4 = Except.ok (n, s') → n = 0 ∧ s' = one_node) :=
  ⟨Reachable.insert 5 1 true Reachable.init rfl, by decide,
    erase_absent_is_noop _ (Reachable.insert 5 1 true Reachable.init rfl) 4 (by decide)⟩

/-- C10: `erase(2)` after insert 5, 2, 0, 4, 7, 6 colours the sentinel Red, and
after erasing 7, 6, 5, 0, 4 as well the set is empty and its root is that Red
sentinel. -/
theorem erase_reddens_sentinel :
    (∃ s, run_calls 100 set.init [Call.insert 5, Call.insert 2, Call.insert 0, Call.insert 4,
        Call.insert 7, Call.insert 6, Call.erase 2] = Except.ok s ∧
      color s nil_node = Except.ok Color.Red) ∧
    ∃ s, run_calls 100 set.init [Call.insert 5, Call.insert 2, Call.insert 0, Call.insert 4,
        Call.insert 7, Call.insert 6, Call.erase 2, Call.erase 7, Call.erase 6, Call.erase 5,
        Call.erase 0, Call.erase 4] = Except.ok s ∧
      s.m_root = nil_node ∧ in_order s = [] ∧ color s s.m_root = Except.ok Color.Red :=
  ⟨⟨_, rfl, by decide⟩, ⟨_, rfl, by decide, by decide, by decide⟩⟩

theorem modify_color {s s' : set} {p : node_pointer} {f : SetNode → SetNode}
    (h : modify s p f = Except.ok s') (hf : ∀ n, (f n).m_color = n.m_color) :
    ∀ q, color s' q = color s q := by
  intro q
  cases p with
  | none => simp [modify] at h
  | some i =>
    rw [modify_eq] at h
    cases hs : slot s.store i with
    | none => rw [hs] at h; cases h
    | some n =>
      rw [hs] at h
      cases h
      cases q with
      | none => rfl
      | some j =>
        simp only [color, load_eq]
        by_cases hj : j = i
        · subst hj
          rw [slot_set_self _ (slot_lt hs), hs]
          simp [Except.map, hf n]
        · rw [slot_set_ne _ hj]

theorem color_set_root (s : set) (b q : node_pointer) :
    color { s with m_root := b } q = color s q := rfl

/-- `rotate<Left>` writes no colour. -/
theorem rotate_left_color {s s' : set} {p : node_pointer}
    (h : rotate_left s p = Except.ok s') : ∀ q, color s' q = color s q := by
  unfold rotate_left at h
  repeat (first
    | (have h' := pure_ok_inv h; subst h'; intro q; simp only [color_set_root, *])
    | (obtain ⟨x, h1, h2⟩ := bind_ok_inv h
       clear h
       try dsimp only at h2
       first
       | (have hz := modify_color h1 (fun _ => rfl); clear h1)
       | (have hz := pure_ok_inv h1; subst hz)
       | clear h1
       rename' h2 => h)
    | split at h)

/-- `rotate<Right>` writes no colour. -/
theorem rotate_right_color {s s' : set} {p : node_pointer}
    (h : rotate_right s p = Except.ok s') : ∀ q, color s' q = color s q := by
  unfold rotate_right at h
  repeat (first
    | (have h' := pure_ok_inv h; subst h'; intro q; simp only [color_set_root, *])
    | (obtain ⟨x, h1, h2⟩ := bind_ok_inv h
       clear h
       try dsimp only at h2
       first
       | (have hz := modify_color h1 (fun _ => rfl); clear h1)
       | (have hz := pure_ok_inv h1; subst hz)
       | clear h1
       rename' h2 => h)
    | split at h)

theorem isSearchTree_iff_pairwise : ∀ (t : PTree), t.isSearchTree ↔ t.toList.Pairwise (· ≤ ·)
  | nil => by simp [PTree.isSearchTree, PTree.toList]
  | node _ _ l v r => by
    simp only [PTree.isSearchTree, PTree.toList, List.pairwise_append, List.pairwise_cons,
      List.mem_cons, isSearchTree_iff_pairwise l, isSearchTree_iff_pairwise r]
    constructor
    · rintro ⟨h1, h2, h3, h4⟩
      refine ⟨h3, ⟨h2, h4⟩, ?_⟩
      rintro a ha b (rfl | hb)
      · exact h1 a ha
      · exact le_trans (h1 a ha) (h2 b hb)
    · rintro ⟨h3, ⟨h2, h4⟩, h5⟩
      exact ⟨fun x hx => h5 x hx v (Or.inl rfl), h2, h3, h4⟩

/-- C17: on a well-formed tree, `rotate<Left>` at a node `p` whose right child
`b` is a real node (and `rotate<Right>` at a node whose left child is a real
node) completes, leaves a well-formed tree with `b` above `p`, with the same
in-order values and the same colour in every node and in the sentinel, and
`b` is the root afterwards exactly when `p` was the root before. -/
theorem rotate_keeps_tree (s : set) (N : SetNode) (fs : List Frame) (p b : Nat)
    (cp cb : Color) (a c d : PTree) (vp vb : Int) :
    (Abs s (plug fs (node p cp a vp (node b cb c vb d))) N →
      ∃ s' N', rotate_left s (some p) = Except.ok s' ∧
        Abs s' (plug fs (node b cb (node p cp a vp c) vb d)) N' ∧
        in_order s' = in_order s ∧ (∀ q, color s' q = color s q) ∧
        is_root s' (some b) = is_root s (some p)) ∧
    (Abs s (plug fs (node p cp (node b cb a vb c) vp d)) N →
      ∃ s' N', rotate_right s (some p) = Except.ok s' ∧
        Abs s' (plug fs (node b cb a vb (node p cp c vp d))) N' ∧
        in_order s' = in_order s ∧ (∀ q, color s' q = color s q) ∧
        is_root s' (some b) = is_root s (some p)) := by
  constructor
  · intro h
    obtain ⟨s', N', h1, h2, -⟩ := rotate_left_focus h
    refine ⟨s', N', h1, h2, ?_, rotate_left_color h1, ?_⟩
    · rw [h2.in_order_eq, h.in_order_eq]
      exact toList_plug_congr fs (by simp [PTree.toList])
    · cases fs with
      | nil => rw [h2.root_hole, h.root_hole]
      | cons f fs => rw [h2.root_ne_hole, h.root_ne_hole]
  · intro h
    obtain ⟨s', N', h1, h2, -⟩ := rotate_right_focus h
    refine ⟨s', N', h1, h2, ?_, rotate_right_color h1, ?_⟩
    · rw [h2.in_order_eq, h.in_order_eq]
      exact toList_plug_congr fs (by simp [PTree.toList])
    · cases fs with
      | nil => rw [h2.root_hole, h.root_hole]
      | cons f fs => rw [h2.root_ne_hole, h.root_ne_hole]

/-- Witness for C17: `rotate<Left>` at the root of `right_pair` and
`rotate<Right>` at the root of `left_pair`. -/
theorem rotate_keeps_tree_witness :
    Abs right_pair (plug [] (node 1 Color.Black nil 0 (node 2 Color.Red nil 1 nil)))
      nil_SetNode ∧
    Abs left_pair (plug [] (node 1 Color.Black (node 2 Color.Red nil 0 nil) 1 nil))
      nil_SetNode ∧
    (∃ s' N', rotate_left right_pair (some 1) = Except.ok s' ∧
        Abs s' (plug [] (node 2 Color.Red (node 1 Color.Black nil 0 nil) 1 nil)) N' ∧
        in_order s' = in_order right_pair ∧ (∀ q, color s' q = color right_pair q) ∧
        is_root s' (some 2) = is_root right_pair (some 1)) ∧
    ∃ s' N', rotate_right left_pair (some 1) = Except.ok s' ∧
        Abs s' (plug [] (node 2 Color.Red nil 0 (node 1 Color.Black nil 1 nil))) N' ∧
        in_order s' = in_order left_pair ∧ (∀ q, color s' q = color left_pair q) ∧
        is_root s' (some 2) = is_root left_pair (some 1) :=
  ⟨⟨by decide, rfl, by decide, rfl, rfl⟩, ⟨by decide, rfl, by decide, rfl, rfl⟩,
    (rotate_keeps_tree right_pair nil_SetNode [] 1 2 Color.Black Color.Red nil nil nil 0 1).1
      ⟨by decide, rfl, by decide, rfl, rfl⟩,
    (rotate_keeps_tree left_pair nil_SetNode [] 1 2 Color.Black Color.Red nil nil nil 1 0).2
      ⟨by decide, rfl, by decide, rfl, rfl⟩⟩

/-- C20: in every state reachable from the empty set the store holds a
well-formed tree that is a search tree in the non-strict sense, and for every
loop bound of at least the store size `_btree_find(v)`, which only reads the
tree, returns a real node holding `v` when `v` is stored and `nullptr` when
it is not. -/
theorem find_iff_stored (s : set) (hs : Reachable s) :
    (∃ T N, Abs s T N ∧ T.isSearchTree ∧ in_order s = T.toList) ∧
    ∀ (v : Int) (fuel : Nat), s.store.length ≤ fuel →
      (v ∈ in_order s → ∃ i, _btree_find fuel s v = Except.ok (some i) ∧
        value s (some i) = Except.ok v ∧ is_nil_node s (some i) = Except.ok false) ∧
      (v ∉ in_order s → _btree_find fuel s v = Except.ok none) := by
  obtain ⟨T, N, hA, -, -, hsorted⟩ := hs.inv
  refine ⟨⟨T, N, hA, (isSearchTree_iff_pairwise T).2 hsorted, hA.in_order_eq⟩,
    fun v fuel hf => ?_⟩
  have hfind := (find_spec v fuel hA).1 (Nat.lt_of_lt_of_le hA.height_lt hf)
  rw [hA.in_order_eq]
  constructor
  · intro hv
    obtain ⟨d, hd⟩ := findT_some_of_mem v T hsorted hv
    obtain ⟨fs, c, l, r, e⟩ := findT_focus v T d hd
    rw [hd] at hfind
    subst e
    exact ⟨d, hfind, hA.value_focus, hA.is_nil_sub⟩
  · intro hv
    rw [findT_none_of_not_mem v T hv] at hfind
    exact hfind

/-- Witness for C20: the state after `insert(1)` on the empty set. -/
theorem find_iff_stored_witness :
    Reachable one_node ∧
    ((∃ T N, Abs one_node T N ∧ T.isSearchTree ∧ in_order one_node = T.toList) ∧
    ∀ (v : Int) (fuel : Nat), one_node.store.length ≤ fuel →
      (v ∈ in_order one_node → ∃ i, _btree_find fuel one_node v = Except.ok (some i) ∧
        value one_node (some i) = Except.ok v ∧
        is_nil_node one_node (some i) = Except.ok false) ∧
      (v ∉ in_order one_node → _btree_find fuel one_node v = Except.ok none)) :=
  ⟨Reachable.insert 5 1 true Reachable.init rfl,
    find_iff_stored _ (Reachable.insert 5 1 true Reachable.init rfl)⟩

end custom

namespace custom

theorem balance_after_delete_left_via_eq (s : set) (q : node_pointer) :
    balance_after_delete_left_via rotate_left rotate_right s q =
      balance_after_delete_left s q := rfl

theorem balance_after_delete_right_via_eq (s : set) (q : node_pointer) :
    balance_after_delete_right_via rotate_left rotate_right s q =
      balance_after_delete_right s q := rfl

theorem balance_after_delete_loop_via_eq : ∀ (fuel : Nat) (s : set) (q : node_pointer),
    balance_after_delete_loop_via rotate_left rotate_right fuel s q =
      balance_after_delete_loop fuel s q
  | 0, _, _ => rfl
  | fuel + 1, s, q => by
    simp only [balance_after_delete_loop_via, balance_after_delete_loop,
      balance_after_delete_left_via_eq, balance_after_delete_right_via_eq,
      balance_after_delete_loop_via_eq fuel]

theorem balance_after_delete_via_eq (fuel : Nat) (s : set) (q : node_pointer) :
    balance_after_delete_via rotate_left rotate_right fuel s q =
      balance_after_delete fuel s q := by
  simp only [balance_after_delete_via, balance_after_delete, balance_after_delete_loop_via_eq]

/-- With the rotations of the source as parameters, the parametrised `erase`
is `erase`. -/
theorem erase_via_eq (fuel : Nat) (s : set) (v : Int) :
    erase_via rotate_left rotate_right fuel s v = erase fuel s v := by
  simp only [erase_via, erase, balance_after_delete_via_eq]

end custom

namespace custom

open PTree

/-- C11: after `chain_calls` the six stored values form one path of six nodes,
so the height is 6 and `2 ^ 6 = 64` exceeds `(6 + 1) ^ 2 = 49`. -/
theorem chain_breaks_height_bound :
    ∃ s N, run_calls 100 set.init chain_calls = Except.ok s ∧
      Abs s (node 4 Color.Black nil 3 (node 8 Color.Red nil 7 (node 10 Color.Black nil 9
        (node 12 Color.Red nil 11 (node 13 Color.Black nil 12
          (node 14 Color.Red nil 13 nil)))))) N ∧
      in_order s = [3, 7, 9, 11, 12, 13] ∧
      (node 4 Color.Black nil 3 (node 8 Color.Red nil 7 (node 10 Color.Black nil 9
        (node 12 Color.Red nil 11 (node 13 Color.Black nil 12
          (node 14 Color.Red nil 13 nil)))))).height = 6 ∧
      ¬ 2 ^ 6 ≤ ((in_order s).length + 1) ^ 2 :=
  ⟨_, _, rfl, ⟨by decide, by decide, by decide, rfl, by decide⟩, by decide, by decide,
    by decide⟩

/-- C12: after insert 0, 1, 2, 3, erase 1, insert 1, 4, erase 3 the values
0, 1, 2, 4 are stored; `erase(4)` returns 1, `insert(4)` returns `true`, and
then only 2 and 4 are stored: 0 and 1 are no longer found. -/
theorem erase_insert_loses_values :
    ∃ s1 s2 s3, run_calls 100 set.init [Call.insert 0, Call.insert 1, Call.insert 2,
        Call.insert 3, Call.erase 1, Call.insert 1, Call.insert 4, Call.erase 3] =
        Except.ok s1 ∧ in_order s1 = [0, 1, 2, 4] ∧
      erase 100 s1 4 = Except.ok (1, s2) ∧ insert 100 s2 4 = Except.ok (true, s3) ∧
      in_order s3 = [2, 4] ∧ _btree_find 100 s3 0 = Except.ok none ∧
      _btree_find 100 s3 1 = Except.ok none :=
  ⟨_, _, _, rfl, by decide, rfl, rfl, by decide, by decide, by decide⟩

/-- C13: the calls of `main` complete for every loop bound of at least 5, always
in the same state, and the in-order walk of that state is
7, 8, 10, 20, 33, 40, 100. -/
theorem demo_final_values :
    ∃ s, (∀ fuel, run_calls (fuel + 5) set.init demo_calls = Except.ok s) ∧
      in_order s = [7, 8, 10, 20, 33, 40, 100] := by
  have h : ∃ s, run_calls 100 set.init demo_calls = Except.ok s ∧
      in_order s = [7, 8, 10, 20, 33, 40, 100] := ⟨_, rfl, by decide⟩
  obtain ⟨s, h1, h2⟩ := h
  have h3 : ∀ fuel, run_calls (fuel + 5) set.init demo_calls =
      run_calls 100 set.init demo_calls := fun _ => rfl
  exact ⟨s, fun fuel => (h3 fuel).trans h1, h2⟩

/-- C14: at the end of the calls of `main` the tree is
20B(8B(7R, 10B), 40B(33B, 100B)): the root is Black, no Red node has a Red
child and the values are in search-tree order, but below the node holding 8
the left path has no Black node and the right path has one, so invariant 4
fails. -/
theorem demo_final_unbalanced :
    ∃ s N, run_calls 100 set.init demo_calls = Except.ok s ∧
      Abs s (node 2 Color.Black
        (node 7 Color.Black (node 12 Color.Red nil 7 nil) 8 (node 3 Color.Black nil 10 nil)) 20
        (node 4 Color.Black (node 10 Color.Black nil 33 nil) 40
          (node 13 Color.Black nil 100 nil))) N ∧
      (node 2 Color.Black
        (node 7 Color.Black (node 12 Color.Red nil 7 nil) 8 (node 3 Color.Black nil 10 nil)) 20
        (node 4 Color.Black (node 10 Color.Black nil 33 nil) 40
          (node 13 Color.Black nil 100 nil))).noRedRed ∧
      (node 2 Color.Black
        (node 7 Color.Black (node 12 Color.Red nil 7 nil) 8 (node 3 Color.Black nil 10 nil)) 20
        (node 4 Color.Black (node 10 Color.Black nil 33 nil) 40
          (node 13 Color.Black nil 100 nil))).isBST ∧
      ¬ (node 2 Color.Black
        (node 7 Color.Black (node 12 Color.Red nil 7 nil) 8 (node 3 Color.Black nil 10 nil)) 20
        (node 4 Color.Black (node 10 Color.Black nil 33 nil) 40
          (node 13 Color.Black nil 100 nil))).bhOk :=
  ⟨_, _, rfl, ⟨by decide, by decide, by decide, rfl, by decide⟩, by decide,
    (isBST_iff_pairwise _).2 (by decide), by decide⟩

/-- C15: after insert 0, 1, 2, 3, 4, 5 the value 3 sits in node 4, whose
successor is the Black node 5 with the Red right child 6.  `erase(3)` splices
out node 5, runs the fixup on node 6, and node 6, now the right child of
node 4, is still Red afterwards. -/
theorem fixup_leaves_child_red :
    ∃ s s', run_calls 100 set.init [Call.insert 0, Call.insert 1, Call.insert 2,
        Call.insert 3, Call.insert 4, Call.insert 5] = Except.ok s ∧
      _btree_find 100 s 3 = Except.ok (some 4) ∧ right_child s (some 4) = Except.ok (some 5) ∧
      _btree_left_most 100 s (some 5) = Except.ok (some 5) ∧
      is_black s (some 5) = Except.ok true ∧ right_child s (some 5) = Except.ok (some 6) ∧
      is_red s (some 6) = Except.ok true ∧
      erase 100 s 3 = Except.ok (1, s') ∧ right_child s' (some 4) = Except.ok (some 6) ∧
      is_red s' (some 6) = Except.ok true :=
  ⟨_, _, rfl, by decide, by decide, by decide, by decide, by decide, by decide, rfl,
    by decide, by decide⟩

/-- C16: after insert 2, 1, 3, 0 the tree 2B(1B(0R, nil), 3B) satisfies the
red-black invariants and 3 sits in a Black node that is not the root and has no
real child.  `erase(3)` returns 1 and leaves 2B(1B(0R, nil), nil), where the
left path from the root has two Black nodes and the right path one. -/
theorem erase_black_leaf_unbalanced :
    ∃ s N s' N', run_calls 100 set.init [Call.insert 2, Call.insert 1, Call.insert 3,
        Call.insert 0] = Except.ok s ∧
      Abs s (node 1 Color.Black (node 2 Color.Black (node 4 Color.Red nil 0 nil) 1 nil) 2
        (node 3 Color.Black nil 3 nil)) N ∧ N.m_color = Color.Black ∧
      (node 1 Color.Black (node 2 Color.Black (node 4 Color.Red nil 0 nil) 1 nil) 2
        (node 3 Color.Black nil 3 nil)).noRedRed ∧
      (node 1 Color.Black (node 2 Color.Black (node 4 Color.Red nil 0 nil) 1 nil) 2
        (node 3 Color.Black nil 3 nil)).bhOk ∧
      (node 1 Color.Black (node 2 Color.Black (node 4 Color.Red nil 0 nil) 1 nil) 2
        (node 3 Color.Black nil 3 nil)).isBST ∧
      erase 100 s 3 = Except.ok (1, s') ∧
      Abs s' (node 1 Color.Black (node 2 Color.Black (node 4 Color.Red nil 0 nil) 1 nil) 2
        nil) N' ∧
      ¬ (node 1 Color.Black (node 2 Color.Black (node 4 Color.Red nil 0 nil) 1 nil) 2
        nil).bhOk :=
  ⟨_, _, _, _, rfl, ⟨by decide, by decide, by decide, rfl, by decide⟩, by decide, by decide,
    by decide, (isBST_iff_pairwise _).2 (by decide), rfl,
    ⟨by decide, by decide, by decide, rfl, by decide⟩, by decide⟩

/-- C18: after insert 0, 1, 2, 3, 5, 4 the tree 1B(0B, 3R(2B, 5B(4R, nil)))
satisfies invariants 1-5.  `erase(1)` completes, but with rotations that fault
when their pivot is the sentinel it does not: a rotation of the delete fixup
is called with the sentinel as pivot and takes the early return. -/
theorem erase_rotates_about_sentinel :
    ∃ s N s', run_calls 100 set.init [Call.insert 0, Call.insert 1, Call.insert 2,
        Call.insert 3, Call.insert 5, Call.insert 4] = Except.ok s ∧
      Abs s (node 2 Color.Black (node 1 Color.Black nil 0 nil) 1
        (node 4 Color.Red (node 3 Color.Black nil 2 nil) 3
          (node 5 Color.Black (node 6 Color.Red nil 4 nil) 5 nil))) N ∧
      N.m_color = Color.Black ∧
      (node 2 Color.Black (node 1 Color.Black nil 0 nil) 1
        (node 4 Color.Red (node 3 Color.Black nil 2 nil) 3
          (node 5 Color.Black (node 6 Color.Red nil 4 nil) 5 nil))).noRedRed ∧
      (node 2 Color.Black (node 1 Color.Black nil 0 nil) 1
        (node 4 Color.Red (node 3 Color.Black nil 2 nil) 3
          (node 5 Color.Black (node 6 Color.Red nil 4 nil) 5 nil))).bhOk ∧
      (node 2 Color.Black (node 1 Color.Black nil 0 nil) 1
        (node 4 Color.Red (node 3 Color.Black nil 2 nil) 3
          (node 5 Color.Black (node 6 Color.Red nil 4 nil) 5 nil))).isBST ∧
      erase 100 s 1 = Except.ok (1, s') ∧
      erase_via rotate_left rotate_right 100 s 1 = Except.ok (1, s') ∧
      erase_via rotate_left_checked rotate_right 100 s 1 = Except.error Fault.dangling :=
  ⟨_, _, _, rfl, ⟨by decide, by decide, by decide, rfl, by decide⟩, by decide, by decide,
    by decide, (isBST_iff_pairwise _).2 (by decide), rfl, rfl, by decide⟩

/-- C19: `fault_state` is reached by insert 0, 2, 3, 1 and holds the value 2,
but `erase(2)` returns for no loop bound: for every bound of at least 4 the
delete fixup dereferences `nullptr`, the left link of the sentinel. -/
theorem erase_faults :
    run_calls 100 set.init [Call.insert 0, Call.insert 2, Call.insert 3, Call.insert 1] =
      Except.ok fault_state ∧ (2 : Int) ∈ in_order fault_state ∧
    (∀ fuel, erase (fuel + 4) fault_state 2 = Except.error Fault.null_deref) ∧
    ∀ fuel, ∃ e, erase fuel fault_state 2 = Except.error e := by
  have h : ∀ fuel, erase (fuel + 4) fault_state 2 = Except.error Fault.null_deref :=
    fun _ => rfl
  refine ⟨by decide, by decide, h, fun fuel => ?_⟩
  match fuel with
  | 0 => exact ⟨_, rfl⟩
  | 1 => exact ⟨_, rfl⟩
  | 2 => exact ⟨_, rfl⟩
  | 3 => exact ⟨_, rfl⟩
  | k + 4 => exact ⟨_, h k⟩

/-- C6, amended: in every state reachable from the empty set by `insert` and
`erase` calls, the in-order walk of the tree yields the stored values in
non-decreasing order, and the store holds a well-formed tree that is a search
tree in the non-strict sense (no value in a left subtree is greater and no
value in a right subtree is smaller than the value of the node) whose values
the walk lists; a value may occur more than once. -/
theorem in_order_sorted (s : set) (hs : Reachable s) :
    (in_order s).Pairwise (· ≤ ·) ∧
    ∃ T N, Abs s T N ∧ T.isSearchTree ∧ in_order s = T.toList := by
  obtain ⟨T, N, hA, -, -, hsorted⟩ := hs.inv
  refine ⟨?_, T, N, hA, (isSearchTree_iff_pairwise T).2 hsorted, hA.in_order_eq⟩
  rw [hA.in_order_eq]
  exact hsorted

/-- Witness for C6: the state after `insert(2)`, `insert(1)`, `insert(3)`. -/
theorem in_order_sorted_witness :
    Reachable three_nodes ∧ in_order three_nodes = [1, 2, 3] ∧
    ((in_order three_nodes).Pairwise (· ≤ ·) ∧
      ∃ T N, Abs three_nodes T N ∧ T.isSearchTree ∧ in_order three_nodes = T.toList) :=
  ⟨Reachable.insert 10 3 true (Reachable.insert 10 1 true
      (Reachable.insert 10 2 true Reachable.init rfl) rfl) rfl, by decide,
    in_order_sorted _ (Reachable.insert 10 3 true (Reachable.insert 10 1 true
      (Reachable.insert 10 2 true Reachable.init rfl) rfl) rfl)⟩

end custom
